import Mathlib

/-!
# Legacy point monitor: shared-segment manager, containers and thread manager

A shallow embedding of `src/lib/store/list.c`, `src/lib/store/hash_table.c`,
`src/lib/store/point.c`, `src/lib/shmlib/shared_mem.c`,
`src/lib/thread_mgr/thread_mgr.c` and of the parser, the worker and the
restart of `src/bin/install_data/install_data.c`.

Conventions of the embedding.

* A C call that does not return normally is an `Except.error` carrying a
  `Fault`: a dereference of a null pointer, a loop that never ends, a
  division by zero, or a blocking call that never returns.
* Pointers that are only compared are integers (`Addr`); the null pointer is `0`.
* The System V IPC calls are not code of the repository: every operation takes
  them as an `OsModel` over an arbitrary kernel state.
-/

namespace PointMonitor

/-! ## Faults -/

/-- Ways in which a C call fails to return to its caller. -/
inductive Fault where
  /-- A null pointer was dereferenced. -/
  | nullDeref
  /-- A loop was entered that never terminates. -/
  | hang
  /-- An integer was divided by zero. -/
  | divZero
  /-- A blocking call never returned. -/
  | blocked
  deriving DecidableEq, Repr

/-- A process-local address (`void*` seen as `intptr_t`); `0` is `NULL`. -/
abbrev Addr := Int

/-! ## `list.c`: the singly linked list -/

/-- The `List` of `list.h`, named `CList` to keep Lean's `List` usable.

`items` are the `value` fields of the nodes reachable from `head` by `next`,
in order (`head == NULL` exactly when `items = []`).  `tail` is the position in
that chain of the node `list->tail` points to, `none` for `NULL`.  `size` is
the `size` field.  Nodes are never freed by `push_list_item` or
`remove_list_item`, and `tail` is only ever set to `NULL`, to the node just
pushed or to the predecessor of the node just unlinked, so `list->tail` is
`NULL` or a node of the chain. -/
structure CList (α : Type) where
  size : Int
  items : List α
  tail : Option Nat
  deriving DecidableEq, Repr

/-- The `new_list` of `list.c`: `size = 0`, `head = NULL`, `tail = NULL`. -/
def new_list {α : Type} : CList α :=
  { size := 0, items := [], tail := none }

/-- The `push_list_item` of `list.c`.

The byte loop copies `value_size` bytes from `value` onto `new_node->value`,
which is the same address, so it changes nothing.  With `head == NULL` the new
node becomes the head.  Otherwise `list->tail->next = new_node`: a null `tail`
is dereferenced, and a `tail` at position `t` gets the new node as its
successor, which cuts every node after position `t` out of the chain.  Then
`tail` is the new node and `size` grows by one. -/
def push_list_item {α : Type} (list : CList α) (value : α) : Except Fault (CList α) :=
  match list.items with
  | [] => .ok { size := list.size + 1, items := [value], tail := some 0 }
  | _ :: _ =>
    match list.tail with
    | none => .error Fault.nullDeref
    | some t =>
      .ok { size := list.size + 1
            items := list.items.take (t + 1) ++ [value]
            tail := some (list.items.take (t + 1)).length }

/-- The `remove_list_item` of `list.c`.

The loop stops at the first node whose `value` is the given one, at position
`i` say, and unlinks it.  Then, whether or not that node was the tail,
`list->tail` becomes `NULL` when the node was the head (`prev == NULL`) and
`prev`, the node at position `i - 1`, otherwise; `size` drops by one and the
result is `true`.  When no node matches nothing is written and the result is
`false`. -/
def remove_list_item {α : Type} [DecidableEq α] (list : CList α) (value : α) :
    Bool × CList α :=
  if value ∈ list.items then
    (true, { size := list.size - 1
             items := list.items.erase value
             tail := if list.items.indexOf value = 0 then none
                     else some (list.items.indexOf value - 1) })
  else (false, list)

/-! ## `hash_table.c`: the open-addressing table -/

/-- The `HashNode` of `hash_table.h`; `value` is the object the `void*` points to. -/
structure HashNode (V : Type) where
  key : Int
  size : Int
  value : V
  deriving DecidableEq, Repr

/-- The `Hash` of `hash_table.h`: `hash_array[i]` for `0 ≤ i < size`, `none`
for a `NULL` slot. -/
structure Hash (V : Type) where
  size : Nat
  hash_array : Nat → Option (HashNode V)

/-- The `new_hash` of `hash_table.c`: every slot `NULL`. -/
def new_hash {V : Type} (size : Nat) : Hash V :=
  { size := size, hash_array := fun _ => none }

/-- The `get_hash_index` of `hash_table.c`: `((unsigned int)key) % hash->size`,
the cast being reduction modulo `2^32`. -/
def get_hash_index {V : Type} (hash : Hash V) (key : Int) : Nat :=
  (key % 4294967296).toNat % hash.size

/-- Where the probing loop shared by `get_hash_item`, `insert_hash_item` and
`delete_hash_item` stops. -/
inductive Probe where
  /-- The slot holds a node with the key looked for. -/
  | found (i : Nat)
  /-- The slot is `NULL`. -/
  | empty (i : Nat)
  /-- Every slot was visited, none is `NULL` and none has the key: the loop
  goes round forever. -/
  | cycle
  deriving DecidableEq, Repr

/-- The loop `while (hash_array[i] != NULL) { if (hash_array[i]->key == key) …;
++i; i %= size; }` run for at most `fuel` slots from slot `i`. -/
def probe {V : Type} (hash : Hash V) (key : Int) : Nat → Nat → Probe
  | 0, _ => Probe.cycle
  | fuel + 1, i =>
    match hash.hash_array i with
    | none => Probe.empty i
    | some node =>
      if node.key = key then Probe.found i
      else probe hash key fuel ((i + 1) % hash.size)

/-- The `get_hash_item` of `hash_table.c`: the slot and node found for `key`,
or `none` for `NULL`.  The loop visits the slots cyclically, so after
`hash->size` occupied slots without the key it never ends. -/
def get_hash_item {V : Type} (hash : Hash V) (key : Int) :
    Except Fault (Option (Nat × HashNode V)) :=
  if hash.size = 0 then .error Fault.divZero
  else
    match probe hash key hash.size (get_hash_index hash key) with
    | Probe.found i =>
      match hash.hash_array i with
      | some node => .ok (some (i, node))
      | none => .ok none
    | Probe.empty _ => .ok none
    | Probe.cycle => .error Fault.hang

/-- The `insert_hash_item` of `hash_table.c`: the new item goes into the first
slot of the probe sequence that is `NULL` or already holds `key`. -/
def insert_hash_item {V : Type} (hash : Hash V) (key : Int) (value : V) (size : Int) :
    Except Fault (Hash V) :=
  if hash.size = 0 then .error Fault.divZero
  else
    match probe hash key hash.size (get_hash_index hash key) with
    | Probe.found i | Probe.empty i =>
      .ok { hash with
            hash_array := Function.update hash.hash_array i
              (some { key := key, size := size, value := value }) }
    | Probe.cycle => .error Fault.hang

/-- The `delete_hash_item` of `hash_table.c`: the first slot of the probe
sequence holding `key` is set to `NULL`; no other slot is touched. -/
def delete_hash_item {V : Type} (hash : Hash V) (key : Int) :
    Except Fault (Bool × Hash V) :=
  if hash.size = 0 then .error Fault.divZero
  else
    match probe hash key hash.size (get_hash_index hash key) with
    | Probe.found i =>
      .ok (true, { hash with hash_array := Function.update hash.hash_array i none })
    | Probe.empty _ => .ok (false, hash)
    | Probe.cycle => .error Fault.hang

/-! ## `shared_mem.c`: the shared-segment manager -/

/-- The `SHM_OK` of `shared_mem.h`. -/
def SHM_OK : Int := 0

/-- The `SHM_ERROR` of `shared_mem.h`. -/
def SHM_ERROR : Int := -1

/-- The `SHM_MAX_SEGMENTS` of `shared_mem.h`. -/
def SHM_MAX_SEGMENTS : Nat := 4096

/-- The `EINVAL` the source tests as `errno == 22`. -/
def EINVAL : Int := 22

/-- The `sizeof(SegmentNode)` handed to `insert_hash_item` (four `int`s and a
pointer on an LP64 machine); it is stored and never read. -/
def SIZEOF_SegmentNode : Int := 24

/-- The `SegmentNode` of `shared_mem.h`; `attachments` is the list the
`List*` points to. -/
structure SegmentNode where
  key : Int
  shm_id : Int
  lock_id : Int
  size : Int
  attachments : CList Addr
  deriving DecidableEq, Repr

/-- The globals of `shared_mem.c`: `SegmentNodes` (`none` while `NULL`) and
`UseSemaphores`. -/
structure ShmState where
  SegmentNodes : Option (Hash SegmentNode)
  UseSemaphores : Bool

/-- The state of a process that has not called the library yet. -/
def ShmState.init : ShmState :=
  { SegmentNodes := none, UseSemaphores := false }

/-- The System V IPC calls `shared_mem.c` makes, over a kernel state `σ`.
Each call returns what the C call returns (with `errno` where the source reads
it) and the kernel state after it.

* `shmget key size` is `shmget(key, size, IPC_CREAT | 0644)`;
* `shmat id` is `(intptr_t) shmat(id, NULL, 0)`;
* `shmdt addr` is `shmdt(addr)`;
* `shmctl_stat id` is `shmctl(id, IPC_STAT, &ds)`: result, `errno`, `ds.shm_nattch`;
* `shmctl_rmid id` is `shmctl(id, IPC_RMID, 0)`: result, `errno`;
* `semget key` is `semget(key, 1, IPC_CREAT | 0644)`;
* `semop id op` is `semop(id, &sem, 1)` with `sem_op = op`, `SEM_UNDO`;
* `semctl_rmid id` is `semctl(id, 0, IPC_RMID, sem)`: result, `errno`. -/
structure OsModel (σ : Type) where
  shmget : σ → Int → Int → Int × σ
  shmat : σ → Int → Addr × σ
  shmdt : σ → Addr → Int × σ
  shmctl_stat : σ → Int → (Int × Int × Int) × σ
  shmctl_rmid : σ → Int → (Int × Int) × σ
  semget : σ → Int → Int × σ
  semop : σ → Int → Int → Int × σ
  semctl_rmid : σ → Int → (Int × Int) × σ

/-- The `use_semaphores` of `shared_mem.c`. -/
def use_semaphores (set : Bool) (st : ShmState) : ShmState :=
  { st with UseSemaphores := set }

/-- The `shm_lock` (`op = -1`) and `shm_unlock` (`op = 1`) of `shared_mem.c`,
which differ in `sem_op` only. -/
def shm_semop {σ : Type} (os : OsModel σ) (op : Int) (key : Int) (st : ShmState) (w : σ) :
    Except Fault (Bool × σ) :=
  if st.UseSemaphores then
    match st.SegmentNodes with
    | none => .error Fault.nullDeref
    | some nodes =>
      match get_hash_item nodes key with
      | .error f => .error f
      | .ok none => .ok (false, w)
      | .ok (some (_, segment_hash_obj)) =>
        let r := os.semop w segment_hash_obj.value.lock_id op
        if r.1 = SHM_ERROR then .ok (false, r.2) else .ok (true, r.2)
  else .ok (true, w)

/-- The `shm_lock` of `shared_mem.c`. -/
def shm_lock {σ : Type} (os : OsModel σ) (key : Int) (st : ShmState) (w : σ) :
    Except Fault (Bool × σ) :=
  shm_semop os (-1) key st w

/-- The `shm_unlock` of `shared_mem.c`. -/
def shm_unlock {σ : Type} (os : OsModel σ) (key : Int) (st : ShmState) (w : σ) :
    Except Fault (Bool × σ) :=
  shm_semop os 1 key st w

/-- The table `connect_shm` works on: `SegmentNodes`, allocated by
`new_hash(SHM_MAX_SEGMENTS)` when still `NULL`. -/
def segment_table (st : ShmState) : Hash SegmentNode :=
  match st.SegmentNodes with
  | none => new_hash SHM_MAX_SEGMENTS
  | some nodes => nodes

/-- The `connect_shm` of `shared_mem.c`: the pointer returned (`0` for `NULL`),
the globals and the kernel state afterwards.

A new node is inserted into the table before the address is pushed onto its
list; the table holds a pointer to the node, so here the node is inserted with
the address already pushed. -/
def connect_shm {σ : Type} (os : OsModel σ) (key size : Int) (st : ShmState) (w : σ) :
    Except Fault (Addr × ShmState × σ) :=
  let nodes := segment_table st
  let st0 : ShmState := { st with SegmentNodes := some nodes }
  let g := os.shmget w key size
  if g.1 = -1 then .ok (0, st0, g.2)
  else
    let a := os.shmat g.2 g.1
    if a.1 = -1 then .ok (0, st0, a.2)
    else
      match get_hash_item nodes key with
      | .error f => .error f
      | .ok none =>
        if st.UseSemaphores then
          let s := os.semget a.2 key
          if s.1 = SHM_ERROR then .ok (0, st0, s.2)
          else
            let p := os.semop s.2 s.1 1
            match push_list_item (new_list : CList Addr) a.1 with
            | .error f => .error f
            | .ok l =>
              match insert_hash_item nodes key
                  { key := key, shm_id := g.1, lock_id := s.1, size := size,
                    attachments := l } SIZEOF_SegmentNode with
              | .error f => .error f
              | .ok nodes1 => .ok (a.1, { st with SegmentNodes := some nodes1 }, p.2)
        else
          match push_list_item (new_list : CList Addr) a.1 with
          | .error f => .error f
          | .ok l =>
            match insert_hash_item nodes key
                { key := key, shm_id := g.1, lock_id := SHM_ERROR, size := size,
                  attachments := l } SIZEOF_SegmentNode with
            | .error f => .error f
            | .ok nodes1 => .ok (a.1, { st with SegmentNodes := some nodes1 }, a.2)
      | .ok (some (i, segment_hash_obj)) =>
        match push_list_item segment_hash_obj.value.attachments a.1 with
        | .error f => .error f
        | .ok l =>
          .ok (a.1,
               { st with
                 SegmentNodes := some { nodes with
                   hash_array := Function.update nodes.hash_array i
                     (some { segment_hash_obj with
                             value := { segment_hash_obj.value with attachments := l } }) } },
               a.2)

/-- The scan of `find_key_for_address` over `n` slots from slot `i`: the `key`
field of the first node whose attachment list holds `addr`, `SHM_ERROR` when
there is none. -/
def find_key_from (nodes : Hash SegmentNode) (addr : Addr) : Nat → Nat → Int
  | 0, _ => SHM_ERROR
  | n + 1, i =>
    match nodes.hash_array i with
    | some hn =>
      if addr ∈ hn.value.attachments.items then hn.value.key
      else find_key_from nodes addr n (i + 1)
    | none => find_key_from nodes addr n (i + 1)

/-- The `find_key_for_address` of `shared_mem.c`. -/
def find_key_for_address (nodes : Hash SegmentNode) (addr : Addr) : Int :=
  find_key_from nodes addr nodes.size 0

/-- The `destroy_shm_lock` of `shared_mem.c`; it changes kernel state only. -/
def destroy_shm_lock {σ : Type} (os : OsModel σ) (key : Int) (st : ShmState) (w : σ) :
    Except Fault σ :=
  if st.UseSemaphores then
    match st.SegmentNodes with
    | none => .error Fault.nullDeref
    | some nodes =>
      match get_hash_item nodes key with
      | .error f => .error f
      | .ok none => .ok w
      | .ok (some (_, segment_hash_obj)) =>
        let s := os.shmctl_stat w segment_hash_obj.value.shm_id
        if s.1.1 = -1 ∧ s.1.2.1 ≠ EINVAL then .ok s.2
        else if (if s.1.1 = -1 then 0 else s.1.2.2) ≠ 0 then .ok s.2
        else .ok (os.semctl_rmid s.2 segment_hash_obj.value.lock_id).2
  else .ok w

/-- The `detach_shm` of `shared_mem.c`. -/
def detach_shm {σ : Type} (os : OsModel σ) (addr : Addr) (st : ShmState) (w : σ) :
    Except Fault (Int × ShmState × σ) :=
  match st.SegmentNodes with
  | none => .error Fault.nullDeref
  | some nodes =>
    let key := find_key_for_address nodes addr
    if key = SHM_ERROR then .ok (SHM_ERROR, st, w)
    else
      let d := os.shmdt w addr
      if d.1 = SHM_ERROR then .ok (SHM_ERROR, st, d.2)
      else
        match get_hash_item nodes key with
        | .error f => .error f
        | .ok none =>
          match destroy_shm_lock os key st d.2 with
          | .error f => .error f
          | .ok w1 => .ok (SHM_OK, st, w1)
        | .ok (some (i, segment_hash_obj)) =>
          let st1 : ShmState :=
            { st with
              SegmentNodes := some { nodes with
                hash_array := Function.update nodes.hash_array i
                  (some { segment_hash_obj with
                          value := { segment_hash_obj.value with
                            attachments :=
                              (remove_list_item segment_hash_obj.value.attachments addr).2 } }) } }
          match destroy_shm_lock os key st1 d.2 with
          | .error f => .error f
          | .ok w1 => .ok (SHM_OK, st1, w1)

/-- The loop of `destroy_shm` over the attachment list.  `next` is read before
`detach_shm(cur->value)` runs and unlinking a node leaves its own `next` as it
was, so the loop calls `detach_shm` on the values the list held when the loop
started, in order; the results are ignored. -/
def detach_all {σ : Type} (os : OsModel σ) : List Addr → ShmState → σ →
    Except Fault (ShmState × σ)
  | [], st, w => .ok (st, w)
  | addr :: rest, st, w =>
    match detach_shm os addr st w with
    | .error f => .error f
    | .ok r => detach_all os rest r.2.1 r.2.2

/-- The `destroy_shm` of `shared_mem.c`.  `detach_shm` never resets `SegmentNodes`,
so the table read after the loop is there. -/
def destroy_shm {σ : Type} (os : OsModel σ) (key : Int) (st : ShmState) (w : σ) :
    Except Fault (Int × ShmState × σ) :=
  match st.SegmentNodes with
  | none => .error Fault.nullDeref
  | some nodes =>
    match get_hash_item nodes key with
    | .error f => .error f
    | .ok none => .ok (SHM_ERROR, st, w)
    | .ok (some (_, segment_hash_obj)) =>
      match detach_all os segment_hash_obj.value.attachments.items st w with
      | .error f => .error f
      | .ok (st1, w1) =>
        match destroy_shm_lock os key st1 w1 with
        | .error f => .error f
        | .ok w2 =>
          let r := os.shmctl_rmid w2 segment_hash_obj.value.shm_id
          if r.1.1 ≠ 0 then
            if r.1.2 = EINVAL then
              match st1.SegmentNodes with
              | none => .error Fault.nullDeref
              | some nodes1 =>
                match delete_hash_item nodes1 key with
                | .error f => .error f
                | .ok d => .ok (SHM_ERROR, { st1 with SegmentNodes := some d.2 }, r.2)
            else .ok (SHM_ERROR, st1, r.2)
          else
            match st1.SegmentNodes with
            | none => .error Fault.nullDeref
            | some nodes1 =>
              match delete_hash_item nodes1 key with
              | .error f => .error f
              | .ok d => .ok (SHM_OK, { st1 with SegmentNodes := some d.2 }, r.2)

/-- A call of the library's public interface. -/
inductive ShmCall where
  | use_semaphores (set : Bool)
  | connect_shm (key size : Int)
  | detach_shm (addr : Addr)
  | destroy_shm (key : Int)
  | shm_lock (key : Int)
  | shm_unlock (key : Int)
  deriving DecidableEq, Repr

/-- A `bool` result as the integer C makes of it. -/
def bool_result (b : Bool) : Int := if b then 1 else 0

/-- Makes one call: the value it returns (a pointer as its address, `true` as
`1`, `false` as `0`, nothing as `0`), the globals and the kernel state after it. -/
def ShmCall.exec {σ : Type} (os : OsModel σ) (c : ShmCall) (st : ShmState) (w : σ) :
    Except Fault (Int × ShmState × σ) :=
  match c with
  | ShmCall.use_semaphores set => .ok (0, PointMonitor.use_semaphores set st, w)
  | ShmCall.connect_shm key size => PointMonitor.connect_shm os key size st w
  | ShmCall.detach_shm addr => PointMonitor.detach_shm os addr st w
  | ShmCall.destroy_shm key => PointMonitor.destroy_shm os key st w
  | ShmCall.shm_lock key =>
    match PointMonitor.shm_lock os key st w with
    | .error f => .error f
    | .ok r => .ok (bool_result r.1, st, r.2)
  | ShmCall.shm_unlock key =>
    match PointMonitor.shm_unlock os key st w with
    | .error f => .error f
    | .ok r => .ok (bool_result r.1, st, r.2)

/-- Makes the calls in order: the values returned, in order, with the globals
and the kernel state at the end. -/
def exec_all {σ : Type} (os : OsModel σ) : List ShmCall → ShmState → σ →
    Except Fault (List Int × ShmState × σ)
  | [], st, w => .ok ([], st, w)
  | c :: rest, st, w =>
    match c.exec os st w with
    | .error f => .error f
    | .ok r =>
      match exec_all os rest r.2.1 r.2.2 with
      | .error f => .error f
      | .ok q => .ok (r.1 :: q.1, q.2)

/-- Whether the call is a `connect_shm`. -/
def ShmCall.is_connect : ShmCall → Bool
  | ShmCall.connect_shm _ _ => true
  | _ => false

/-- Whether the call is one of `detach_shm`, `destroy_shm`, `shm_lock` and
`shm_unlock`, the calls that register nothing and leave `UseSemaphores` alone. -/
def ShmCall.registers_nothing : ShmCall → Bool
  | ShmCall.detach_shm _ => true
  | ShmCall.destroy_shm _ => true
  | ShmCall.shm_lock _ => true
  | ShmCall.shm_unlock _ => true
  | _ => false

/-- Whether slot `i` of the table holds a node with key `key`. -/
def has_key {V : Type} (hash : Hash V) (key : Int) (i : Nat) : Bool :=
  match hash.hash_array i with
  | some node => decide (node.key = key)
  | none => false

/-- The attachment list of the descriptor registered for `key`, traversed from
its head; empty when `get_hash_item` finds no descriptor. -/
def attached_addresses (st : ShmState) (key : Int) : List Addr :=
  match get_hash_item (segment_table st) key with
  | .ok (some (_, segment_hash_obj)) => segment_hash_obj.value.attachments.items
  | _ => []

/-- Whether `get_hash_item` finds a descriptor for `key`. -/
def registered (st : ShmState) (key : Int) : Bool :=
  match get_hash_item (segment_table st) key with
  | .ok (some _) => true
  | _ => false

/-- Two tables of one size whose slots hold the same keys. -/
def same_keys {V : Type} (h h' : Hash V) : Prop :=
  h'.size = h.size ∧ ∀ i, (h'.hash_array i).map (fun n => n.key) = (h.hash_array i).map (fun n => n.key)

/-- Makes `n` calls of `connect_shm(key, size)` in a row: the addresses returned,
in order, with the globals and the kernel state at the end; `none` as soon as a
call faults or returns null. -/
def connect_n {σ : Type} (os : OsModel σ) (key size : Int) : Nat → ShmState → σ →
    Option (List Addr × ShmState × σ)
  | 0, st, w => some ([], st, w)
  | n + 1, st, w =>
    match connect_n os key size n st w with
    | none => none
    | some r =>
      match connect_shm os key size r.2.1 r.2.2 with
      | .error _ => none
      | .ok q => if q.1 = 0 then none else some (r.1 ++ [q.1], q.2)

/-- The table holds exactly one node for `key`, `get_hash_item` finds it, its
list traversed from the head is `addrs`, which is not empty, and the list's
`tail` is its last node. -/
def descriptor_holds (st : ShmState) (key : Int) (addrs : List Addr) : Prop :=
  ∃ j hn, get_hash_item (segment_table st) key = .ok (some (j, hn)) ∧
    j < (segment_table st).size ∧
    (∀ i, i < (segment_table st).size → has_key (segment_table st) key i = true → i = j) ∧
    hn.value.attachments.items = addrs ∧
    hn.value.attachments.tail = some (addrs.length - 1) ∧ addrs ≠ []

/-- The fault that kept an operation from returning, `none` when it returned. -/
def fault_of {α : Type} : Except Fault α → Option Fault
  | .ok _ => none
  | .error f => some f

/-- The value an operation returned, `d` when it did not return. -/
def returned {α : Type} (d : α) : Except Fault α → α
  | .ok a => a
  | .error _ => d

/-! ## A small kernel to run the manager on

The repository has no kernel of its own.  `SimKernel` is a deterministic
stand-in for the System V IPC calls, used to evaluate the operations on
concrete inputs and to model several processes sharing one semaphore. -/

/-- A toy System V kernel: the next address `shmat` hands out, the live
attachments (address and segment id), the existing segment ids, and the
existing semaphores with their values. -/
structure SimKernel where
  next_addr : Int
  attached : List (Addr × Int)
  segments : List Int
  sems : List (Int × Int)
  deriving DecidableEq, Repr

/-- A kernel with no segment and no semaphore; addresses start at `4096`. -/
def SimKernel.boot : SimKernel :=
  { next_addr := 4096, attached := [], segments := [], sems := [] }

/-- The value of semaphore `id`, when it exists. -/
def SimKernel.sem_value (w : SimKernel) (id : Int) : Option Int :=
  (w.sems.find? (fun p => p.1 = id)).map (fun p => p.2)

/-- The toy kernel as an `OsModel`.

Ids are the key reduced modulo `2^32`.  `shmget` and `semget` create what is
missing (a new semaphore has value `0`) and return what exists.  `shmat` hands
out a fresh address.  `semop` adds `op` to the value; a decrement that would
make the value negative does not complete and returns `-1`, as a wait that is
interrupted does.  Calls on ids that do not exist fail with `EINVAL`. -/
def simOs : OsModel SimKernel where
  shmget w key _ :=
    let id := key % 4294967296
    (id, if id ∈ w.segments then w else { w with segments := id :: w.segments })
  shmat w id :=
    if id ∈ w.segments then
      (w.next_addr,
       { w with next_addr := w.next_addr + 4096, attached := (w.next_addr, id) :: w.attached })
    else (-1, w)
  shmdt w addr :=
    if w.attached.any (fun p => p.1 = addr) then
      (0, { w with attached := w.attached.filter (fun p => p.1 ≠ addr) })
    else (-1, w)
  shmctl_stat w id :=
    if id ∈ w.segments then
      ((0, 0, ((w.attached.filter (fun p => p.2 = id)).length : Int)), w)
    else ((-1, EINVAL, 0), w)
  shmctl_rmid w id :=
    if id ∈ w.segments then ((0, 0), { w with segments := w.segments.erase id })
    else ((-1, EINVAL), w)
  semget w key :=
    let id := key % 4294967296
    (id, if w.sems.any (fun p => p.1 = id) then w else { w with sems := (id, 0) :: w.sems })
  semop w id op :=
    match w.sem_value id with
    | none => (-1, w)
    | some v =>
      if v + op < 0 then (-1, w)
      else (0, { w with sems := w.sems.map (fun p => if p.1 = id then (p.1, v + op) else p) })
  semctl_rmid w id :=
    if w.sems.any (fun p => p.1 = id) then
      ((0, 0), { w with sems := w.sems.filter (fun p => p.1 ≠ id) })
    else ((-1, EINVAL), w)

/-- The toy kernel with a `semop` that always fails. -/
def simOs_semop_fails : OsModel SimKernel :=
  { simOs with semop := fun w _ _ => (-1, w) }

/-- A process on the toy kernel that enabled locking and connected to key `7`:
its globals and the kernel. -/
def demo_connected : List Int × ShmState × SimKernel :=
  returned ([], ShmState.init, SimKernel.boot)
    (exec_all simOs [ShmCall.use_semaphores true, ShmCall.connect_shm 7 80]
      ShmState.init SimKernel.boot)

/-- The process of `demo_connected` after `destroy_shm(7)`. -/
def demo_destroyed : Int × ShmState × SimKernel :=
  returned (0, ShmState.init, SimKernel.boot)
    (destroy_shm simOs 7 demo_connected.2.1 demo_connected.2.2)

/-- The process of `demo_destroyed` after a `detach_shm`, a `shm_lock` and a
second `destroy_shm`. -/
def demo_after_destroy : List Int × ShmState × SimKernel :=
  returned ([], ShmState.init, SimKernel.boot)
    (exec_all simOs [ShmCall.detach_shm 4096, ShmCall.shm_lock 7, ShmCall.destroy_shm 7]
      demo_destroyed.2.1 demo_destroyed.2.2)

/-- A process on the toy kernel after two `connect_shm(7, 80)` and one
`connect_shm(9, 80)`. -/
def demo_three_connects : List Int × ShmState × SimKernel :=
  returned ([], ShmState.init, SimKernel.boot)
    (exec_all simOs [ShmCall.connect_shm 7 80, ShmCall.connect_shm 7 80, ShmCall.connect_shm 9 80]
      (use_semaphores false ShmState.init) SimKernel.boot)

/-- Processes, each with its own copy of the library's globals, over one kernel. -/
structure System where
  kernel : SimKernel
  procs : Nat → ShmState

/-- Processes that have not called the library, on a freshly booted kernel. -/
def System.boot : System :=
  { kernel := SimKernel.boot, procs := fun _ => ShmState.init }

/-- Process `pid` makes the call `c` on its own globals and the shared kernel. -/
def System.step (s : System) (pid : Nat) (c : ShmCall) : Except Fault (Int × System) :=
  match c.exec simOs (s.procs pid) s.kernel with
  | .error f => .error f
  | .ok r => .ok (r.1, { kernel := r.2.2, procs := Function.update s.procs pid r.2.1 })

/-- What a call adds to the count "successful locks minus successful unlocks"
of `key`, given the value it returned (`1` for `true`). -/
def lock_delta (key : Int) (c : ShmCall) (result : Int) : Int :=
  match c with
  | ShmCall.shm_lock k => if k = key ∧ result = 1 then 1 else 0
  | ShmCall.shm_unlock k => if k = key ∧ result = 1 then -1 else 0
  | _ => 0

/-- Runs a schedule of calls, each by the process named with it, and returns
the number of successful `shm_lock(key)` minus successful `shm_unlock(key)`
over all processes, with the system reached. -/
def System.run (key : Int) : List (Nat × ShmCall) → System → Int → Except Fault (Int × System)
  | [], s, held => .ok (held, s)
  | (pid, c) :: rest, s, held =>
    match s.step pid c with
    | .error f => .error f
    | .ok r => System.run key rest r.2 (held + lock_delta key c r.1)

/-! ## `thread_mgr.c`: the thread table -/

/-- The `MAX_THREADS` of `thread_mgr.h`. -/
def MAX_THREADS : Nat := 50

/-- The `THD_OK` of `thread_mgr.h`. -/
def THD_OK : Int := 0

/-- The `THD_ERROR` of `thread_mgr.h`. -/
def THD_ERROR : Int := -1

/-- The `ThreadState` of `thread_mgr.h`. -/
inductive ThreadState where
  | PENDING
  | RUNNING
  | CANCELLED
  | FINISHED
  deriving DecidableEq, Repr

/-- The `ThreadInfo` of `thread_mgr.h`, without its mutex.  `pthread` is the
thread identifier, `func` the address of the worker function. -/
structure ThreadInfo where
  pthread : Nat
  handle : Int
  state : ThreadState
  name : String
  func : Nat
  deriving DecidableEq, Repr

/-- The array `Threads[MAX_THREADS]` of `thread_mgr.c`; `none` is a `NULL` slot. -/
abbrev ThreadTable := Nat → Option ThreadInfo

/-- The table of a process that has created no thread: `Threads = {0}`. -/
def ThreadTable.empty : ThreadTable := fun _ => none

/-- The `th_valid_handle` of `thread_mgr.c`. -/
def th_valid_handle (th : Int) : Bool :=
  decide (0 ≤ th) && decide (th < (MAX_THREADS : Int))

/-- The loop of `get_next_handle` over `n` slots from slot `idx`. -/
def next_handle_from (threads : ThreadTable) : Nat → Nat → Int
  | 0, _ => THD_ERROR
  | n + 1, idx =>
    match threads idx with
    | none => (idx : Int)
    | some _ => next_handle_from threads n (idx + 1)

/-- The `get_next_handle` of `thread_mgr.c`. -/
def get_next_handle (threads : ThreadTable) : Int :=
  next_handle_from threads MAX_THREADS 0

/-- The `th_execute` of `thread_mgr.c` on the thread table.  `func = 0` is a
null function pointer, `name` is what `set_thread_name` produced, `malloc_ok`
says whether `malloc` returned a record, and `created` is the identifier
`pthread_create` stored, `none` when it failed. -/
def th_execute (func : Nat) (name : String) (malloc_ok : Bool) (created : Option Nat)
    (threads : ThreadTable) : Int × ThreadTable :=
  if func = 0 then (THD_ERROR, threads)
  else
    let handle := get_next_handle threads
    if handle ≠ THD_ERROR then
      if malloc_ok then
        match created with
        | none => (THD_ERROR, threads)
        | some tid =>
          (handle, Function.update threads handle.toNat
            (some { pthread := tid, handle := handle, state := ThreadState.PENDING,
                    name := name, func := func }))
      else (THD_ERROR, threads)
    else (handle, threads)

/-- The start of `func_decorator`, up to the call of the worker function: under
`StoreLock` the record it was given, which is `Threads[handle]`, gets
`state = RUNNING`.  The record exists when this runs: `th_wait` joins the
thread before it frees a record that is not `FINISHED`. -/
def func_decorator_start (handle : Nat) (threads : ThreadTable) : ThreadTable :=
  match threads handle with
  | none => threads
  | some thread_info =>
    Function.update threads handle (some { thread_info with state := ThreadState.RUNNING })

/-- The `th_kill` of `thread_mgr.c`. -/
def th_kill (th : Int) (threads : ThreadTable) : Int × ThreadTable :=
  if th_valid_handle th then
    match threads th.toNat with
    | none => (THD_ERROR, threads)
    | some thread_info =>
      if thread_info.state = ThreadState.CANCELLED ∨ thread_info.state = ThreadState.FINISHED then
        (THD_ERROR, threads)
      else
        (THD_OK, Function.update threads th.toNat
          (some { thread_info with state := ThreadState.CANCELLED }))
  else (THD_ERROR, threads)

/-- The `th_exit` of `thread_mgr.c`, up to `pthread_exit`.  `tls` is what
`pthread_getspecific(ThreadHandleKey)` points to, `none` for `NULL`; both it
and `Threads[th]` are dereferenced unchecked. -/
def th_exit (tls : Option Nat) (threads : ThreadTable) : Except Fault ThreadTable :=
  match tls with
  | none => .error Fault.nullDeref
  | some th =>
    match threads th with
    | none => .error Fault.nullDeref
    | some thread_info =>
      .ok (Function.update threads th (some { thread_info with state := ThreadState.FINISHED }))

/-- The order the specification gives the states: `Pending < Running <
{Cancelled, Finished}`, the last two not comparable. -/
def ThreadState.le : ThreadState → ThreadState → Bool
  | ThreadState.PENDING, _ => true
  | ThreadState.RUNNING, ThreadState.PENDING => false
  | ThreadState.RUNNING, _ => true
  | ThreadState.CANCELLED, ThreadState.CANCELLED => true
  | ThreadState.CANCELLED, _ => false
  | ThreadState.FINISHED, ThreadState.FINISHED => true
  | ThreadState.FINISHED, _ => false

/-- The `th_cleanup` of `thread_mgr.c`: the record is freed and `Threads[th]`
becomes `NULL`. -/
def th_cleanup (th : Nat) (threads : ThreadTable) : ThreadTable :=
  Function.update threads th none

/-- The `th_wait` of `thread_mgr.c`.  `joins p` says whether
`pthread_join(p, NULL)` returns, which it does once thread `p` has terminated;
its result is not looked at.  The `default` branch of the `switch` is for a
`state` outside the enumeration, which a `ThreadState` cannot be. -/
def th_wait (joins : Nat → Bool) (th : Int) (threads : ThreadTable) :
    Except Fault (Int × ThreadTable) :=
  if th_valid_handle th then
    match threads th.toNat with
    | none => .ok (THD_ERROR, threads)
    | some thread_info =>
      match thread_info.state with
      | ThreadState.FINISHED => .ok (THD_OK, th_cleanup th.toNat threads)
      | _ =>
        if joins thread_info.pthread then .ok (THD_OK, th_cleanup th.toNat threads)
        else .error Fault.blocked
  else .ok (THD_ERROR, threads)

/-- The loop of `th_wait_all` over `n` handles from `idx`: `ret &= th_wait(idx)`. -/
def th_wait_all_from (joins : Nat → Bool) : Nat → Nat → Int → ThreadTable →
    Except Fault (Int × ThreadTable)
  | 0, _, ret, threads => .ok (ret, threads)
  | n + 1, idx, ret, threads =>
    match th_wait joins (idx : Int) threads with
    | .error f => .error f
    | .ok r => th_wait_all_from joins n (idx + 1) (Int.land ret r.1) r.2

/-- The `th_wait_all` of `thread_mgr.c`. -/
def th_wait_all (joins : Nat → Bool) (threads : ThreadTable) :
    Except Fault (Int × ThreadTable) :=
  th_wait_all_from joins MAX_THREADS 0 THD_ERROR threads

/-- The loop of `th_kill_all` over `n` handles from `idx`: `ret &= th_kill(idx)`. -/
def th_kill_all_from : Nat → Nat → Int → ThreadTable → Int × ThreadTable
  | 0, _, ret, threads => (ret, threads)
  | n + 1, idx, ret, threads =>
    th_kill_all_from n (idx + 1) (Int.land ret (th_kill (idx : Int) threads).1)
      (th_kill (idx : Int) threads).2

/-- The `th_kill_all` of `thread_mgr.c`. -/
def th_kill_all (threads : ThreadTable) : Int × ThreadTable :=
  th_kill_all_from MAX_THREADS 0 THD_ERROR threads

/-- What `th_kill` makes of a record: `CANCELLED` unless it is `CANCELLED` or
`FINISHED` already. -/
def cancel_if_live (thread_info : ThreadInfo) : ThreadInfo :=
  if thread_info.state = ThreadState.CANCELLED ∨ thread_info.state = ThreadState.FINISHED then
    thread_info
  else { thread_info with state := ThreadState.CANCELLED }

/-- A call of the thread manager other than `th_execute`, with the start of
the decorator and `th_exit` as the worker threads make them. -/
inductive ThreadCall where
  | th_wait (th : Int)
  | th_wait_all
  | th_kill (th : Int)
  | th_kill_all
  | th_exit (tls : Option Nat)
  | func_decorator_start (handle : Nat)
  deriving DecidableEq, Repr

/-- Makes one call on the thread table: the value returned (`0` where the C
function returns nothing or does not return to its caller) and the table. -/
def ThreadCall.exec (joins : Nat → Bool) (c : ThreadCall) (threads : ThreadTable) :
    Except Fault (Int × ThreadTable) :=
  match c with
  | ThreadCall.th_wait th => PointMonitor.th_wait joins th threads
  | ThreadCall.th_wait_all => PointMonitor.th_wait_all joins threads
  | ThreadCall.th_kill th => .ok (PointMonitor.th_kill th threads)
  | ThreadCall.th_kill_all => .ok (PointMonitor.th_kill_all threads)
  | ThreadCall.th_exit tls =>
    match PointMonitor.th_exit tls threads with
    | .error f => .error f
    | .ok t => .ok (0, t)
  | ThreadCall.func_decorator_start handle =>
    .ok (0, PointMonitor.func_decorator_start handle threads)

/-- Makes the calls in order: the table at the end. -/
def thread_calls (joins : Nat → Bool) : List ThreadCall → ThreadTable → Except Fault ThreadTable
  | [], threads => .ok threads
  | c :: rest, threads =>
    match c.exec joins threads with
    | .error f => .error f
    | .ok r => thread_calls joins rest r.2

/-! ## `thread_mgr.c`: the signal table -/

/-- The `MAX_SIGNAL` of `thread_mgr.c`. -/
def MAX_SIGNAL : Nat := 15

/-- The `sizeof(void*)` handed to `insert_hash_item`; it is stored and never read. -/
def SIZEOF_pointer : Int := 8

/-- The `th_install_signal_handler` of `thread_mgr.c` on `SignalHandlers`
(`none` while `NULL`).  `mask_ok` says whether `sigemptyset` and `sigaddset`
succeeded, `procmask_ok` whether `sigprocmask` did, `sigaction_ok` whether
`sigaction` did.  The value stored is the `SignalHandlerCallback` holding
`handler`. -/
def th_install_signal_handler (mask_ok procmask_ok sigaction_ok : Bool) (signum : Int)
    (handler : Nat) (handlers : Option (Hash Nat)) : Except Fault (Bool × Option (Hash Nat)) :=
  if signum > (MAX_SIGNAL : Int) then .ok (false, handlers)
  else if mask_ok = false then .ok (false, handlers)
  else if procmask_ok = false then .ok (false, handlers)
  else if sigaction_ok = false then .ok (false, handlers)
  else
    match insert_hash_item
        (match handlers with
         | none => new_hash MAX_SIGNAL
         | some h => h) signum handler SIZEOF_pointer with
    | .error f => .error f
    | .ok h => .ok (true, some h)

/-- The `th_uninstall_signal_handler` of `thread_mgr.c`. -/
def th_uninstall_signal_handler (mask_ok procmask_ok : Bool) (signum : Int)
    (handlers : Option (Hash Nat)) : Except Fault (Bool × Option (Hash Nat)) :=
  if signum > (MAX_SIGNAL : Int) then .ok (false, handlers)
  else if mask_ok = false then .ok (false, handlers)
  else if procmask_ok = false then .ok (false, handlers)
  else
    match handlers with
    | none => .ok (false, none)
    | some h =>
      match delete_hash_item h signum with
      | .error f => .error f
      | .ok d => .ok (true, some d.2)

/-- The callback the manager thread finds for `signum`: the value of the node
`get_hash_item(SignalHandlers, signum)` returns, `none` when it returns `NULL`
or there is no table. -/
def signal_callback (handlers : Option (Hash Nat)) (signum : Int) : Except Fault (Option Nat) :=
  match handlers with
  | none => .ok none
  | some h =>
    match get_hash_item h signum with
    | .error f => .error f
    | .ok none => .ok none
    | .ok (some (_, node)) => .ok (some node.value)

/-- Every entry of the signal table was installed for a signal number from `1`
to `15` and sits in the slot its number hashes to. -/
def signal_table_direct (h : Hash Nat) : Prop :=
  h.size = MAX_SIGNAL ∧
  ∀ i node, h.hash_array i = some node →
    1 ≤ node.key ∧ node.key ≤ 15 ∧ get_hash_index h node.key = i

/-! ## `point.c` and the worker of `install_data.c` -/

/-- The `MAX_NUM_POINTS` of `point.h`. -/
def MAX_NUM_POINTS : Nat := 20

/-- The `Point` of `point.h`.  `F` stands for `float`: the operations here only
copy `x` and `y`. -/
structure Point (F : Type) where
  is_valid : Int
  x : F
  y : F
  deriving DecidableEq, Repr

/-- The `PointTask` of `point.h`. -/
structure PointTask (F : Type) where
  index : Int
  delay : Int
  point : Point F
  deriving DecidableEq, Repr

/-- The array of points a `void*` to the shared region addresses: element `i`. -/
abbrev Region (F : Type) := Nat → Point F

/-- The `install_point` of `point.c`: `memcpy` of the point onto element `index`. -/
def install_point {F : Type} (addr : Region F) (index : Int) (point : Point F) : Region F :=
  if index < 0 ∨ index ≥ (MAX_NUM_POINTS : Int) then addr
  else Function.update addr index.toNat point

/-- The `invalidate_point` of `point.c`. -/
def invalidate_point {F : Type} (addr : Region F) (index : Int) : Region F :=
  if index < 0 ∨ index ≥ (MAX_NUM_POINTS : Int) then addr
  else Function.update addr index.toNat { addr index.toNat with is_valid := 0 }

/-- The `SHM_KEY` of `install_data.c`. -/
def SHM_KEY : Int := 8675309

/-- The loop of `iterate_list` over the nodes from `node` on: the values they
hold are handed to `processor` in order. -/
def iterate_nodes {α S : Type} (processor : α → S → Except Fault S) : List α → S →
    Except Fault S
  | [], s => .ok s
  | value :: rest, s =>
    match processor value s with
    | .error f => .error f
    | .ok s1 => iterate_nodes processor rest s1

/-- The `iterate_list` of `list.c`, for a `processor` that works on a state
and may fault. -/
def iterate_list {α S : Type} (list : CList α) (processor : α → S → Except Fault S) (s : S) :
    Except Fault S :=
  iterate_nodes processor list.items s

/-- The `process_entry` of `install_data.c` on the region `ShmAddr` and the
kernel state; `st` are the globals of the segment manager.  Sleeping and
logging (with `get_thread_name` and `show_points`) change neither. -/
def process_entry {σ F : Type} (os : OsModel σ) (st : ShmState) (task : PointTask F)
    (s : Region F × σ) : Except Fault (Region F × σ) :=
  if task.index < 0 ∨ task.index ≥ (MAX_NUM_POINTS : Int) then .ok s
  else
    match shm_lock os SHM_KEY st s.2 with
    | .error f => .error f
    | .ok l =>
      if l.1 then
        let region :=
          if task.delay ≥ 0 then install_point s.1 task.index task.point
          else invalidate_point s.1 task.index
        match shm_unlock os SHM_KEY st l.2 with
        | .error f => .error f
        | .ok u => .ok (region, u.2)
      else .ok (s.1, l.2)

/-- What `process_entry` does to the region when `shm_lock` grants the lock. -/
def apply_task {F : Type} (task : PointTask F) (region : Region F) : Region F :=
  if task.index < 0 ∨ task.index ≥ (MAX_NUM_POINTS : Int) then region
  else if task.delay ≥ 0 then install_point region task.index task.point
  else invalidate_point region task.index

/-- The pass of `thread_entry_point` of `install_data.c` over the list `Tasks`:
`iterate_list(Tasks, process_entry)`. -/
def thread_entry_point {σ F : Type} (os : OsModel σ) (st : ShmState)
    (Tasks : CList (PointTask F)) (s : Region F × σ) : Except Fault (Region F × σ) :=
  iterate_list Tasks (process_entry os st) s

/-- The last task of the list whose index is `i`. -/
def last_task_for {F : Type} (i : Int) : List (PointTask F) → Option (PointTask F)
  | [] => none
  | task :: rest =>
    match last_task_for i rest with
    | some later => some later
    | none => if task.index = i then some task else none

/-- A thread table with one record, `PENDING`, in slot `0`. -/
def demo_threads : ThreadTable :=
  (th_execute 1 "A" true (some 1) ThreadTable.empty).2

/-- The record of `demo_threads`. -/
def demo_thread_info : ThreadInfo :=
  { pthread := 1, handle := 0, state := ThreadState.PENDING, name := "A", func := 1 }

/-- The tasks of the script `0 1.0 2.0 0`, `1 3.0 4.0 0`, as `create_entry`
pushes them. -/
def demo_tasks : CList (PointTask ℚ) :=
  { size := 2
    items := [{ index := 0, delay := 0, point := { is_valid := 1, x := 1, y := 2 } },
              { index := 1, delay := 0, point := { is_valid := 1, x := 3, y := 4 } }]
    tail := some 1 }

/-- A zero-filled region. -/
def zero_region : Region ℚ := fun _ => { is_valid := 0, x := 0, y := 0 }

/-! ## `point.c`: the statistics -/

/-- The arithmetic on `float` that `show_points` and `clear_and_restart` use:
the value `0`, the sum of two floats, and the quotient of a float by an `int`
(which C converts to `float` first). -/
structure FloatOps (F : Type) where
  zero : F
  add : F → F → F
  div_int : F → Int → F

/-- Exact arithmetic on the rationals, to evaluate on values that `float`
represents exactly. -/
def ratOps : FloatOps ℚ :=
  { zero := 0, add := fun a b => a + b, div_int := fun a n => a / (n : ℚ) }

/-- What the `PointStats(...)` line of `show_points` reports. -/
structure PointStats (F : Type) where
  valid_count : Int
  avg_x : F
  avg_y : F
  deriving DecidableEq, Repr

/-- The first loop of `show_points`, for `n` more elements from `idx`, on
`(valid_points, sum_x, sum_y)`. -/
def collect_points {F : Type} (ops : FloatOps F) (shmaddr : Region F) :
    Nat → Nat → Int × F × F → Int × F × F
  | 0, _, acc => acc
  | n + 1, idx, acc =>
    collect_points ops shmaddr n (idx + 1)
      (if (shmaddr idx).is_valid = 1 then
        (acc.1 + 1, ops.add acc.2.1 (shmaddr idx).x, ops.add acc.2.2 (shmaddr idx).y)
       else acc)

/-- The `show_points` of `point.c`: the statistics it logs.  With no valid
point it logs the fixed line `valid_count=0, avg_x=0, avg_y=0`.  The lines that
list the valid points are not part of the result. -/
def show_points {F : Type} (ops : FloatOps F) (shmaddr : Region F) (max : Int) : PointStats F :=
  let s := collect_points ops shmaddr max.toNat 0 (0, ops.zero, ops.zero)
  if s.1 > 0 then
    { valid_count := s.1, avg_x := ops.div_int s.2.1 s.1, avg_y := ops.div_int s.2.2 s.1 }
  else { valid_count := 0, avg_x := ops.zero, avg_y := ops.zero }

/-- The indexes below `max` of the elements with `is_valid == 1`, in order. -/
def valid_slots {F : Type} (shmaddr : Region F) (max : Int) : List Nat :=
  (List.range max.toNat).filter (fun i => decide ((shmaddr i).is_valid = 1))

/-! ## `install_data.c`: parsing the script and restarting -/

/-- What `sscanf(line, "%d %f %f %d", ...)` gives: the number of items it
assigned (`-1` for `EOF`) and the four variables afterwards. -/
structure Scanned (F : Type) where
  found_items : Int
  index : Int
  x : F
  y : F
  delay : Int
  deriving DecidableEq, Repr

/-- The `create_entry` of `install_data.c`; `sscanf` is the C library's. -/
def create_entry {F : Type} (sscanf : String → Scanned F) (task_list : CList (PointTask F))
    (line : String) : Except Fault (CList (PointTask F)) :=
  let s := sscanf line
  if s.found_items ≠ 4 then .ok task_list
  else
    let task : PointTask F :=
      { index := s.index, delay := s.delay, point := { is_valid := 1, x := s.x, y := s.y } }
    if task.index < 0 ∨ task.index ≥ (MAX_NUM_POINTS : Int) then .ok task_list
    else push_list_item task_list task

/-- The loop `while (getline(...) != -1) create_entry(Tasks, line)` of `main`
over the lines of the file. -/
def read_lines {F : Type} (sscanf : String → Scanned F) :
    List String → CList (PointTask F) → Except Fault (CList (PointTask F))
  | [], task_list => .ok task_list
  | line :: rest, task_list =>
    match create_entry sscanf task_list line with
    | .error f => .error f
    | .ok l => read_lines sscanf rest l

/-- The list `Tasks` that `main` builds: `new_list()` and then one
`create_entry` per line. -/
def parse_script {F : Type} (sscanf : String → Scanned F) (lines : List String) :
    Except Fault (CList (PointTask F)) :=
  read_lines sscanf lines new_list

/-- The `clear_and_restart` of `install_data.c` on the region:
`memset(ShmAddr, 0, sizeof(Point) * MAX_NUM_POINTS)`. -/
def clear_and_restart {F : Type} (ops : FloatOps F) (ShmAddr : Region F) : Region F :=
  fun i => if i < MAX_NUM_POINTS then { is_valid := 0, x := ops.zero, y := ops.zero }
           else ShmAddr i

/-- The loop of `main` of `install_data.c`, seen from the region.

Without `SIGHUP` (`none`) one worker makes its pass over `Tasks` and the loop
ends.  With one `SIGHUP` (`some (k, m)`) the first worker has processed `k`
tasks when `clear_and_restart` zero-fills the region and `m` more before
`th_kill_all` cancels it; `ReinstallTasks` is set, so the loop starts a second
worker, which makes a pass over the whole list.  A `SIGHUP` immediately after
startup is `some (0, 0)`. -/
def producer_run {σ F : Type} (os : OsModel σ) (st : ShmState) (ops : FloatOps F)
    (Tasks : CList (PointTask F)) (sighup : Option (Nat × Nat)) (s : Region F × σ) :
    Except Fault (Region F × σ) :=
  match sighup with
  | none => thread_entry_point os st Tasks s
  | some (k, m) =>
    match iterate_nodes (process_entry os st) (Tasks.items.take k) s with
    | .error f => .error f
    | .ok s1 =>
      match iterate_nodes (process_entry os st) ((Tasks.items.drop k).take m)
          (clear_and_restart ops s1.1, s1.2) with
      | .error f => .error f
      | .ok s2 => thread_entry_point os st Tasks s2

/-! ## Properties of the containers -/

/-- The invariant of the list: `tail` is the last node reachable from `head`,
`NULL` when there is none, and `size` is the number of nodes reachable. -/
def tail_is_last {α : Type} (list : CList α) : Prop :=
  list.tail = (if list.items.length = 0 then none else some (list.items.length - 1)) ∧
  list.size = (list.items.length : Int)

/-- The number of slots of the table that are not `NULL`. -/
def occupied_slots {V : Type} (hash : Hash V) : Nat :=
  ((List.range hash.size).filter (fun i => (hash.hash_array i).isSome)).length

/-! ## A small `sscanf` to run the parser on

`sscanf` is the C library's.  `sscanf_decimal` is a stand-in for the format
`"%d %f %f %d"` on lines in plain decimal notation (no exponent, no `inf`, no
`nan`, no hexadecimal), with numbers as large as they are written. -/

/-- A decimal number as written: `mantissa / 10 ^ scale`. -/
structure Decimal where
  mantissa : Int
  scale : Nat
  deriving DecidableEq, Repr

/-- The characters `isspace` accepts. -/
def is_space (c : Char) : Bool :=
  c.toNat = 32 || (9 ≤ c.toNat && c.toNat ≤ 13)

/-- Skips the white space at the start of the input. -/
def skip_space : List Char → List Char
  | [] => []
  | c :: rest => if is_space c then skip_space rest else c :: rest

/-- Reads decimal digits: the number read so far is `acc` after `n` digits. -/
def scan_digits : List Char → Nat → Nat → Nat × Nat × List Char
  | [], acc, n => (acc, n, [])
  | c :: rest, acc, n =>
    if 48 ≤ c.toNat && c.toNat ≤ 57 then scan_digits rest (acc * 10 + (c.toNat - 48)) (n + 1)
    else (acc, n, c :: rest)

/-- Reads an optional sign: whether it is `-`, and the rest of the input. -/
def scan_sign : List Char → Bool × List Char
  | [] => (false, [])
  | c :: rest => if c = '-' then (true, rest) else if c = '+' then (false, rest)
                 else (false, c :: rest)

/-- The conversion `%d`: `none` for a matching failure. -/
def scan_int (input : List Char) : Option (Int × List Char) :=
  let s := scan_sign (skip_space input)
  let d := scan_digits s.2 0 0
  if d.2.1 = 0 then none
  else some (if s.1 then -(d.1 : Int) else (d.1 : Int), d.2.2)

/-- The conversion `%f` on plain decimal notation: `none` for a matching failure. -/
def scan_float (input : List Char) : Option (Decimal × List Char) :=
  let s := scan_sign (skip_space input)
  let d := scan_digits s.2 0 0
  match d.2.2 with
  | '.' :: rest =>
    let e := scan_digits rest d.1 0
    if d.2.1 + e.2.1 = 0 then none
    else some ({ mantissa := if s.1 then -(e.1 : Int) else (e.1 : Int), scale := e.2.1 }, e.2.2)
  | rest =>
    if d.2.1 = 0 then none
    else some ({ mantissa := if s.1 then -(d.1 : Int) else (d.1 : Int), scale := 0 }, rest)

/-- The value of an unassigned `float`. -/
def Decimal.unset : Decimal := { mantissa := 0, scale := 0 }

/-- The stand-in for `sscanf(line, "%d %f %f %d", ...)`: conversions are made
in order until one fails; with no input left before the first conversion the
result is `EOF`. -/
def sscanf_decimal (line : String) : Scanned Decimal :=
  match skip_space line.data with
  | [] => { found_items := -1, index := 0, x := Decimal.unset, y := Decimal.unset, delay := 0 }
  | _ :: _ =>
    match scan_int line.data with
    | none => { found_items := 0, index := 0, x := Decimal.unset, y := Decimal.unset, delay := 0 }
    | some (index, r1) =>
      match scan_float r1 with
      | none =>
        { found_items := 1, index := index, x := Decimal.unset, y := Decimal.unset, delay := 0 }
      | some (x, r2) =>
        match scan_float r2 with
        | none => { found_items := 2, index := index, x := x, y := Decimal.unset, delay := 0 }
        | some (y, r3) =>
          match scan_int r3 with
          | none => { found_items := 3, index := index, x := x, y := y, delay := 0 }
          | some (delay, _) =>
            { found_items := 4, index := index, x := x, y := y, delay := delay }

/-! ## Values to evaluate on -/

/-- The region the script `0 1.0 2.0 0`, `1 3.0 4.0 0` leaves: `{1, 1, 2}`,
`{1, 3, 4}` and eighteen zero-filled elements. -/
def demo_region : Region ℚ :=
  install_point (install_point zero_region 0 { is_valid := 1, x := 1, y := 2 }) 1
    { is_valid := 1, x := 3, y := 4 }

/-- A region an earlier run left behind: every element is `{1, 5, 5}`. -/
def stale_region : Region ℚ := fun _ => { is_valid := 1, x := 5, y := 5 }

/-- A process on the toy kernel after `connect_shm(-1, 80)`: the address
returned, its globals and the kernel. -/
def demo_minus_one : Addr × ShmState × SimKernel :=
  returned (0, ShmState.init, SimKernel.boot)
    (connect_shm simOs (-1) 80 ShmState.init SimKernel.boot)

/-! ## Theorems -/

set_option maxRecDepth 100000

/-! ### The probing loop -/

theorem probe_found_has_key {V : Type} (h : Hash V) (key : Int) :
    ∀ (fuel i j : Nat), probe h key fuel i = Probe.found j → has_key h key j = true := by
  intro fuel
  induction fuel with
  | zero => intro i j hp; simp [probe] at hp
  | succ fuel ih =>
    intro i j hp
    unfold probe at hp
    cases hs : h.hash_array i with
    | none => simp [hs] at hp
    | some node =>
      simp only [hs] at hp
      by_cases hk : node.key = key
      · simp only [hk, if_true, Probe.found.injEq] at hp
        subst hp
        simp [has_key, hs, hk]
      · simp only [hk, if_false] at hp
        exact ih _ _ hp

/-- The slot where the probe ends as `empty` is `NULL`. -/
theorem probe_empty_slot {V : Type} (h : Hash V) (key : Int) :
    ∀ (fuel i j : Nat), probe h key fuel i = Probe.empty j → h.hash_array j = none := by
  intro fuel
  induction fuel with
  | zero => intro i j hp; simp [probe] at hp
  | succ fuel ih =>
    intro i j hp
    unfold probe at hp
    cases hs : h.hash_array i with
    | none =>
      simp only [hs, Probe.empty.injEq] at hp
      subst hp
      exact hs
    | some node =>
      simp only [hs] at hp
      by_cases hk : node.key = key
      · simp [hk] at hp
      · simp only [hk, if_false] at hp
        exact ih _ _ hp

/-- A probe started inside the table stops inside the table. -/
theorem probe_stop_lt {V : Type} (h : Hash V) (key : Int) (hsz : h.size ≠ 0) :
    ∀ (fuel i j : Nat), i < h.size →
      (probe h key fuel i = Probe.found j ∨ probe h key fuel i = Probe.empty j) →
      j < h.size := by
  intro fuel
  induction fuel with
  | zero => intro i j _ hp; simp [probe] at hp
  | succ fuel ih =>
    intro i j hi hp
    unfold probe at hp
    cases hs : h.hash_array i with
    | none =>
      simp [hs] at hp
      omega
    | some node =>
      simp only [hs] at hp
      by_cases hk : node.key = key
      · simp [hk] at hp
        omega
      · simp only [hk, if_false] at hp
        exact ih _ _ (Nat.mod_lt _ (Nat.pos_of_ne_zero hsz)) hp

/-- Writing a node with the key looked for into the slot where the probe
stops makes the probe find that slot. -/
theorem probe_update_at_stop {V : Type} (h : Hash V) (key : Int) (node : HashNode V)
    (hk : node.key = key) (j : Nat) :
    ∀ (fuel i : Nat),
      (probe h key fuel i = Probe.found j ∨ probe h key fuel i = Probe.empty j) →
      probe { h with hash_array := Function.update h.hash_array j (some node) } key fuel i
        = Probe.found j := by
  intro fuel
  induction fuel with
  | zero => intro i hp; simp [probe] at hp
  | succ fuel ih =>
    intro i hp
    by_cases hij : i = j
    · subst hij
      simp [probe, hk]
    · unfold probe at hp ⊢
      simp only [Function.update_noteq hij]
      cases hs : h.hash_array i with
      | none =>
        simp [hs] at hp
        exact absurd hp hij
      | some nd =>
        simp only [hs] at hp ⊢
        by_cases hkk : nd.key = key
        · simp [hkk] at hp
          exact absurd hp hij
        · simp only [hkk, if_false] at hp ⊢
          exact ih _ hp

/-- Emptying a slot keeps a probe that ended on a `NULL` slot ending on one. -/
theorem probe_empty_after_clear {V : Type} (h : Hash V) (key : Int) (d : Nat) :
    ∀ (fuel i j : Nat), probe h key fuel i = Probe.empty j →
      ∃ j', probe { h with hash_array := Function.update h.hash_array d none } key fuel i
        = Probe.empty j' := by
  intro fuel
  induction fuel with
  | zero => intro i j hp; simp [probe] at hp
  | succ fuel ih =>
    intro i j hp
    by_cases hid : i = d
    · subst hid
      exact ⟨i, by simp [probe]⟩
    · unfold probe at hp ⊢
      simp only [Function.update_noteq hid]
      cases hs : h.hash_array i with
      | none => exact ⟨i, rfl⟩
      | some nd =>
        simp only [hs] at hp ⊢
        by_cases hkk : nd.key = key
        · simp [hkk] at hp
        · simp only [hkk, if_false] at hp ⊢
          exact ih _ _ hp

/-- Emptying the slot where the probe found the key makes the probe end on
that slot, now `NULL`. -/
theorem probe_clear_found {V : Type} (h : Hash V) (key : Int) (j : Nat) :
    ∀ (fuel i : Nat), probe h key fuel i = Probe.found j →
      probe { h with hash_array := Function.update h.hash_array j none } key fuel i
        = Probe.empty j := by
  intro fuel
  induction fuel with
  | zero => intro i hp; simp [probe] at hp
  | succ fuel ih =>
    intro i hp
    by_cases hij : i = j
    · subst hij
      simp [probe]
    · unfold probe at hp ⊢
      simp only [Function.update_noteq hij]
      cases hs : h.hash_array i with
      | none => simp [hs] at hp
      | some nd =>
        simp only [hs] at hp ⊢
        by_cases hkk : nd.key = key
        · simp only [hkk, if_true, Probe.found.injEq] at hp
          exact absurd hp hij
        · simp only [hkk, if_false] at hp ⊢
          exact ih _ hp

/-- The probe depends only on the size of the table and the keys its slots hold. -/
theorem probe_same_keys {V : Type} (h h' : Hash V) (key : Int) (hs : same_keys h h') :
    ∀ (fuel i : Nat), probe h' key fuel i = probe h key fuel i := by
  intro fuel
  induction fuel with
  | zero => intro i; simp [probe]
  | succ fuel ih =>
    intro i
    unfold probe
    have hi := hs.2 i
    cases h1 : h.hash_array i with
    | none =>
      rw [h1] at hi
      cases h2 : h'.hash_array i with
      | none => rfl
      | some n2 => rw [h2] at hi; simp at hi
    | some n1 =>
      rw [h1] at hi
      cases h2 : h'.hash_array i with
      | none => rw [h2] at hi; simp at hi
      | some n2 =>
        rw [h2] at hi
        simp only [Option.map_some', Option.some.injEq] at hi
        simp only [hi, hs.1, ih]

/-! ### Successive connects on one key -/

theorem get_hash_item_some {V : Type} (h : Hash V) (key : Int) (j : Nat) (node : HashNode V)
    (hg : get_hash_item h key = .ok (some (j, node))) :
    h.size ≠ 0 ∧ probe h key h.size (get_hash_index h key) = Probe.found j ∧
      h.hash_array j = some node := by
  unfold get_hash_item at hg
  by_cases hsz : h.size = 0
  · simp [hsz] at hg
  · simp only [hsz, if_false] at hg
    cases hp : probe h key h.size (get_hash_index h key) with
    | found i =>
      simp only [hp] at hg
      cases hs : h.hash_array i with
      | none => simp [hs] at hg
      | some nd =>
        simp only [hs, Except.ok.injEq, Option.some.injEq, Prod.mk.injEq] at hg
        obtain ⟨h1, h2⟩ := hg
        subst h1; subst h2
        exact ⟨hsz, rfl, hs⟩
    | empty i => simp [hp] at hg
    | cycle => simp [hp] at hg

/-- A lookup that returns `NULL` ended its probe on a `NULL` slot. -/
theorem get_hash_item_none {V : Type} (h : Hash V) (key : Int)
    (hg : get_hash_item h key = .ok none) :
    h.size ≠ 0 ∧ ∃ j, probe h key h.size (get_hash_index h key) = Probe.empty j := by
  unfold get_hash_item at hg
  by_cases hsz : h.size = 0
  · simp [hsz] at hg
  · simp only [hsz, if_false] at hg
    cases hp : probe h key h.size (get_hash_index h key) with
    | found i =>
      have hk := probe_found_has_key h key _ _ _ hp
      simp only [hp] at hg
      cases hs : h.hash_array i with
      | none => simp [has_key, hs] at hk
      | some nd => simp [hs] at hg
    | empty i => exact ⟨hsz, i, rfl⟩
    | cycle => simp [hp] at hg

/-- A probe that ends on a `NULL` slot makes the lookup return `NULL`. -/
theorem get_hash_item_of_empty {V : Type} (h : Hash V) (key : Int) (j : Nat) (hsz : h.size ≠ 0)
    (hp : probe h key h.size (get_hash_index h key) = Probe.empty j) :
    get_hash_item h key = .ok none := by
  simp [get_hash_item, hsz, hp]

/-- The hash index lies inside a table that has slots. -/
theorem get_hash_index_lt {V : Type} (h : Hash V) (key : Int) (hsz : h.size ≠ 0) :
    get_hash_index h key < h.size :=
  Nat.mod_lt _ (Nat.pos_of_ne_zero hsz)

/-- After a node with key `key` is written into the slot where the probe for
`key` stops, `get_hash_item` returns that slot and that node. -/
theorem get_hash_item_update {V : Type} (h : Hash V) (key : Int) (j : Nat) (node : HashNode V)
    (hsz : h.size ≠ 0) (hk : node.key = key)
    (hp : probe h key h.size (get_hash_index h key) = Probe.found j ∨
      probe h key h.size (get_hash_index h key) = Probe.empty j) :
    get_hash_item { h with hash_array := Function.update h.hash_array j (some node) } key
      = .ok (some (j, node)) := by
  have h1 := probe_update_at_stop h key node hk j h.size (get_hash_index h key) hp
  have h2 : get_hash_index { h with hash_array := Function.update h.hash_array j (some node) } key
      = get_hash_index h key := rfl
  simp [get_hash_item, hsz, h2, h1]

/-- Pushing onto a new list gives the one-element list. -/
theorem push_list_item_new {α : Type} (a : α) :
    push_list_item (new_list : CList α) a = .ok { size := 1, items := [a], tail := some 0 } := by
  simp [push_list_item, new_list]

/-- Pushing onto a list whose `tail` is its last node appends at the end. -/
theorem push_list_item_append {α : Type} (l : CList α) (a : α) (hne : l.items ≠ [])
    (ht : l.tail = some (l.items.length - 1)) :
    push_list_item l a = .ok { size := l.size + 1, items := l.items ++ [a],
                               tail := some ((l.items ++ [a]).length - 1) } := by
  unfold push_list_item
  cases hl : l.items with
  | nil => exact absurd hl hne
  | cons x xs =>
    have hlen : (x :: xs).length - 1 + 1 = (x :: xs).length := by simp
    simp only [ht, hl, hlen, List.take_length]
    simp


/-- An insert whose probe ends on a `NULL` slot fills that slot. -/
theorem insert_hash_item_of_empty {V : Type} (h : Hash V) (key : Int) (v : V) (sz : Int) (j : Nat)
    (hsz : h.size ≠ 0)
    (hp : probe h key h.size (get_hash_index h key) = Probe.empty j) :
    insert_hash_item h key v sz = .ok { h with
      hash_array := Function.update h.hash_array j (some { key := key, size := sz, value := v }) } := by
  simp [insert_hash_item, hsz, hp]

/-- Writing one slot does not change what another slot holds. -/
theorem has_key_update_ne {V : Type} (h : Hash V) (key : Int) (j i : Nat) (v : Option (HashNode V))
    (hij : i ≠ j) :
    has_key { h with hash_array := Function.update h.hash_array j v } key i = has_key h key i := by
  simp [has_key, Function.update_noteq hij]

/-- The first successful `connect_shm` on a key that no slot holds registers
one descriptor whose list is the returned address. -/
theorem connect_shm_first {σ : Type} (os : OsModel σ) (key size : Int) (st : ShmState) (w : σ)
    (q : Addr × ShmState × σ)
    (hpre : ∀ i, i < (segment_table st).size → has_key (segment_table st) key i = false)
    (hc : connect_shm os key size st w = .ok q) (hq : q.1 ≠ 0) :
    descriptor_holds q.2.1 key [q.1] := by
  unfold connect_shm at hc
  simp only [] at hc
  split at hc
  · simp only [Except.ok.injEq] at hc; subst hc; exact absurd rfl hq
  split at hc
  · simp only [Except.ok.injEq] at hc; subst hc; exact absurd rfl hq
  split at hc
  · simp at hc
  · -- no descriptor found
    rename_i hg
    obtain ⟨hsz, j, hp⟩ := get_hash_item_none _ _ hg
    have hj : j < (segment_table st).size :=
      probe_stop_lt _ key hsz _ _ _ (get_hash_index_lt _ _ hsz) (Or.inr hp)
    simp only [push_list_item_new] at hc
    split at hc
    · split at hc
      · simp only [Except.ok.injEq] at hc; subst hc; exact absurd rfl hq
      · rw [insert_hash_item_of_empty _ _ _ _ j hsz hp] at hc
        simp only [Except.ok.injEq] at hc
        subst hc
        refine ⟨j, _, get_hash_item_update (segment_table st) key j _ hsz rfl (Or.inr hp),
          hj, ?_, rfl, rfl, by simp⟩
        · intro i hi hk
          by_contra hij
          have := has_key_update_ne (segment_table st) key j i
            (some { key := key, size := SIZEOF_SegmentNode,
                    value := { key := key, shm_id := (os.shmget w key size).1,
                               lock_id := (os.semget (os.shmat (os.shmget w key size).2
                                 (os.shmget w key size).1).2 key).1,
                               size := size,
                               attachments := { size := 1, items := [(os.shmat (os.shmget w key size).2
                                 (os.shmget w key size).1).1], tail := some 0 } } }) hij
          simp only [segment_table] at hk this hpre hi
          rw [this] at hk
          rw [hpre i hi] at hk
          exact absurd hk (by simp)
    · rw [insert_hash_item_of_empty _ _ _ _ j hsz hp] at hc
      simp only [Except.ok.injEq] at hc
      subst hc
      refine ⟨j, _, get_hash_item_update (segment_table st) key j _ hsz rfl (Or.inr hp),
        hj, ?_, rfl, rfl, by simp⟩
      · intro i hi hk
        by_contra hij
        have := has_key_update_ne (segment_table st) key j i
          (some { key := key, size := SIZEOF_SegmentNode,
                  value := { key := key, shm_id := (os.shmget w key size).1,
                             lock_id := SHM_ERROR,
                             size := size,
                             attachments := { size := 1, items := [(os.shmat (os.shmget w key size).2
                               (os.shmget w key size).1).1], tail := some 0 } } }) hij
        simp only [segment_table] at hk this hpre hi
        rw [this] at hk
        rw [hpre i hi] at hk
        exact absurd hk (by simp)
  · -- a descriptor found: excluded by the hypothesis
    rename_i i hn hg
    obtain ⟨hsz, hp, hs⟩ := get_hash_item_some _ _ _ _ hg
    have hi : i < (segment_table st).size :=
      probe_stop_lt _ key hsz _ _ _ (get_hash_index_lt _ _ hsz) (Or.inl hp)
    have hk := probe_found_has_key _ _ _ _ _ hp
    rw [hpre i hi] at hk
    exact absurd hk (by simp)


/-- A later successful `connect_shm` on the key appends the returned address at
the end of the descriptor's list and registers nothing. -/
theorem connect_shm_again {σ : Type} (os : OsModel σ) (key size : Int) (st : ShmState) (w : σ)
    (q : Addr × ShmState × σ) (addrs : List Addr)
    (hinv : descriptor_holds st key addrs)
    (hc : connect_shm os key size st w = .ok q) (hq : q.1 ≠ 0) :
    descriptor_holds q.2.1 key (addrs ++ [q.1]) := by
  obtain ⟨j, hn, hg, hj, huniq, hitems, htail, hne⟩ := hinv
  obtain ⟨hsz, hp, hs⟩ := get_hash_item_some _ _ _ _ hg
  have hkey : hn.key = key := by
    have := probe_found_has_key _ _ _ _ _ hp
    simpa [has_key, hs] using this
  have hpush := push_list_item_append hn.value.attachments q.1 (by rw [hitems]; exact hne)
    (by rw [hitems]; exact htail)
  unfold connect_shm at hc
  simp only [] at hc
  split at hc
  · simp only [Except.ok.injEq] at hc; subst hc; exact absurd rfl hq
  split at hc
  · simp only [Except.ok.injEq] at hc; subst hc; exact absurd rfl hq
  rw [hg] at hc
  simp only [] at hc
  split at hc
  · simp at hc
  · rename_i l hl
    simp only [Except.ok.injEq] at hc
    subst hc
    simp only [] at hpush hq ⊢
    rw [hpush] at hl
    simp only [Except.ok.injEq] at hl
    subst hl
    refine ⟨j, _, get_hash_item_update (segment_table st) key j _ hsz hkey (Or.inl hp),
      hj, ?_, by simp [hitems], by simp [hitems], by simp⟩
    intro i hi hk
    by_contra hij
    simp only [segment_table] at hk hi huniq
    rw [has_key_update_ne _ key j i _ hij] at hk
    exact hij (huniq i hi hk)

/-- After `n ≥ 1` successful connects in a row the descriptor holds the returned addresses. -/
theorem connect_n_holds {σ : Type} (os : OsModel σ) (key size : Int) (st : ShmState) (w : σ)
    (hpre : ∀ i, i < (segment_table st).size → has_key (segment_table st) key i = false) :
    ∀ (n : Nat) (r : List Addr × ShmState × σ), 1 ≤ n →
      connect_n os key size n st w = some r →
      descriptor_holds r.2.1 key r.1 ∧ r.1.length = n := by
  intro n
  induction n with
  | zero => intro r hn; omega
  | succ n ih =>
    intro r _ hrun
    unfold connect_n at hrun
    cases h0 : connect_n os key size n st w with
    | none => simp [h0] at hrun
    | some r0 =>
      simp only [h0] at hrun
      cases hc : connect_shm os key size r0.2.1 r0.2.2 with
      | error f => simp [hc] at hrun
      | ok q =>
        simp only [hc] at hrun
        by_cases hq : q.1 = 0
        · simp [hq] at hrun
        · simp only [hq, if_false, Option.some.injEq] at hrun
          subst hrun
          cases n with
          | zero =>
            simp only [connect_n, Option.some.injEq] at h0
            subst h0
            exact ⟨by simpa using connect_shm_first os key size st w q hpre hc hq, by simp⟩
          | succ k =>
            obtain ⟨hinv, hlen⟩ := ih r0 (by omega) h0
            exact ⟨connect_shm_again os key size _ _ q _ hinv hc hq, by simp [hlen]⟩

/-- The first `m` of `n` successful connects in a row are `m` successful connects in a row, returning the first `m` addresses. -/
theorem connect_n_prefix {σ : Type} (os : OsModel σ) (key size : Int) (st : ShmState) (w : σ) :
    ∀ (n : Nat) (r : List Addr × ShmState × σ),
      connect_n os key size n st w = some r →
      ∀ m, m ≤ n → ∃ rm, connect_n os key size m st w = some rm ∧ rm.1 = r.1.take m ∧
        rm.1.length = m := by
  intro n
  induction n with
  | zero =>
    intro r hrun m hm
    have : m = 0 := by omega
    subst this
    simp only [connect_n, Option.some.injEq] at hrun
    subst hrun
    exact ⟨_, rfl, by simp, by simp⟩
  | succ n ih =>
    intro r hrun m hm
    have hrun' := hrun
    unfold connect_n at hrun
    cases h0 : connect_n os key size n st w with
    | none => simp [h0] at hrun
    | some r0 =>
      simp only [h0] at hrun
      cases hc : connect_shm os key size r0.2.1 r0.2.2 with
      | error f => simp [hc] at hrun
      | ok q =>
        simp only [hc] at hrun
        by_cases hq : q.1 = 0
        · simp [hq] at hrun
        · simp only [hq, if_false, Option.some.injEq] at hrun
          obtain ⟨r00, h00, _, hlen0⟩ := ih r0 h0 n (le_refl _)
          rw [h0] at h00
          simp only [Option.some.injEq] at h00
          subst h00
          by_cases hmn : m = n + 1
          · subst hmn
            refine ⟨r, hrun', ?_, ?_⟩
            · subst hrun; simp [hlen0]
            · subst hrun; simp [hlen0]
          · obtain ⟨rm, hrm, htake, hlen⟩ := ih r0 h0 m (by omega)
            refine ⟨rm, hrm, ?_, hlen⟩
            subst hrun
            rw [htake]
            simp only []
            rw [List.take_append_of_le_length (by omega)]

/-- The list `attached_addresses` reads is the list the descriptor holds. -/
theorem attached_addresses_of_holds (st : ShmState) (key : Int) (addrs : List Addr)
    (h : descriptor_holds st key addrs) : attached_addresses st key = addrs := by
  obtain ⟨j, hn, hg, _, _, hitems, _, _⟩ := h
  simp [attached_addresses, hg, hitems]

/-- C2: after `n ≥ 1` successful `connect_shm(key, size)` in a row from a state
whose table holds `key` in no slot, exactly one slot holds a descriptor for
`key`, its attachment list is the `n` returned addresses in the order returned,
and after the first `m` of the calls (`1 ≤ m ≤ n`) the list was the first `m` of
them: the first call registers a one-element list and each later call appends
at the tail. -/
theorem connect_n_registers_in_order {σ : Type} (os : OsModel σ) (key size : Int) (n : Nat)
    (st : ShmState) (w : σ) (r : List Addr × ShmState × σ) (hn : 1 ≤ n)
    (hpre : ∀ i, i < (segment_table st).size → has_key (segment_table st) key i = false)
    (hrun : connect_n os key size n st w = some r) :
    r.1.length = n ∧
    (∃ j, j < (segment_table r.2.1).size ∧
      ∀ i, i < (segment_table r.2.1).size → (has_key (segment_table r.2.1) key i = true ↔ i = j)) ∧
    attached_addresses r.2.1 key = r.1 ∧
    ∀ m, 1 ≤ m → m ≤ n →
      ∃ rm, connect_n os key size m st w = some rm ∧
        attached_addresses rm.2.1 key = r.1.take m := by
  obtain ⟨hinv, hlen⟩ := connect_n_holds os key size st w hpre n r hn hrun
  refine ⟨hlen, ?_, attached_addresses_of_holds _ _ _ hinv, ?_⟩
  · obtain ⟨j, d, hg, hj, huniq, _⟩ := hinv
    obtain ⟨_, hp, _⟩ := get_hash_item_some _ _ _ _ hg
    refine ⟨j, hj, fun i hi => ⟨huniq i hi, fun hij => ?_⟩⟩
    subst hij
    exact probe_found_has_key _ _ _ _ _ hp
  · intro m hm1 hmn
    obtain ⟨rm, hrm, htake, _⟩ := connect_n_prefix os key size st w n r hrun m hmn
    refine ⟨rm, hrm, ?_⟩
    obtain ⟨hinvm, _⟩ := connect_n_holds os key size st w hpre m rm hm1 hrm
    rw [attached_addresses_of_holds _ _ _ hinvm, htake]

/-! ### Descriptors registered by connects alone -/
theorem push_list_item_nonempty {α : Type} (l l' : CList α) (a : α)
    (h : push_list_item l a = .ok l') : l'.items ≠ [] := by
  unfold push_list_item at h
  split at h
  · simp only [Except.ok.injEq] at h; subst h; simp
  · split at h
    · simp at h
    · simp only [Except.ok.injEq] at h; subst h; simp

/-- An insert that returns has written one slot and nothing else. -/
theorem insert_hash_item_slots {V : Type} (h h' : Hash V) (key : Int) (v : V) (sz : Int)
    (hi : insert_hash_item h key v sz = .ok h') :
    ∃ j, h' = Hash.mk h.size
      (Function.update h.hash_array j (some (HashNode.mk key sz v))) := by
  unfold insert_hash_item at hi
  split at hi
  · simp at hi
  · split at hi
    · rename_i j _; simp only [Except.ok.injEq] at hi; exact ⟨j, hi.symm⟩
    · rename_i j _; simp only [Except.ok.injEq] at hi; exact ⟨j, hi.symm⟩
    · simp at hi

/-- A `connect_shm` keeps every descriptor's attachment list non-empty. -/
theorem connect_shm_keeps_nonempty {σ : Type} (os : OsModel σ) (key size : Int) (st : ShmState)
    (w : σ) (q : Addr × ShmState × σ)
    (hinv : ∀ i d, (segment_table st).hash_array i = some d → d.value.attachments.items ≠ [])
    (hc : connect_shm os key size st w = .ok q) :
    ∀ i d, (segment_table q.2.1).hash_array i = some d → d.value.attachments.items ≠ [] := by
  unfold connect_shm at hc
  simp only [] at hc
  split at hc
  · simp only [Except.ok.injEq] at hc; subst hc; exact hinv
  split at hc
  · simp only [Except.ok.injEq] at hc; subst hc; exact hinv
  split at hc
  · simp at hc
  · simp only [push_list_item_new] at hc
    split at hc
    · split at hc
      · simp only [Except.ok.injEq] at hc; subst hc; exact hinv
      · split at hc
        · simp at hc
        · rename_i nodes1 hins
          obtain ⟨j, hj⟩ := insert_hash_item_slots _ _ _ _ _ hins
          simp only [Except.ok.injEq] at hc
          subst hc; subst hj
          intro i d hd
          simp only [segment_table] at hd
          by_cases hij : i = j
          · subst hij
            simp only [Function.update_same, Option.some.injEq] at hd
            subst hd; simp
          · rw [Function.update_noteq hij] at hd
            exact hinv i d hd
    · split at hc
      · simp at hc
      · rename_i nodes1 hins
        obtain ⟨j, hj⟩ := insert_hash_item_slots _ _ _ _ _ hins
        simp only [Except.ok.injEq] at hc
        subst hc; subst hj
        intro i d hd
        simp only [segment_table] at hd
        by_cases hij : i = j
        · subst hij
          simp only [Function.update_same, Option.some.injEq] at hd
          subst hd; simp
        · rw [Function.update_noteq hij] at hd
          exact hinv i d hd
  · rename_i j hn hg
    split at hc
    · simp at hc
    · rename_i l hl
      simp only [Except.ok.injEq] at hc
      subst hc
      intro i d hd
      simp only [segment_table] at hd
      by_cases hij : i = j
      · subst hij
        simp only [Function.update_same, Option.some.injEq] at hd
        subst hd
        exact push_list_item_nonempty _ _ _ hl
      · rw [Function.update_noteq hij] at hd
        exact hinv i d hd

/-- Calls that are all `connect_shm` keep every attachment list non-empty. -/
theorem exec_all_connects_nonempty {σ : Type} (os : OsModel σ) :
    ∀ (calls : List ShmCall) (st : ShmState) (w : σ) (r : List Int × ShmState × σ),
      (∀ c ∈ calls, c.is_connect = true) →
      (∀ i d, (segment_table st).hash_array i = some d → d.value.attachments.items ≠ []) →
      exec_all os calls st w = .ok r →
      ∀ i d, (segment_table r.2.1).hash_array i = some d → d.value.attachments.items ≠ [] := by
  intro calls
  induction calls with
  | nil =>
    intro st w r _ hinv hrun
    simp only [exec_all, Except.ok.injEq] at hrun
    subst hrun
    exact hinv
  | cons c rest ih =>
    intro st w r hcs hinv hrun
    unfold exec_all at hrun
    cases hc : c.exec os st w with
    | error f => simp [hc] at hrun
    | ok q =>
      simp only [hc] at hrun
      cases hr : exec_all os rest q.2.1 q.2.2 with
      | error f => simp [hr] at hrun
      | ok q' =>
        simp only [hr, Except.ok.injEq] at hrun
        subst hrun
        have hconn := hcs c (List.mem_cons_self _ _)
        cases c with
        | connect_shm key size =>
          simp only [ShmCall.exec] at hc
          exact ih q.2.1 q.2.2 q' (fun c' hc' => hcs c' (List.mem_cons_of_mem _ hc'))
            (connect_shm_keeps_nonempty os key size st w q hinv hc) hr
        | use_semaphores b => simp [ShmCall.is_connect] at hconn
        | detach_shm a => simp [ShmCall.is_connect] at hconn
        | destroy_shm k => simp [ShmCall.is_connect] at hconn
        | shm_lock k => simp [ShmCall.is_connect] at hconn
        | shm_unlock k => simp [ShmCall.is_connect] at hconn

/-- C7, amended: in every state a process reaches from its start through
`connect_shm` calls alone, whatever they return, every descriptor in the table
has an attachment list with at least one entry. -/
theorem connect_only_descriptors_nonempty {σ : Type} (os : OsModel σ) (calls : List ShmCall)
    (b : Bool) (w : σ) (r : List Int × ShmState × σ) (i : Nat) (d : HashNode SegmentNode)
    (hcalls : ∀ c ∈ calls, c.is_connect = true)
    (hrun : exec_all os calls (use_semaphores b ShmState.init) w = .ok r)
    (hd : (segment_table r.2.1).hash_array i = some d) :
    d.value.attachments.items ≠ [] :=
  exec_all_connects_nonempty os calls _ w r hcalls
    (fun i d h => by simp [segment_table, use_semaphores, ShmState.init, new_hash] at h) hrun i d hd

/-! ### Locking after a destroy -/
theorem same_keys_refl {V : Type} (h : Hash V) : same_keys h h := ⟨rfl, fun _ => rfl⟩

/-- The relation `same_keys` is transitive. -/
theorem same_keys_trans {V : Type} (a b c : Hash V) (h1 : same_keys a b) (h2 : same_keys b c) :
    same_keys a c := ⟨h2.1.trans h1.1, fun i => (h2.2 i).trans (h1.2 i)⟩

/-- Tables of one size give a key the same hash index. -/
theorem get_hash_index_same_keys {V : Type} (h h' : Hash V) (key : Int) (hs : same_keys h h') :
    get_hash_index h' key = get_hash_index h key := by
  simp [get_hash_index, hs.1]

/-- Tables with the same keys give the same probe from the hash index. -/
theorem probe_of_same_keys {V : Type} (h h' : Hash V) (key : Int) (hs : same_keys h h') :
    probe h' key h'.size (get_hash_index h' key) = probe h key h.size (get_hash_index h key) := by
  rw [get_hash_index_same_keys h h' key hs, hs.1]
  exact probe_same_keys h h' key hs _ _

/-- The lookup returns `NULL` exactly when the probe ends on a `NULL` slot. -/
theorem get_hash_item_none_iff {V : Type} (h : Hash V) (key : Int) :
    get_hash_item h key = .ok none ↔
      h.size ≠ 0 ∧ ∃ j, probe h key h.size (get_hash_index h key) = Probe.empty j :=
  ⟨get_hash_item_none h key, fun ⟨hsz, j, hp⟩ => get_hash_item_of_empty h key j hsz hp⟩

/-- A lookup that returns `NULL` does so in every table with the same keys. -/
theorem get_hash_item_none_same_keys {V : Type} (h h' : Hash V) (key : Int)
    (hs : same_keys h h') (hg : get_hash_item h key = .ok none) :
    get_hash_item h' key = .ok none := by
  rw [get_hash_item_none_iff] at hg ⊢
  rw [probe_of_same_keys h h' key hs, hs.1]
  exact hg

/-- A lookup that returns `NULL` still does after any slot is emptied. -/
theorem get_hash_item_none_clear {V : Type} (h : Hash V) (key : Int) (d : Nat)
    (hg : get_hash_item h key = .ok none) :
    get_hash_item (Hash.mk h.size (Function.update h.hash_array d none)) key = .ok none := by
  rw [get_hash_item_none_iff] at hg ⊢
  obtain ⟨hsz, j, hp⟩ := hg
  exact ⟨hsz, probe_empty_after_clear h key d _ _ _ hp⟩

/-- After the slot where the key is found is emptied the lookup returns `NULL`. -/
theorem get_hash_item_clear_found {V : Type} (h : Hash V) (key : Int) (j : Nat)
    (hsz : h.size ≠ 0)
    (hp : probe h key h.size (get_hash_index h key) = Probe.found j) :
    get_hash_item (Hash.mk h.size (Function.update h.hash_array j none)) key = .ok none := by
  rw [get_hash_item_none_iff]
  exact ⟨hsz, j, probe_clear_found h key j _ _ hp⟩

/-- A key found in slot `j` is found in slot `j` of every table with the same keys. -/
theorem get_hash_item_some_same_keys {V : Type} (h h' : Hash V) (key : Int) (j : Nat)
    (hs : same_keys h h') (hsz : h.size ≠ 0)
    (hp : probe h key h.size (get_hash_index h key) = Probe.found j) :
    ∃ node, get_hash_item h' key = .ok (some (j, node)) := by
  have hp' := probe_of_same_keys h h' key hs
  rw [hp] at hp'
  have hk := probe_found_has_key h' key _ _ _ hp'
  unfold has_key at hk
  cases hs' : h'.hash_array j with
  | none => simp [hs'] at hk
  | some node =>
    refine ⟨node, ?_⟩
    have hsz' : h'.size ≠ 0 := by rw [hs.1]; exact hsz
    simp [get_hash_item, hsz', hp', hs']

/-- Replacing the value of a node keeps the keys of the table. -/
theorem same_keys_update_value {V : Type} (h : Hash V) (j : Nat) (node : HashNode V) (v : V)
    (hj : h.hash_array j = some node) :
    same_keys h (Hash.mk h.size
      (Function.update h.hash_array j (some (HashNode.mk node.key node.size v)))) := by
  refine ⟨rfl, fun i => ?_⟩
  by_cases hij : i = j
  · subst hij; simp [hj]
  · simp [Function.update_noteq hij]

/-- A `detach_shm` that returns leaves `UseSemaphores` and the keys held by the
slots of the table as they were. -/
theorem detach_shm_table {σ : Type} (os : OsModel σ) (addr : Addr) (st : ShmState) (w : σ)
    (r : Int × ShmState × σ) (hd : detach_shm os addr st w = .ok r) :
    r.2.1.UseSemaphores = st.UseSemaphores ∧
    ∃ nodes nodes', st.SegmentNodes = some nodes ∧ r.2.1.SegmentNodes = some nodes' ∧
      same_keys nodes nodes' := by
  unfold detach_shm at hd
  cases hn : st.SegmentNodes with
  | none => simp [hn] at hd
  | some nodes =>
    simp only [hn] at hd
    split at hd
    · simp only [Except.ok.injEq] at hd; subst hd
      exact ⟨rfl, nodes, nodes, rfl, hn, same_keys_refl _⟩
    split at hd
    · simp only [Except.ok.injEq] at hd; subst hd
      exact ⟨rfl, nodes, nodes, rfl, hn, same_keys_refl _⟩
    split at hd
    · simp at hd
    · split at hd
      · simp at hd
      · simp only [Except.ok.injEq] at hd; subst hd
        exact ⟨rfl, nodes, nodes, rfl, hn, same_keys_refl _⟩
    · rename_i j hnode hg
      obtain ⟨_, _, hs⟩ := get_hash_item_some _ _ _ _ hg
      split at hd
      · simp at hd
      · simp only [Except.ok.injEq] at hd; subst hd
        exact ⟨rfl, nodes, _, rfl, rfl, same_keys_update_value nodes j hnode _ hs⟩

/-- The loop of `destroy_shm` leaves `UseSemaphores` and the keys of the table as they were. -/
theorem detach_all_table {σ : Type} (os : OsModel σ) :
    ∀ (addrs : List Addr) (st : ShmState) (w : σ) (r : ShmState × σ) (nodes : Hash SegmentNode),
      st.SegmentNodes = some nodes → detach_all os addrs st w = .ok r →
      r.1.UseSemaphores = st.UseSemaphores ∧
      ∃ nodes', r.1.SegmentNodes = some nodes' ∧ same_keys nodes nodes' := by
  intro addrs
  induction addrs with
  | nil =>
    intro st w r nodes hn hd
    simp only [detach_all, Except.ok.injEq] at hd
    subst hd
    exact ⟨rfl, nodes, hn, same_keys_refl _⟩
  | cons a rest ih =>
    intro st w r nodes hn hd
    unfold detach_all at hd
    cases h1 : detach_shm os a st w with
    | error f => simp [h1] at hd
    | ok q =>
      simp only [h1] at hd
      obtain ⟨hu, n0, n1, hn0, hn1, hsk⟩ := detach_shm_table os a st w q h1
      rw [hn] at hn0
      simp only [Option.some.injEq] at hn0
      subst hn0
      obtain ⟨hu2, n2, hn2, hsk2⟩ := ih q.2.1 q.2.2 r n1 hn1 hd
      exact ⟨hu2.trans hu, n2, hn2, same_keys_trans _ _ _ hsk hsk2⟩

/-- A delete that returns changed nothing or emptied the slot where the key was found. -/
theorem delete_hash_item_table {V : Type} (h : Hash V) (key : Int) (d : Bool × Hash V)
    (hd : delete_hash_item h key = .ok d) :
    h.size ≠ 0 ∧ ((d.2 = h ∧ ∃ j, probe h key h.size (get_hash_index h key) = Probe.empty j) ∨
      ∃ j, probe h key h.size (get_hash_index h key) = Probe.found j ∧
        d.2 = Hash.mk h.size (Function.update h.hash_array j none)) := by
  unfold delete_hash_item at hd
  split at hd
  · simp at hd
  · rename_i hsz
    refine ⟨hsz, ?_⟩
    split at hd
    · rename_i j hp
      simp only [Except.ok.injEq] at hd; subst hd
      exact Or.inr ⟨j, hp, rfl⟩
    · rename_i j hp
      simp only [Except.ok.injEq] at hd; subst hd
      exact Or.inl ⟨rfl, j, hp⟩
    · simp at hd

/-- What a `destroy_shm(key)` that returns does to the globals: `UseSemaphores`
is kept, and the table keeps the keys of its slots except that the slot where
the probe for `key` finds `key` may have been emptied; it has been when the
result is `SHM_OK`. -/
theorem destroy_shm_table {σ : Type} (os : OsModel σ) (key : Int) (st : ShmState) (w : σ)
    (r : Int × ShmState × σ) (hd : destroy_shm os key st w = .ok r) :
    r.2.1.UseSemaphores = st.UseSemaphores ∧
    ∃ nodes nodes1 nodes', st.SegmentNodes = some nodes ∧ r.2.1.SegmentNodes = some nodes' ∧
      same_keys nodes nodes1 ∧ nodes1.size ≠ 0 ∧
      ((nodes' = nodes1 ∧ r.1 = SHM_ERROR) ∨
        ∃ j, probe nodes1 key nodes1.size (get_hash_index nodes1 key) = Probe.found j ∧
          nodes' = Hash.mk nodes1.size (Function.update nodes1.hash_array j none)) := by
  unfold destroy_shm at hd
  cases hn : st.SegmentNodes with
  | none => simp [hn] at hd
  | some nodes =>
    simp only [hn] at hd
    split at hd
    · simp at hd
    · rename_i hg
      obtain ⟨hsz, _⟩ := get_hash_item_none _ _ hg
      simp only [Except.ok.injEq] at hd; subst hd
      exact ⟨rfl, nodes, nodes, nodes, rfl, hn, same_keys_refl _, hsz, Or.inl ⟨rfl, rfl⟩⟩
    · rename_i j hnode hg
      obtain ⟨hsz, hp, _⟩ := get_hash_item_some _ _ _ _ hg
      split at hd
      · simp at hd
      · rename_i st1 w1 hda
        obtain ⟨hu, nodes1, hn1, hsk⟩ := detach_all_table os _ st w (st1, w1) nodes hn hda
        simp only [] at hu hn1
        have hsz1 : nodes1.size ≠ 0 := by rw [hsk.1]; exact hsz
        have hp1 := probe_of_same_keys nodes nodes1 key hsk
        rw [hp] at hp1
        split at hd
        · simp at hd
        · simp only [hn1] at hd
          have hdel : ∀ d, delete_hash_item nodes1 key = .ok d →
              d.2 = Hash.mk nodes1.size (Function.update nodes1.hash_array j none) := by
            intro d hdd
            obtain ⟨_, h1 | h2⟩ := delete_hash_item_table _ _ _ hdd
            · obtain ⟨_, j', hj'⟩ := h1
              rw [hp1] at hj'
              simp at hj'
            · obtain ⟨j', hj', he⟩ := h2
              rw [hp1] at hj'
              simp only [Probe.found.injEq] at hj'
              subst hj'
              exact he
          split at hd
          · split at hd
            · split at hd
              · simp at hd
              · rename_i d hdd
                simp only [Except.ok.injEq] at hd; subst hd
                exact ⟨hu, nodes, nodes1, _, rfl, rfl, hsk, hsz1, Or.inr ⟨j, hp1, hdel d hdd⟩⟩
            · simp only [Except.ok.injEq] at hd; subst hd
              exact ⟨hu, nodes, nodes1, nodes1, rfl, hn1, hsk, hsz1, Or.inl ⟨rfl, rfl⟩⟩
          · split at hd
            · simp at hd
            · rename_i d hdd
              simp only [Except.ok.injEq] at hd; subst hd
              exact ⟨hu, nodes, nodes1, _, rfl, rfl, hsk, hsz1, Or.inr ⟨j, hp1, hdel d hdd⟩⟩


/-- With locking enabled and no descriptor found for the key, `shm_lock`
(`op = -1`) and `shm_unlock` (`op = 1`) return `false` and make no kernel call. -/
theorem shm_semop_unregistered {σ : Type} (os : OsModel σ) (op key : Int) (st : ShmState)
    (w : σ) (nodes : Hash SegmentNode) (hsem : st.UseSemaphores = true)
    (hn : st.SegmentNodes = some nodes) (hg : get_hash_item nodes key = .ok none) :
    shm_semop os op key st w = .ok (false, w) := by
  simp [shm_semop, hsem, hn, hg]

/-- With locking enabled, a call other than `connect_shm` and `use_semaphores` keeps a key for which no descriptor is found in that state. -/
theorem registers_nothing_keeps_unregistered {σ : Type} (os : OsModel σ) (key : Int)
    (c : ShmCall) (st : ShmState) (w : σ) (q : Int × ShmState × σ)
    (hc : c.registers_nothing = true) (hsem : st.UseSemaphores = true)
    (hst : ∃ nodes, st.SegmentNodes = some nodes ∧ get_hash_item nodes key = .ok none)
    (he : c.exec os st w = .ok q) :
    q.2.1.UseSemaphores = true ∧
    ∃ nodes, q.2.1.SegmentNodes = some nodes ∧ get_hash_item nodes key = .ok none := by
  obtain ⟨nodes, hn, hg⟩ := hst
  cases c with
  | use_semaphores b => simp [ShmCall.registers_nothing] at hc
  | connect_shm k sz => simp [ShmCall.registers_nothing] at hc
  | detach_shm a =>
    simp only [ShmCall.exec] at he
    obtain ⟨hu, n0, n1, hn0, hn1, hsk⟩ := detach_shm_table os a st w q he
    rw [hn] at hn0
    simp only [Option.some.injEq] at hn0
    subst hn0
    exact ⟨hu.trans hsem, n1, hn1, get_hash_item_none_same_keys _ _ key hsk hg⟩
  | destroy_shm k =>
    simp only [ShmCall.exec] at he
    obtain ⟨hu, n0, n1, n2, hn0, hn2, hsk, _, hcase⟩ := destroy_shm_table os k st w q he
    rw [hn] at hn0
    simp only [Option.some.injEq] at hn0
    subst hn0
    have h1 := get_hash_item_none_same_keys _ _ key hsk hg
    refine ⟨hu.trans hsem, n2, hn2, ?_⟩
    rcases hcase with ⟨he1, _⟩ | ⟨j, _, he2⟩
    · rw [he1]; exact h1
    · rw [he2]; exact get_hash_item_none_clear n1 key j h1
  | shm_lock k =>
    simp only [ShmCall.exec] at he
    split at he
    · simp at he
    · simp only [Except.ok.injEq] at he; subst he
      exact ⟨hsem, nodes, hn, hg⟩
  | shm_unlock k =>
    simp only [ShmCall.exec] at he
    split at he
    · simp at he
    · simp only [Except.ok.injEq] at he; subst he
      exact ⟨hsem, nodes, hn, hg⟩

/-- The same for a sequence of such calls. -/
theorem exec_all_keeps_unregistered {σ : Type} (os : OsModel σ) (key : Int) :
    ∀ (calls : List ShmCall) (st : ShmState) (w : σ) (r : List Int × ShmState × σ),
      (∀ c ∈ calls, c.registers_nothing = true) → st.UseSemaphores = true →
      (∃ nodes, st.SegmentNodes = some nodes ∧ get_hash_item nodes key = .ok none) →
      exec_all os calls st w = .ok r →
      r.2.1.UseSemaphores = true ∧
      ∃ nodes, r.2.1.SegmentNodes = some nodes ∧ get_hash_item nodes key = .ok none := by
  intro calls
  induction calls with
  | nil =>
    intro st w r _ hsem hst hrun
    simp only [exec_all, Except.ok.injEq] at hrun
    subst hrun
    exact ⟨hsem, hst⟩
  | cons c rest ih =>
    intro st w r hcs hsem hst hrun
    unfold exec_all at hrun
    cases hc : c.exec os st w with
    | error f => simp [hc] at hrun
    | ok q =>
      simp only [hc] at hrun
      cases hr : exec_all os rest q.2.1 q.2.2 with
      | error f => simp [hr] at hrun
      | ok q' =>
        simp only [hr, Except.ok.injEq] at hrun
        subst hrun
        obtain ⟨h1, h2⟩ := registers_nothing_keeps_unregistered os key c st w q
          (hcs c (List.mem_cons_self _ _)) hsem hst hc
        exact ih q.2.1 q.2.2 q' (fun c' hc' => hcs c' (List.mem_cons_of_mem _ hc')) h1 h2 hr

/-- A `destroy_shm(key)` on a registered key that returns `SHM_OK` has erased
the descriptor. -/
theorem destroy_shm_ok_erases {σ : Type} (os : OsModel σ) (key : Int) (st : ShmState) (w : σ)
    (r : Int × ShmState × σ) (hd : destroy_shm os key st w = .ok r) (hok : r.1 = SHM_OK) :
    registered r.2.1 key = false := by
  obtain ⟨_, n0, n1, n2, _, hn2, _, hsz, hcase⟩ := destroy_shm_table os key st w r hd
  rcases hcase with ⟨_, herr⟩ | ⟨j, hp, he⟩
  · rw [hok] at herr; simp [SHM_OK, SHM_ERROR] at herr
  · have := get_hash_item_clear_found n1 key j hsz hp
    simp [registered, segment_table, hn2, he, this]

/-- The scan returns `SHM_ERROR` when no attachment list holds the address. -/
theorem find_key_from_none (nodes : Hash SegmentNode) (addr : Addr)
    (hfree : ∀ i d, nodes.hash_array i = some d → addr ∉ d.value.attachments.items) :
    ∀ (n i : Nat), find_key_from nodes addr n i = SHM_ERROR := by
  intro n
  induction n with
  | zero => intro i; rfl
  | succ n ih =>
    intro i
    unfold find_key_from
    cases hs : nodes.hash_array i with
    | none => exact ih _
    | some d => simp only [hfree i d hs, if_false]; exact ih _

/-- Once the table exists, `detach_shm` of an address that no attachment list
holds returns `SHM_ERROR`, makes no kernel call and changes nothing. -/
theorem detach_shm_unknown_address {σ : Type} (os : OsModel σ) (addr : Addr) (st : ShmState)
    (w : σ) (nodes : Hash SegmentNode) (hn : st.SegmentNodes = some nodes)
    (hfree : ∀ i d, nodes.hash_array i = some d → addr ∉ d.value.attachments.items) :
    detach_shm os addr st w = .ok (SHM_ERROR, st, w) := by
  simp [detach_shm, hn, find_key_for_address, find_key_from_none nodes addr hfree]

/-- A failure of `shmget`, of `shmat`, or, for a new key with locking enabled,
of `semget` makes `connect_shm` return null; nothing is registered. -/
theorem connect_shm_null_on_failure {σ : Type} (os : OsModel σ) (key size : Int)
    (st : ShmState) (w : σ) :
    ((os.shmget w key size).1 = -1 →
      connect_shm os key size st w =
        .ok (0, { st with SegmentNodes := some (segment_table st) },
             (os.shmget w key size).2)) ∧
    ((os.shmget w key size).1 ≠ -1 →
      (os.shmat (os.shmget w key size).2 (os.shmget w key size).1).1 = -1 →
      connect_shm os key size st w =
        .ok (0, { st with SegmentNodes := some (segment_table st) },
             (os.shmat (os.shmget w key size).2 (os.shmget w key size).1).2)) ∧
    ((os.shmget w key size).1 ≠ -1 →
      (os.shmat (os.shmget w key size).2 (os.shmget w key size).1).1 ≠ -1 →
      st.UseSemaphores = true → get_hash_item (segment_table st) key = .ok none →
      (os.semget (os.shmat (os.shmget w key size).2 (os.shmget w key size).1).2 key).1
        = SHM_ERROR →
      connect_shm os key size st w =
        .ok (0, { st with SegmentNodes := some (segment_table st) },
             (os.semget (os.shmat (os.shmget w key size).2 (os.shmget w key size).1).2
               key).2)) := by
  refine ⟨fun h1 => ?_, fun h1 h2 => ?_, fun h1 h2 h3 h4 h5 => ?_⟩
  · simp [connect_shm, h1]
  · simp [connect_shm, h1, h2]
  · simp [connect_shm, h1, h2, h3, h4, h5]

/-- Once the table exists, `destroy_shm` of a key for which no descriptor is
found returns `SHM_ERROR`, makes no kernel call and changes nothing. -/
theorem destroy_shm_unregistered {σ : Type} (os : OsModel σ) (key : Int) (st : ShmState)
    (w : σ) (nodes : Hash SegmentNode) (hn : st.SegmentNodes = some nodes)
    (hg : get_hash_item nodes key = .ok none) :
    destroy_shm os key st w = .ok (SHM_ERROR, st, w) := by
  simp [destroy_shm, hn, hg]

/-- A `destroy_shm(key)` that returns on a registered key made the removal
request `shmctl(shm_id, IPC_RMID)` in some kernel state; it returned `SHM_OK`
exactly when the request returned `0` and `SHM_ERROR` otherwise, and no
descriptor is found for `key` afterwards exactly when the request returned `0`
or failed with `EINVAL`. -/
theorem destroy_shm_registered {σ : Type} (os : OsModel σ) (key : Int) (st : ShmState) (w : σ)
    (r : Int × ShmState × σ) (nodes : Hash SegmentNode) (j : Nat) (d : HashNode SegmentNode)
    (hn : st.SegmentNodes = some nodes) (hg : get_hash_item nodes key = .ok (some (j, d)))
    (hd : destroy_shm os key st w = .ok r) :
    ∃ w2, r.2.2 = (os.shmctl_rmid w2 d.value.shm_id).2 ∧
      (r.1 = SHM_OK ↔ (os.shmctl_rmid w2 d.value.shm_id).1.1 = 0) ∧
      (r.1 ≠ SHM_OK → r.1 = SHM_ERROR) ∧
      (registered r.2.1 key = false ↔
        ((os.shmctl_rmid w2 d.value.shm_id).1.1 = 0 ∨
         (os.shmctl_rmid w2 d.value.shm_id).1.2 = EINVAL)) := by
  obtain ⟨hsz, hp, _⟩ := get_hash_item_some _ _ _ _ hg
  unfold destroy_shm at hd
  simp only [hn, hg] at hd
  split at hd
  · simp at hd
  · rename_i st1 w1 hda
    obtain ⟨_, nodes1, hn1, hsk⟩ := detach_all_table os _ st w (st1, w1) nodes hn hda
    simp only [] at hn1
    have hsz1 : nodes1.size ≠ 0 := by rw [hsk.1]; exact hsz
    have hp1 := probe_of_same_keys nodes nodes1 key hsk
    rw [hp] at hp1
    have hdel : ∀ x, delete_hash_item nodes1 key = .ok x → get_hash_item x.2 key = .ok none := by
      intro x hx
      obtain ⟨_, h1 | h2⟩ := delete_hash_item_table _ _ _ hx
      · obtain ⟨_, j', hj'⟩ := h1
        rw [hp1] at hj'
        simp at hj'
      · obtain ⟨j', hj', he⟩ := h2
        rw [he]
        exact get_hash_item_clear_found nodes1 key j' hsz1 hj'
    have hkeep : registered st1 key = true := by
      obtain ⟨node, hnode⟩ := get_hash_item_some_same_keys nodes nodes1 key j hsk hsz hp
      simp [registered, segment_table, hn1, hnode]
    split at hd
    · simp at hd
    · rename_i w2 _
      refine ⟨w2, ?_⟩
      simp only [hn1] at hd
      split at hd
      · rename_i hne
        split at hd
        · rename_i heinval
          split at hd
          · simp at hd
          · rename_i x hx
            simp only [Except.ok.injEq] at hd; subst hd
            refine ⟨rfl, ?_, fun _ => rfl, ?_⟩
            · simp [SHM_OK, SHM_ERROR, hne]
            · simp [registered, segment_table, hdel x hx, heinval]
        · rename_i hnot
          simp only [Except.ok.injEq] at hd; subst hd
          refine ⟨rfl, ?_, fun _ => rfl, ?_⟩
          · simp [SHM_OK, SHM_ERROR, hne]
          · simp [hkeep, hne, hnot]
      · rename_i heq
        have heq' : (os.shmctl_rmid w2 d.value.shm_id).1.1 = 0 := by
          by_contra hc; exact heq hc
        split at hd
        · simp at hd
        · rename_i x hx
          simp only [Except.ok.injEq] at hd; subst hd
          refine ⟨rfl, ?_, fun h => absurd rfl h, ?_⟩
          · simp [heq']
          · simp [registered, segment_table, hdel x hx, heq']

/-- With locking disabled `shm_lock` (`op = -1`) and `shm_unlock` (`op = 1`)
return `true` and make no kernel call. -/
theorem shm_semop_disabled {σ : Type} (os : OsModel σ) (op key : Int) (st : ShmState)
    (w : σ) (hsem : st.UseSemaphores = false) :
    shm_semop os op key st w = .ok (true, w) := by
  simp [shm_semop, hsem]

/-- A call other than `connect_shm` and `use_semaphores` leaves `UseSemaphores` as it was. -/
theorem registers_nothing_keeps_flag {σ : Type} (os : OsModel σ)
    (c : ShmCall) (st : ShmState) (w : σ) (q : Int × ShmState × σ)
    (hc : c.registers_nothing = true) (he : c.exec os st w = .ok q) :
    q.2.1.UseSemaphores = st.UseSemaphores := by
  cases c with
  | use_semaphores b => simp [ShmCall.registers_nothing] at hc
  | connect_shm k sz => simp [ShmCall.registers_nothing] at hc
  | detach_shm a =>
    simp only [ShmCall.exec] at he
    exact (detach_shm_table os a st w q he).1
  | destroy_shm k =>
    simp only [ShmCall.exec] at he
    exact (destroy_shm_table os k st w q he).1
  | shm_lock k =>
    simp only [ShmCall.exec] at he
    split at he
    · simp at he
    · simp only [Except.ok.injEq] at he; subst he; rfl
  | shm_unlock k =>
    simp only [ShmCall.exec] at he
    split at he
    · simp at he
    · simp only [Except.ok.injEq] at he; subst he; rfl

/-- The same for a sequence of such calls. -/
theorem exec_all_keeps_flag {σ : Type} (os : OsModel σ) :
    ∀ (calls : List ShmCall) (st : ShmState) (w : σ) (r : List Int × ShmState × σ),
      (∀ c ∈ calls, c.registers_nothing = true) →
      exec_all os calls st w = .ok r →
      r.2.1.UseSemaphores = st.UseSemaphores := by
  intro calls
  induction calls with
  | nil =>
    intro st w r _ hrun
    simp only [exec_all, Except.ok.injEq] at hrun
    subst hrun
    rfl
  | cons c rest ih =>
    intro st w r hcs hrun
    unfold exec_all at hrun
    cases hc : c.exec os st w with
    | error f => simp [hc] at hrun
    | ok q =>
      simp only [hc] at hrun
      cases hr : exec_all os rest q.2.1 q.2.2 with
      | error f => simp [hr] at hrun
      | ok q' =>
        simp only [hr, Except.ok.injEq] at hrun
        subst hrun
        have h1 := registers_nothing_keeps_flag os c st w q (hcs c (List.mem_cons_self _ _)) hc
        have h2 := ih q.2.1 q.2.2 q' (fun c' hc' => hcs c' (List.mem_cons_of_mem _ hc')) hr
        exact h2.trans h1

/-- C4, amended: once a `destroy_shm(key)` has erased the descriptor of `key`
(no descriptor is found for `key` afterwards), then after any further calls of
`detach_shm`, `destroy_shm`, `shm_lock` and `shm_unlock`, that is until the
next `connect_shm`, and whatever the kernel state: with locking enabled
`shm_lock(key)` and `shm_unlock(key)` return `false`; with locking disabled
they return `true`. -/
theorem lock_fails_after_destroy {σ : Type} (os : OsModel σ) (key : Int) (st : ShmState) (w : σ)
    (r : Int × ShmState × σ) (calls : List ShmCall) (r' : List Int × ShmState × σ) (w' : σ)
    (hd : destroy_shm os key st w = .ok r)
    (herased : registered r.2.1 key = false)
    (hcalls : ∀ c ∈ calls, c.registers_nothing = true)
    (hrun : exec_all os calls r.2.1 r.2.2 = .ok r') :
    (st.UseSemaphores = true →
      shm_lock os key r'.2.1 w' = .ok (false, w') ∧
      shm_unlock os key r'.2.1 w' = .ok (false, w')) ∧
    (st.UseSemaphores = false →
      shm_lock os key r'.2.1 w' = .ok (true, w') ∧
      shm_unlock os key r'.2.1 w' = .ok (true, w')) := by
  obtain ⟨hu, n0, n1, n2, hn0, hn2, hsk, hsz, hcase⟩ := destroy_shm_table os key st w r hd
  have hflag := exec_all_keeps_flag os calls r.2.1 r.2.2 r' hcalls hrun
  refine ⟨fun hsem => ?_, fun hsem => ?_⟩
  · have hnone : get_hash_item n2 key = .ok none := by
      rcases hcase with ⟨he1, _⟩ | ⟨j, hp, he2⟩
      · -- the table kept its keys: a descriptor is found or none was there
        subst he1
        have hreg := herased
        simp only [registered, segment_table, hn2] at hreg
        cases hg : get_hash_item n2 key with
        | error f =>
          exfalso
          unfold destroy_shm at hd
          simp only [hn0] at hd
          cases hg0 : get_hash_item n0 key with
          | error f0 => simp [hg0] at hd
          | ok o =>
            cases o with
            | none =>
              have := get_hash_item_none_same_keys _ _ key hsk hg0
              rw [hg] at this
              simp at this
            | some p =>
              obtain ⟨hsz0, hp0, _⟩ := get_hash_item_some n0 key p.1 p.2 hg0
              obtain ⟨node, hnode⟩ := get_hash_item_some_same_keys n0 n2 key p.1 hsk hsz0 hp0
              rw [hg] at hnode
              simp at hnode
        | ok o =>
          cases o with
          | none => rfl
          | some p => simp [hg] at hreg
      · rw [he2]
        exact get_hash_item_clear_found n1 key j hsz hp
    obtain ⟨hsem', nodes, hn, hg⟩ := exec_all_keeps_unregistered os key calls r.2.1 r.2.2 r'
      hcalls (hu.trans hsem) ⟨n2, hn2, hnone⟩ hrun
    exact ⟨shm_semop_unregistered os (-1) key _ w' nodes hsem' hn hg,
      shm_semop_unregistered os 1 key _ w' nodes hsem' hn hg⟩
  · have hoff : r'.2.1.UseSemaphores = false := (hflag.trans hu).trans hsem
    exact ⟨shm_semop_disabled os (-1) key _ w' hoff, shm_semop_disabled os 1 key _ w' hoff⟩

/-! ### The operations on concrete inputs -/

/-- C1: three `connect_shm(7, 80)` return `4096`, `8192` and `12288`,
`detach_shm(8192)` returns `0` and a fourth connect returns `16384`; the
descriptor's list traversed from its head is then `4096, 16384`.  The address
`12288` was connected and never detached, the kernel still has it attached, and
it is no longer in the list.  When the detached address is the head of a longer
list, the next connect dereferences the null `tail`. -/
theorem connect_after_detach_loses_attachment :
    (returned ([], ShmState.init, SimKernel.boot) (exec_all simOs
      [ShmCall.connect_shm 7 80, ShmCall.connect_shm 7 80, ShmCall.connect_shm 7 80,
       ShmCall.detach_shm 8192, ShmCall.connect_shm 7 80]
      ShmState.init SimKernel.boot)).1 = [4096, 8192, 12288, 0, 16384] ∧
    attached_addresses (returned ([], ShmState.init, SimKernel.boot) (exec_all simOs
      [ShmCall.connect_shm 7 80, ShmCall.connect_shm 7 80, ShmCall.connect_shm 7 80,
       ShmCall.detach_shm 8192, ShmCall.connect_shm 7 80]
      ShmState.init SimKernel.boot)).2.1 7 = [4096, 16384] ∧
    (returned ([], ShmState.init, SimKernel.boot) (exec_all simOs
      [ShmCall.connect_shm 7 80, ShmCall.connect_shm 7 80, ShmCall.connect_shm 7 80,
       ShmCall.detach_shm 8192, ShmCall.connect_shm 7 80]
      ShmState.init SimKernel.boot)).2.2.attached = [(16384, 7), (12288, 7), (4096, 7)] ∧
    fault_of (exec_all simOs
      [ShmCall.connect_shm 7 80, ShmCall.connect_shm 7 80, ShmCall.detach_shm 4096,
       ShmCall.connect_shm 7 80]
      ShmState.init SimKernel.boot) = some Fault.nullDeref := by
  decide

/-- C3: in a process that has never called `connect_shm`, `detach_shm` does not
return `-1`: it dereferences the null `SegmentNodes`. -/
theorem detach_shm_before_connect {σ : Type} (os : OsModel σ) (addr : Addr) (b : Bool) (w : σ) :
    detach_shm os addr { SegmentNodes := none, UseSemaphores := b } w
      = .error Fault.nullDeref := rfl

/-- C5: in a process that has never called `connect_shm`, `destroy_shm` does not
return `-1` for the (unregistered) key: it dereferences the null `SegmentNodes`. -/
theorem destroy_shm_before_connect {σ : Type} (os : OsModel σ) (key : Int) (b : Bool) (w : σ) :
    destroy_shm os key { SegmentNodes := none, UseSemaphores := b } w
      = .error Fault.nullDeref := rfl

/-- C6: with locking enabled and a kernel whose `semop` fails, `connect_shm(7, 80)`
returns the attached address `4096`, not null, and registers the descriptor. -/
theorem connect_shm_ignores_semop_failure :
    (simOs_semop_fails.semop SimKernel.boot 7 1).1 = -1 ∧
    (returned (0, ShmState.init, SimKernel.boot) (connect_shm simOs_semop_fails 7 80
      (use_semaphores true ShmState.init) SimKernel.boot)).1 = 4096 ∧
    registered (returned (0, ShmState.init, SimKernel.boot) (connect_shm simOs_semop_fails 7 80
      (use_semaphores true ShmState.init) SimKernel.boot)).2.1 7 = true := by
  decide

/-- C8: after `connect_shm(1)`, `connect_shm(4097)`, `destroy_shm(1)` and a
second `connect_shm(4097)`, all successful, slots `1` and `2` of the table both
hold a descriptor with key `4097`. -/
theorem reconnect_registers_second_descriptor :
    (returned ([], ShmState.init, SimKernel.boot) (exec_all simOs
      [ShmCall.connect_shm 1 80, ShmCall.connect_shm 4097 80, ShmCall.destroy_shm 1,
       ShmCall.connect_shm 4097 80]
      ShmState.init SimKernel.boot)).1 = [4096, 8192, 0, 12288] ∧
    has_key (segment_table (returned ([], ShmState.init, SimKernel.boot) (exec_all simOs
      [ShmCall.connect_shm 1 80, ShmCall.connect_shm 4097 80, ShmCall.destroy_shm 1,
       ShmCall.connect_shm 4097 80]
      ShmState.init SimKernel.boot)).2.1) 4097 1 = true ∧
    has_key (segment_table (returned ([], ShmState.init, SimKernel.boot) (exec_all simOs
      [ShmCall.connect_shm 1 80, ShmCall.connect_shm 4097 80, ShmCall.destroy_shm 1,
       ShmCall.connect_shm 4097 80]
      ShmState.init SimKernel.boot)).2.1) 4097 2 = true := by
  decide

/-- C9: two processes enable locking and connect to key `5`; each connect posts
the semaphore once, so both `shm_lock(5)` calls succeed and the number of
successful locks minus successful unlocks is `2`. -/
theorem two_processes_hold_the_lock :
    (returned (0, System.boot) (System.run 5
      [(0, ShmCall.use_semaphores true), (1, ShmCall.use_semaphores true),
       (0, ShmCall.connect_shm 5 80), (1, ShmCall.connect_shm 5 80),
       (0, ShmCall.shm_lock 5), (1, ShmCall.shm_lock 5)]
      System.boot 0)).1 = 2 := by
  decide

/-- C10: a record that `th_kill` made `CANCELLED` while `PENDING` is made
`RUNNING` by the start of the decorator; a record that `th_kill` made
`CANCELLED` while `RUNNING` is made `FINISHED` by `th_exit`.  Neither
`CANCELLED ≤ RUNNING` nor `CANCELLED ≤ FINISHED` holds in the order. -/
theorem cancelled_record_runs_and_finishes :
    ((th_kill 0 (th_execute 1 "A" true (some 1) ThreadTable.empty).2).2 0).map
      (fun t => t.state) = some ThreadState.CANCELLED ∧
    ((func_decorator_start 0 (th_kill 0 (th_execute 1 "A" true (some 1) ThreadTable.empty).2).2)
      0).map (fun t => t.state) = some ThreadState.RUNNING ∧
    ((th_kill 0 (func_decorator_start 0 (th_execute 1 "A" true (some 1) ThreadTable.empty).2)).2
      0).map (fun t => t.state) = some ThreadState.CANCELLED ∧
    ((returned ThreadTable.empty (th_exit (some 0) (th_kill 0 (func_decorator_start 0
      (th_execute 1 "A" true (some 1) ThreadTable.empty).2)).2)) 0).map
      (fun t => t.state) = some ThreadState.FINISHED ∧
    ThreadState.le ThreadState.CANCELLED ThreadState.RUNNING = false ∧
    ThreadState.le ThreadState.CANCELLED ThreadState.FINISHED = false := by
  decide

/-- C4 as stated fails: with locking disabled (the default), after a successful
`connect_shm(7, 80)` and a successful `destroy_shm(7)`, `shm_lock(7)` and
`shm_unlock(7)` both return `true`. -/
theorem lock_succeeds_after_destroy_without_semaphores :
    (returned ([], ShmState.init, SimKernel.boot) (exec_all simOs
      [ShmCall.connect_shm 7 80, ShmCall.destroy_shm 7, ShmCall.shm_lock 7, ShmCall.shm_unlock 7]
      ShmState.init SimKernel.boot)).1 = [4096, 0, 1, 1] := by
  decide

/-- C7 as stated fails: after a successful `connect_shm(7, 80)` and a successful
`detach_shm` of the address it returned, the descriptor for key `7` is still
registered and its attachment list is empty. -/
theorem detach_leaves_empty_descriptor :
    (returned ([], ShmState.init, SimKernel.boot) (exec_all simOs
      [ShmCall.connect_shm 7 80, ShmCall.detach_shm 4096]
      ShmState.init SimKernel.boot)).1 = [4096, 0] ∧
    registered (returned ([], ShmState.init, SimKernel.boot) (exec_all simOs
      [ShmCall.connect_shm 7 80, ShmCall.detach_shm 4096]
      ShmState.init SimKernel.boot)).2.1 7 = true ∧
    attached_addresses (returned ([], ShmState.init, SimKernel.boot) (exec_all simOs
      [ShmCall.connect_shm 7 80, ShmCall.detach_shm 4096]
      ShmState.init SimKernel.boot)).2.1 7 = [] := by
  decide

/-- Witness of `connect_n_registers_in_order`: three `connect_shm(7, 80)` of a
fresh process on the toy kernel. -/
theorem connect_n_registers_in_order_witness :
    1 ≤ 3 ∧
    ((connect_n simOs 7 80 3 ShmState.init SimKernel.boot).getD
      ([], ShmState.init, SimKernel.boot)).1 = [4096, 8192, 12288] ∧
    attached_addresses ((connect_n simOs 7 80 3 ShmState.init SimKernel.boot).getD
      ([], ShmState.init, SimKernel.boot)).2.1 7 = [4096, 8192, 12288] :=
  ⟨by decide, by decide,
   (connect_n_registers_in_order simOs 7 80 3 ShmState.init SimKernel.boot
      ((connect_n simOs 7 80 3 ShmState.init SimKernel.boot).getD
        ([], ShmState.init, SimKernel.boot))
      (by decide) (fun _ _ => rfl) rfl).2.2.1.trans (by decide)⟩

/-- Witness of `connect_only_descriptors_nonempty`: after two connects on key
`7` and one on key `9`, slot `9` holds a descriptor and its list is not empty. -/
theorem connect_only_descriptors_nonempty_witness :
    (segment_table demo_three_connects.2.1).hash_array 9 =
      some { key := 9, size := 24,
             value := { key := 9, shm_id := 9, lock_id := -1, size := 80,
                        attachments := { size := 1, items := [12288], tail := some 0 } } } ∧
    ({ size := 1, items := [12288], tail := some 0 } : CList Addr).items ≠ [] :=
  ⟨by decide,
   connect_only_descriptors_nonempty simOs
     [ShmCall.connect_shm 7 80, ShmCall.connect_shm 7 80, ShmCall.connect_shm 9 80]
     false SimKernel.boot demo_three_connects 9
     { key := 9, size := 24,
       value := { key := 9, shm_id := 9, lock_id := -1, size := 80,
                  attachments := { size := 1, items := [12288], tail := some 0 } } }
     (by decide) rfl (by decide)⟩

/-- Witness of `lock_fails_after_destroy`: a process that enabled locking,
connected to key `7` and destroyed it, then detached, locked and destroyed
again. -/
theorem lock_fails_after_destroy_witness :
    demo_connected.2.1.UseSemaphores = true ∧
    demo_destroyed.1 = SHM_OK ∧
    registered demo_destroyed.2.1 7 = false ∧
    demo_after_destroy.1 = [-1, 0, -1] ∧
    shm_lock simOs 7 demo_after_destroy.2.1 SimKernel.boot = .ok (false, SimKernel.boot) ∧
    shm_unlock simOs 7 demo_after_destroy.2.1 SimKernel.boot = .ok (false, SimKernel.boot) :=
  ⟨by decide, by decide, by decide, by decide,
   (lock_fails_after_destroy simOs 7 demo_connected.2.1 demo_connected.2.2 demo_destroyed
     [ShmCall.detach_shm 4096, ShmCall.shm_lock 7, ShmCall.destroy_shm 7]
     demo_after_destroy SimKernel.boot rfl (by decide) (by decide) rfl).1 (by decide)⟩

/-! ### The thread table -/

/-- The `&` of `THD_ERROR` and `THD_OK`. -/
theorem land_error_ok : Int.land THD_ERROR THD_OK = THD_OK := by
  show Int.land (Int.negSucc 0) (Int.ofNat 0) = 0
  simp [Int.land, Nat.ldiff]

/-- The `&` of `THD_OK` and `THD_ERROR`. -/
theorem land_ok_error : Int.land THD_OK THD_ERROR = THD_OK := by
  show Int.land (Int.ofNat 0) (Int.negSucc 0) = 0
  simp [Int.land, Nat.ldiff]

/-- The `&` of `THD_OK` and `THD_OK`. -/
theorem land_ok_ok : Int.land THD_OK THD_OK = THD_OK := by decide

/-- The `&` of `THD_ERROR` and `THD_ERROR`. -/
theorem land_error_error : Int.land THD_ERROR THD_ERROR = THD_ERROR := by decide

/-- A handle is valid exactly when it lies in `[0, MAX_THREADS)`. -/
theorem th_valid_handle_iff (th : Int) : th_valid_handle th = true ↔ 0 ≤ th ∧ th < 50 := by
  simp [th_valid_handle, MAX_THREADS]

/-- C11: for a handle in range whose record is `PENDING` or `RUNNING`, `th_kill`
returns `THD_OK`, the record stays in its slot with state `CANCELLED` and
nothing else changed, no other slot changes, and a `th_wait` on the handle
afterwards, once `pthread_join` returns, returns `THD_OK` and empties the slot. -/
theorem th_kill_live (joins : Nat → Bool) (th : Int) (threads : ThreadTable)
    (thread_info : ThreadInfo) (h0 : 0 ≤ th) (h1 : th < 50)
    (hrec : threads th.toNat = some thread_info)
    (hstate : thread_info.state = ThreadState.PENDING ∨
      thread_info.state = ThreadState.RUNNING) :
    (th_kill th threads).1 = THD_OK ∧
    (th_kill th threads).2 th.toNat =
      some { thread_info with state := ThreadState.CANCELLED } ∧
    (∀ i, i ≠ th.toNat → (th_kill th threads).2 i = threads i) ∧
    (joins thread_info.pthread = true →
      th_wait joins th (th_kill th threads).2 =
        .ok (THD_OK, Function.update (th_kill th threads).2 th.toNat none)) := by
  have hv : th_valid_handle th = true := (th_valid_handle_iff th).2 ⟨h0, h1⟩
  have hne : ¬ (thread_info.state = ThreadState.CANCELLED ∨
      thread_info.state = ThreadState.FINISHED) := by
    rcases hstate with h | h <;> simp [h]
  have hk : th_kill th threads = (THD_OK, Function.update threads th.toNat
      (some { thread_info with state := ThreadState.CANCELLED })) := by
    simp [th_kill, hv, hrec, hne]
  rw [hk]
  refine ⟨rfl, by simp, fun i hi => by simp [Function.update_noteq hi], fun hj => ?_⟩
  simp [th_wait, hv, hj, th_cleanup]

/-- C12: for a handle in range whose record is `CANCELLED` or `FINISHED`,
`th_kill` returns `THD_ERROR` and leaves the whole table, that record included,
as it was. -/
theorem th_kill_dead (th : Int) (threads : ThreadTable) (thread_info : ThreadInfo)
    (h0 : 0 ≤ th) (h1 : th < 50) (hrec : threads th.toNat = some thread_info)
    (hstate : thread_info.state = ThreadState.CANCELLED ∨
      thread_info.state = ThreadState.FINISHED) :
    th_kill th threads = (THD_ERROR, threads) := by
  have hv : th_valid_handle th = true := (th_valid_handle_iff th).2 ⟨h0, h1⟩
  simp [th_kill, hv, hrec, hstate]

/-- C14: for a handle outside `[0, MAX_THREADS)`, or in range with an empty
slot, `th_wait` and `th_kill` return `THD_ERROR` and leave the table as it was. -/
theorem invalid_handle_rejected (joins : Nat → Bool) (th : Int) (threads : ThreadTable)
    (h : th < 0 ∨ (MAX_THREADS : Int) ≤ th ∨ threads th.toNat = none) :
    th_wait joins th threads = .ok (THD_ERROR, threads) ∧
    th_kill th threads = (THD_ERROR, threads) := by
  by_cases hv : th_valid_handle th = true
  · have hr := (th_valid_handle_iff th).1 hv
    have hnone : threads th.toNat = none := by
      rcases h with h | h | h
      · omega
      · simp [MAX_THREADS] at h; omega
      · exact h
    simp [th_wait, th_kill, hv, hnone]
  · simp [th_wait, th_kill, hv]


/-- A `Nat` index below `MAX_THREADS` is a valid handle. -/
theorem th_valid_handle_nat (idx : Nat) (h : idx < 50) : th_valid_handle (idx : Int) = true := by
  rw [th_valid_handle_iff]
  omega

/-- The `th_wait` of a handle in range whose thread, if it has to be joined,
can be joined: `THD_OK` exactly when the slot held a record, and the slot is
empty afterwards. -/
theorem th_wait_in_range (joins : Nat → Bool) (idx : Nat) (threads : ThreadTable)
    (h : idx < 50)
    (hj : ∀ info, threads idx = some info →
      info.state = ThreadState.FINISHED ∨ joins info.pthread = true) :
    th_wait joins (idx : Int) threads =
      .ok (if threads idx = none then THD_ERROR else THD_OK, Function.update threads idx none) := by
  have hv := th_valid_handle_nat idx h
  unfold th_wait
  simp only [hv, if_true, Int.toNat_ofNat]
  cases hs : threads idx with
  | none =>
    simp only [if_true]
    rw [← hs, Function.update_eq_self]
  | some info =>
    rcases hj info hs with hf | hjn
    · simp [hf, th_cleanup]
    · simp only [hs, hjn, if_true, th_cleanup]
      split <;> simp

/-- One round of the loop of `th_wait_all`. -/
theorem th_wait_all_from_succ (joins : Nat → Bool) (n idx : Nat) (ret : Int)
    (threads : ThreadTable) :
    th_wait_all_from joins (n + 1) idx ret threads =
      match th_wait joins (idx : Int) threads with
      | .error f => .error f
      | .ok r => th_wait_all_from joins n (idx + 1) (Int.land ret r.1) r.2 := rfl

/-- The loop of `th_wait_all` from `idx` over `n` handles in range, when every
thread that has to be joined can be: it returns; the result is `THD_OK` when it
was already or one of the slots held a record, `THD_ERROR` otherwise; the slots
are empty afterwards and the others are as they were. -/
theorem th_wait_all_from_spec (joins : Nat → Bool) :
    ∀ (n idx : Nat) (ret : Int) (threads : ThreadTable),
      idx + n ≤ 50 → (ret = THD_OK ∨ ret = THD_ERROR) →
      (∀ i info, idx ≤ i → i < idx + n → threads i = some info →
        info.state = ThreadState.FINISHED ∨ joins info.pthread = true) →
      ∃ r, th_wait_all_from joins n idx ret threads =
          .ok (r, fun i => if idx ≤ i ∧ i < idx + n then none else threads i) ∧
        (r = THD_OK ∨ r = THD_ERROR) ∧
        (r = THD_OK ↔ (ret = THD_OK ∨ ∃ i, idx ≤ i ∧ i < idx + n ∧ threads i ≠ none)) := by
  intro n
  induction n with
  | zero =>
    intro idx ret threads _ hret _
    have h2 : (fun i => if idx ≤ i ∧ i < idx + 0 then none else threads i) = threads := by
      funext i
      have : ¬ (idx ≤ i ∧ i < idx + 0) := by omega
      simp [this]
    refine ⟨ret, ?_, hret, ⟨fun h => Or.inl h, ?_⟩⟩
    · rw [h2]; rfl
    rintro (h | ⟨i, h1, h2, _⟩)
    · exact h
    · omega
  | succ n ih =>
    intro idx ret threads hle hret hj
    rw [th_wait_all_from_succ, th_wait_in_range joins idx threads (by omega)
      (fun info hs => hj idx info (le_refl _) (by omega) hs)]
    simp only []
    have hret' : (Int.land ret (if threads idx = none then THD_ERROR else THD_OK) = THD_OK ∨
        Int.land ret (if threads idx = none then THD_ERROR else THD_OK) = THD_ERROR) := by
      rcases hret with h | h <;> by_cases hs : threads idx = none
      · left; rw [h, if_pos hs]; exact land_ok_error
      · left; rw [h, if_neg hs]; exact land_ok_ok
      · right; rw [h, if_pos hs]; exact land_error_error
      · left; rw [h, if_neg hs]; exact land_error_ok
    obtain ⟨r, hrun, hr, hiff⟩ := ih (idx + 1) _ (Function.update threads idx none)
      (by omega) hret' (fun i info h1 h2 hs => by
        have hi : i ≠ idx := by omega
        rw [Function.update_noteq hi] at hs
        exact hj i info (by omega) (by omega) hs)
    refine ⟨r, ?_, hr, ?_⟩
    · rw [hrun]
      congr 2
      funext i
      by_cases hi : i = idx
      · subst hi
        have h1 : ¬ (i + 1 ≤ i ∧ i < i + 1 + n) := by omega
        have h2 : i ≤ i ∧ i < i + (n + 1) := by omega
        simp [h1, h2]
      · by_cases h1 : idx + 1 ≤ i ∧ i < idx + 1 + n
        · have h2 : idx ≤ i ∧ i < idx + (n + 1) := by omega
          simp [h1, h2]
        · have h2 : ¬ (idx ≤ i ∧ i < idx + (n + 1)) := by omega
          simp only [h1, h2, if_false]
          exact Function.update_noteq hi _ _
    · rw [hiff]
      constructor
      · rintro (h | ⟨i, h1, h2, h3⟩)
        · by_cases hs : threads idx = none
          · rw [if_pos hs] at h
            rcases hret with h' | h'
            · exact Or.inl h'
            · rw [h', land_error_error] at h
              exact absurd h (by decide)
          · exact Or.inr ⟨idx, le_refl _, by omega, hs⟩
        · have hi : i ≠ idx := by omega
          rw [Function.update_noteq hi] at h3
          exact Or.inr ⟨i, by omega, by omega, h3⟩
      · rintro (h | ⟨i, h1, h2, h3⟩)
        · left
          by_cases hs : threads idx = none
          · rw [h, if_pos hs]; exact land_ok_error
          · rw [h, if_neg hs]; exact land_ok_ok
        · by_cases hi : i = idx
          · subst hi
            left
            rw [if_neg h3]
            rcases hret with h | h
            · rw [h]; exact land_ok_ok
            · rw [h]; exact land_error_ok
          · right
            exact ⟨i, by omega, by omega, by rw [Function.update_noteq hi]; exact h3⟩



/-- A `th_wait` that returns leaves an empty slot empty. -/
theorem th_wait_keeps_empty (joins : Nat → Bool) (th : Int) (threads : ThreadTable)
    (r : Int × ThreadTable) (k : Nat) (h : th_wait joins th threads = .ok r)
    (hk : threads k = none) : r.2 k = none := by
  unfold th_wait at h
  split at h
  · split at h
    · simp only [Except.ok.injEq] at h; subst h; exact hk
    · split at h
      · simp only [Except.ok.injEq] at h; subst h
        by_cases hi : k = th.toNat
        · rw [hi]; simp [th_cleanup]
        · simp [th_cleanup, Function.update_noteq hi, hk]
      · split at h
        · simp only [Except.ok.injEq] at h; subst h
          by_cases hi : k = th.toNat
          · rw [hi]; simp [th_cleanup]
          · simp [th_cleanup, Function.update_noteq hi, hk]
        · simp at h
  · simp only [Except.ok.injEq] at h; subst h; exact hk

/-- A `th_kill` leaves an empty slot empty. -/
theorem th_kill_keeps_empty (th : Int) (threads : ThreadTable) (k : Nat)
    (hk : threads k = none) : (th_kill th threads).2 k = none := by
  unfold th_kill
  split
  · split
    · exact hk
    · rename_i info hs
      split
      · exact hk
      · have hi : k ≠ th.toNat := by
          intro h; rw [h, hs] at hk; simp at hk
        simp [Function.update_noteq hi, hk]
  · exact hk

/-- The loop of `th_wait_all` leaves an empty slot empty. -/
theorem th_wait_all_from_keeps_empty (joins : Nat → Bool) (k : Nat) :
    ∀ (n idx : Nat) (ret : Int) (threads : ThreadTable) (r : Int × ThreadTable),
      th_wait_all_from joins n idx ret threads = .ok r → threads k = none → r.2 k = none := by
  intro n
  induction n with
  | zero =>
    intro idx ret threads r h hk
    have h0 : th_wait_all_from joins 0 idx ret threads = .ok (ret, threads) := rfl
    rw [h0] at h
    simp only [Except.ok.injEq] at h
    subst h; exact hk
  | succ n ih =>
    intro idx ret threads r h hk
    rw [th_wait_all_from_succ] at h
    cases hw : th_wait joins (idx : Int) threads with
    | error f => simp [hw] at h
    | ok q =>
      simp only [hw] at h
      exact ih _ _ _ r h (th_wait_keeps_empty joins _ threads q k hw hk)

/-- One round of the loop of `th_kill_all`. -/
theorem th_kill_all_from_succ (n idx : Nat) (ret : Int) (threads : ThreadTable) :
    th_kill_all_from (n + 1) idx ret threads =
      th_kill_all_from n (idx + 1) (Int.land ret (th_kill (idx : Int) threads).1)
        (th_kill (idx : Int) threads).2 := rfl

/-- The loop of `th_kill_all` leaves an empty slot empty. -/
theorem th_kill_all_from_keeps_empty (k : Nat) :
    ∀ (n idx : Nat) (ret : Int) (threads : ThreadTable),
      threads k = none → (th_kill_all_from n idx ret threads).2 k = none := by
  intro n
  induction n with
  | zero => intro idx ret threads hk; exact hk
  | succ n ih =>
    intro idx ret threads hk
    rw [th_kill_all_from_succ]
    exact ih _ _ _ (th_kill_keeps_empty _ threads k hk)

/-- A call other than `th_execute` that returns leaves an empty slot empty. -/
theorem thread_call_keeps_empty (joins : Nat → Bool) (c : ThreadCall) (threads : ThreadTable)
    (r : Int × ThreadTable) (k : Nat) (h : c.exec joins threads = .ok r)
    (hk : threads k = none) : r.2 k = none := by
  cases c with
  | th_wait th => exact th_wait_keeps_empty joins th threads r k h hk
  | th_wait_all => exact th_wait_all_from_keeps_empty joins k _ _ _ threads r h hk
  | th_kill th =>
    simp only [ThreadCall.exec, Except.ok.injEq] at h
    subst h; exact th_kill_keeps_empty th threads k hk
  | th_kill_all =>
    simp only [ThreadCall.exec, Except.ok.injEq] at h
    subst h; exact th_kill_all_from_keeps_empty k _ _ _ threads hk
  | th_exit tls =>
    simp only [ThreadCall.exec] at h
    unfold th_exit at h
    cases tls with
    | none => simp at h
    | some t =>
      simp only [] at h
      cases hs : threads t with
      | none => simp [hs] at h
      | some info =>
        simp only [hs, Except.ok.injEq] at h
        subst h
        have hi : k ≠ t := by intro e; rw [e, hs] at hk; simp at hk
        simp [Function.update_noteq hi, hk]
  | func_decorator_start handle =>
    simp only [ThreadCall.exec, Except.ok.injEq] at h
    subst h
    unfold func_decorator_start
    cases hs : threads handle with
    | none => exact hk
    | some info =>
      have hi : k ≠ handle := by intro e; rw [e, hs] at hk; simp at hk
      simp [Function.update_noteq hi, hk]

/-- Calls other than `th_execute` that return leave an empty slot empty. -/
theorem thread_calls_keep_empty (joins : Nat → Bool) (k : Nat) :
    ∀ (calls : List ThreadCall) (threads t : ThreadTable),
      thread_calls joins calls threads = .ok t → threads k = none → t k = none := by
  intro calls
  induction calls with
  | nil =>
    intro threads t h hk
    simp only [thread_calls, Except.ok.injEq] at h
    subst h; exact hk
  | cons c rest ih =>
    intro threads t h hk
    unfold thread_calls at h
    cases hc : c.exec joins threads with
    | error f => simp [hc] at h
    | ok q =>
      simp only [hc] at h
      exact ih q.2 t h (thread_call_keeps_empty joins c threads q k hc hk)

/-- C13: when `th_wait(handle)` returns `THD_OK`, the handle was in range and
its slot held a record, the slot is empty afterwards and no other slot has
changed; and after any further calls other than `th_execute`, a second
`th_wait(handle)` returns `THD_ERROR` and changes nothing. -/
theorem th_wait_erases (joins joins' : Nat → Bool) (th : Int) (threads t : ThreadTable)
    (h : th_wait joins th threads = .ok (THD_OK, t)) :
    (0 ≤ th ∧ th < 50 ∧ threads th.toNat ≠ none) ∧
    t th.toNat = none ∧
    (∀ i, i ≠ th.toNat → t i = threads i) ∧
    ∀ (calls : List ThreadCall) (t' : ThreadTable),
      thread_calls joins' calls t = .ok t' →
      th_wait joins' th t' = .ok (THD_ERROR, t') := by
  have hshape : (0 ≤ th ∧ th < 50 ∧ threads th.toNat ≠ none) ∧
      t = Function.update threads th.toNat none := by
    unfold th_wait at h
    split at h
    · rename_i hv
      have hr := (th_valid_handle_iff th).1 hv
      split at h
      · simp [THD_OK, THD_ERROR] at h
      · rename_i info hs
        have hne : threads th.toNat ≠ none := by rw [hs]; simp
        split at h
        · simp only [Except.ok.injEq, Prod.mk.injEq, true_and] at h
          exact ⟨⟨hr.1, hr.2, hne⟩, h.symm⟩
        · split at h
          · simp only [Except.ok.injEq, Prod.mk.injEq, true_and] at h
            exact ⟨⟨hr.1, hr.2, hne⟩, h.symm⟩
          · simp at h
    · simp [THD_OK, THD_ERROR] at h
  obtain ⟨hin, ht⟩ := hshape
  have hnone : t th.toNat = none := by rw [ht]; simp
  refine ⟨hin, hnone, fun i hi => by rw [ht, Function.update_noteq hi], ?_⟩
  intro calls t' hrun
  have hk := thread_calls_keep_empty joins' th.toNat calls t t' hrun hnone
  have hv : th_valid_handle th = true := (th_valid_handle_iff th).2 ⟨hin.1, hin.2.1⟩
  simp [th_wait, hv, hk]


/-- A state is `PENDING` or `RUNNING` exactly when it is neither `CANCELLED`
nor `FINISHED`. -/
theorem live_iff (st : ThreadState) :
    (st = ThreadState.PENDING ∨ st = ThreadState.RUNNING) ↔
      ¬ (st = ThreadState.CANCELLED ∨ st = ThreadState.FINISHED) := by
  cases st <;> simp

/-- The `th_kill` of a handle in range: `THD_OK` exactly when the slot holds a
record that is `PENDING` or `RUNNING`, and the record, if any, is as
`cancel_if_live` makes it. -/
theorem th_kill_in_range (idx : Nat) (threads : ThreadTable) (h : idx < 50) :
    (th_kill (idx : Int) threads).2 =
      Function.update threads idx ((threads idx).map cancel_if_live) ∧
    ((th_kill (idx : Int) threads).1 = THD_OK ∨ (th_kill (idx : Int) threads).1 = THD_ERROR) ∧
    ((th_kill (idx : Int) threads).1 = THD_OK ↔
      ∃ info, threads idx = some info ∧
        (info.state = ThreadState.PENDING ∨ info.state = ThreadState.RUNNING)) := by
  have hv := th_valid_handle_nat idx h
  cases hs : threads idx with
  | none =>
    have hk : th_kill (idx : Int) threads = (THD_ERROR, threads) := by
      simp [th_kill, hv, hs]
    rw [hk]
    refine ⟨?_, Or.inr rfl, ?_⟩
    · simp only [Option.map_none']
      rw [← hs, Function.update_eq_self]
    · simp [THD_OK, THD_ERROR]
  | some info =>
    by_cases hd : info.state = ThreadState.CANCELLED ∨ info.state = ThreadState.FINISHED
    · have hk : th_kill (idx : Int) threads = (THD_ERROR, threads) := by
        simp [th_kill, hv, hs, hd]
      rw [hk]
      refine ⟨?_, Or.inr rfl, ?_⟩
      · simp only [Option.map_some', cancel_if_live, hd, if_true]
        rw [← hs, Function.update_eq_self]
      · have := (live_iff info.state).not.2 (not_not.2 hd)
        simp [THD_OK, THD_ERROR, this]
    · have hk : th_kill (idx : Int) threads = (THD_OK, Function.update threads idx
          (some { info with state := ThreadState.CANCELLED })) := by
        simp [th_kill, hv, hs, hd]
      rw [hk]
      refine ⟨?_, Or.inl rfl, ?_⟩
      · simp [cancel_if_live, hd]
      · have := (live_iff info.state).2 hd
        simp [this]

/-- The loop of `th_kill_all` from `idx` over `n` handles in range: the result
is `THD_OK` when it was already or one of the slots held a record that was
`PENDING` or `RUNNING`, `THD_ERROR` otherwise; the records of those slots are
as `cancel_if_live` makes them and the other slots are as they were. -/
theorem th_kill_all_from_spec :
    ∀ (n idx : Nat) (ret : Int) (threads : ThreadTable),
      idx + n ≤ 50 → (ret = THD_OK ∨ ret = THD_ERROR) →
      (th_kill_all_from n idx ret threads).2 =
          (fun i => if idx ≤ i ∧ i < idx + n then (threads i).map cancel_if_live
                    else threads i) ∧
        ((th_kill_all_from n idx ret threads).1 = THD_OK ∨
          (th_kill_all_from n idx ret threads).1 = THD_ERROR) ∧
        ((th_kill_all_from n idx ret threads).1 = THD_OK ↔
          (ret = THD_OK ∨ ∃ i info, idx ≤ i ∧ i < idx + n ∧ threads i = some info ∧
            (info.state = ThreadState.PENDING ∨ info.state = ThreadState.RUNNING))) := by
  intro n
  induction n with
  | zero =>
    intro idx ret threads _ hret
    have h0 : th_kill_all_from 0 idx ret threads = (ret, threads) := rfl
    rw [h0]
    refine ⟨?_, hret, ⟨fun h => Or.inl h, ?_⟩⟩
    · funext i
      have : ¬ (idx ≤ i ∧ i < idx) := by omega
      simp [this]
    · rintro (h | ⟨i, info, h1, h2, _⟩)
      · exact h
      · omega
  | succ n ih =>
    intro idx ret threads hle hret
    rw [th_kill_all_from_succ]
    obtain ⟨hk2, hk1, hkiff⟩ := th_kill_in_range idx threads (by omega)
    have hret' : (Int.land ret (th_kill (idx : Int) threads).1 = THD_OK ∨
        Int.land ret (th_kill (idx : Int) threads).1 = THD_ERROR) := by
      rcases hret with h | h <;> rcases hk1 with h' | h'
      · left; rw [h, h']; exact land_ok_ok
      · left; rw [h, h']; exact land_ok_error
      · left; rw [h, h']; exact land_error_ok
      · right; rw [h, h']; exact land_error_error
    obtain ⟨ht, hr, hiff⟩ := ih (idx + 1) _ (th_kill (idx : Int) threads).2 (by omega) hret'
    refine ⟨?_, hr, ?_⟩
    · rw [ht, hk2]
      funext i
      by_cases hi : i = idx
      · subst hi
        have h1 : ¬ (i + 1 ≤ i ∧ i < i + 1 + n) := by omega
        have h2 : i ≤ i ∧ i < i + (n + 1) := by omega
        simp [h1, h2]
      · by_cases h1 : idx + 1 ≤ i ∧ i < idx + 1 + n
        · have h2 : idx ≤ i ∧ i < idx + (n + 1) := by omega
          simp only [h1, h2, if_true]
          rw [Function.update_noteq hi]
        · have h2 : ¬ (idx ≤ i ∧ i < idx + (n + 1)) := by omega
          simp only [h1, h2, if_false]
          exact Function.update_noteq hi _ _
    · rw [hiff]
      constructor
      · rintro (h | ⟨i, info, h1, h2, h3, h4⟩)
        · rcases hk1 with h' | h'
          · exact Or.inr ⟨idx, _, le_refl _, by omega, (hkiff.1 h').choose_spec.1,
              (hkiff.1 h').choose_spec.2⟩
          · rcases hret with h'' | h''
            · exact Or.inl h''
            · rw [h'', h', land_error_error] at h
              exact absurd h (by decide)
        · have hi : i ≠ idx := by omega
          rw [hk2, Function.update_noteq hi] at h3
          exact Or.inr ⟨i, info, by omega, by omega, h3, h4⟩
      · rintro (h | ⟨i, info, h1, h2, h3, h4⟩)
        · left
          rcases hk1 with h' | h'
          · rw [h, h']; exact land_ok_ok
          · rw [h, h']; exact land_ok_error
        · by_cases hi : i = idx
          · subst hi
            left
            have h' := hkiff.2 ⟨info, h3, h4⟩
            rcases hret with h | h
            · rw [h, h']; exact land_ok_ok
            · rw [h, h']; exact land_error_ok
          · right
            refine ⟨i, info, by omega, by omega, ?_, h4⟩
            rw [hk2, Function.update_noteq hi]
            exact h3


/-- C16: when every thread that has to be joined can be, `th_wait_all` returns;
it returns `THD_OK` if the table held at least one record when it was called
and `THD_ERROR` otherwise, and afterwards every slot of the table is empty. -/
theorem th_wait_all_spec (joins : Nat → Bool) (threads : ThreadTable)
    (hj : ∀ i info, i < MAX_THREADS → threads i = some info →
      info.state = ThreadState.FINISHED ∨ joins info.pthread = true) :
    ∃ r t, th_wait_all joins threads = .ok (r, t) ∧
      (r = THD_OK ∨ r = THD_ERROR) ∧
      (r = THD_OK ↔ ∃ i, i < MAX_THREADS ∧ threads i ≠ none) ∧
      ∀ i, i < MAX_THREADS → t i = none := by
  obtain ⟨r, hrun, hr, hiff⟩ := th_wait_all_from_spec joins 50 0 THD_ERROR threads
    (by omega) (Or.inr rfl) (fun i info _ h2 hs => hj i info (by simpa [MAX_THREADS] using h2) hs)
  refine ⟨r, _, hrun, hr, ?_, ?_⟩
  · rw [hiff]
    constructor
    · rintro (h | ⟨i, _, h2, h3⟩)
      · exact absurd h (by decide)
      · exact ⟨i, by simpa [MAX_THREADS] using h2, h3⟩
    · rintro ⟨i, h2, h3⟩
      exact Or.inr ⟨i, Nat.zero_le _, by simpa [MAX_THREADS] using h2, h3⟩
  · intro i hi
    have : 0 ≤ i ∧ i < 0 + 50 := by simp [MAX_THREADS] at hi; omega
    simp [this]

/-- C17: `th_kill_all` returns `THD_OK` if at least one record was `PENDING` or
`RUNNING` when it was called and `THD_ERROR` otherwise; afterwards every record
that was `PENDING` or `RUNNING` is `CANCELLED` and otherwise as it was, every
record that was `CANCELLED` or `FINISHED` is as it was, and an empty slot is
empty: no record has been removed or added. -/
theorem th_kill_all_spec (threads : ThreadTable) :
    ((th_kill_all threads).1 = THD_OK ∨ (th_kill_all threads).1 = THD_ERROR) ∧
    ((th_kill_all threads).1 = THD_OK ↔
      ∃ i info, i < MAX_THREADS ∧ threads i = some info ∧
        (info.state = ThreadState.PENDING ∨ info.state = ThreadState.RUNNING)) ∧
    (∀ i info, i < MAX_THREADS → threads i = some info →
      (info.state = ThreadState.PENDING ∨ info.state = ThreadState.RUNNING) →
      (th_kill_all threads).2 i = some { info with state := ThreadState.CANCELLED }) ∧
    (∀ i info, threads i = some info →
      (info.state = ThreadState.CANCELLED ∨ info.state = ThreadState.FINISHED) →
      (th_kill_all threads).2 i = some info) ∧
    (∀ i, threads i = none → (th_kill_all threads).2 i = none) := by
  obtain ⟨ht, hr, hiff⟩ := th_kill_all_from_spec 50 0 THD_ERROR threads (by omega) (Or.inr rfl)
  have ht' : (th_kill_all threads).2 =
      fun i => if 0 ≤ i ∧ i < 0 + 50 then (threads i).map cancel_if_live else threads i := ht
  refine ⟨hr, ?_, ?_, ?_, ?_⟩
  · show (th_kill_all_from 50 0 THD_ERROR threads).1 = THD_OK ↔ _
    rw [hiff]
    constructor
    · rintro (h | ⟨i, info, _, h2, h3, h4⟩)
      · exact absurd h (by decide)
      · exact ⟨i, info, by simpa [MAX_THREADS] using h2, h3, h4⟩
    · rintro ⟨i, info, h2, h3, h4⟩
      exact Or.inr ⟨i, info, Nat.zero_le _, by simpa [MAX_THREADS] using h2, h3, h4⟩
  · intro i info hi hs hl
    have hin : 0 ≤ i ∧ i < 0 + 50 := by simp [MAX_THREADS] at hi; omega
    have hd := (live_iff info.state).1 hl
    rw [ht']
    simp [hin, hs, cancel_if_live, hd]
  · intro i info hs hd
    rw [ht']
    by_cases hin : 0 ≤ i ∧ i < 0 + 50
    · simp [hin, hs, cancel_if_live, hd]
    · simp only [hin, if_false]
      exact hs
  · intro i hs
    rw [ht']
    by_cases hin : 0 ≤ i ∧ i < 0 + 50
    · simp [hin, hs]
    · simp [hin, hs]

/-- C18: a table whose only record is `CANCELLED` (made by `th_execute` and
`th_kill`) is not empty, and `th_kill_all` returns `THD_ERROR` on it. -/
theorem th_kill_all_error_with_record :
    ((th_kill 0 (th_execute 1 "A" true (some 1) ThreadTable.empty).2).2 0).map
      (fun t => t.state) = some ThreadState.CANCELLED ∧
    (th_kill_all (th_kill 0 (th_execute 1 "A" true (some 1) ThreadTable.empty).2).2).1
      = THD_ERROR := by
  refine ⟨by decide, ?_⟩
  obtain ⟨_, hr, hiff⟩ := th_kill_all_from_spec 50 0 THD_ERROR
    (th_kill 0 (th_execute 1 "A" true (some 1) ThreadTable.empty).2).2 (by omega) (Or.inr rfl)
  rcases hr with h | h
  · exfalso
    rcases hiff.1 h with h' | ⟨i, info, _, _, h3, h4⟩
    · exact absurd h' (by decide)
    · have hT : (th_kill 0 (th_execute 1 "A" true (some 1) ThreadTable.empty).2).2 =
          Function.update (Function.update ThreadTable.empty 0
            (some { pthread := 1, handle := 0, state := ThreadState.PENDING,
                    name := "A", func := 1 })) 0
            (some { pthread := 1, handle := 0, state := ThreadState.CANCELLED,
                    name := "A", func := 1 }) := rfl
      rw [hT] at h3
      by_cases hi : i = 0
      · subst hi
        simp only [Function.update_same, Option.some.injEq] at h3
        subst h3
        simp at h4
      · rw [Function.update_noteq hi, Function.update_noteq hi] at h3
        simp [ThreadTable.empty] at h3
  · exact h

/-- C15 as stated fails: with a non-null function and an empty table, a
`pthread_create` that fails makes `th_execute` return `THD_ERROR`, not the
smallest free index `0`. -/
theorem th_execute_fails_with_free_slot :
    ThreadTable.empty 0 = none ∧
    (th_execute 1 "A" true none ThreadTable.empty).1 = THD_ERROR ∧
    (th_execute 1 "A" true none ThreadTable.empty).2 0 = none := by
  decide

/-- The loop of `get_next_handle` returns `THD_ERROR` when the slots it visits
are all occupied and the first free one otherwise. -/
theorem next_handle_from_spec (threads : ThreadTable) :
    ∀ (n idx : Nat),
      (next_handle_from threads n idx = THD_ERROR ∧
        ∀ i, idx ≤ i → i < idx + n → threads i ≠ none) ∨
      ∃ h, idx ≤ h ∧ h < idx + n ∧ threads h = none ∧
        (∀ j, idx ≤ j → j < h → threads j ≠ none) ∧
        next_handle_from threads n idx = (h : Int) := by
  intro n
  induction n with
  | zero =>
    intro idx
    exact Or.inl ⟨rfl, fun i h1 h2 => by omega⟩
  | succ n ih =>
    intro idx
    cases hs : threads idx with
    | none =>
      refine Or.inr ⟨idx, le_refl _, by omega, hs, fun j h1 h2 => by omega, ?_⟩
      simp [next_handle_from, hs]
    | some info =>
      have hstep : next_handle_from threads (n + 1) idx = next_handle_from threads n (idx + 1) := by
        simp [next_handle_from, hs]
      rcases ih (idx + 1) with ⟨h1, h2⟩ | ⟨h, h1, h2, h3, h4, h5⟩
      · refine Or.inl ⟨by rw [hstep, h1], fun i hi1 hi2 => ?_⟩
        by_cases hi : i = idx
        · rw [hi, hs]; simp
        · exact h2 i (by omega) (by omega)
      · refine Or.inr ⟨h, by omega, by omega, h3, fun j hj1 hj2 => ?_, by rw [hstep, h5]⟩
        by_cases hj : j = idx
        · rw [hj, hs]; simp
        · exact h4 j (by omega) hj2

/-- C15, amended: with a non-null function, a free slot, and `malloc` and
`pthread_create` succeeding, `th_execute` returns the smallest free index `h`,
`0 ≤ h < 50`, and the table differs only in slot `h`, which holds a record
with handle `h` and state `PENDING`; with a null function, no free slot, or
`malloc` or `pthread_create` failing, it returns `THD_ERROR` and leaves the
table as it was; and if every record's handle was the index of its slot
before, that is so afterwards, and no two records share a handle. -/
theorem th_execute_spec (func : Nat) (name : String) (malloc_ok : Bool) (created : Option Nat)
    (threads : ThreadTable) :
    (func ≠ 0 → malloc_ok = true → ∀ tid, created = some tid →
      (∃ i, i < MAX_THREADS ∧ threads i = none) →
      ∃ h : Nat, h < MAX_THREADS ∧ threads h = none ∧ (∀ j, j < h → threads j ≠ none) ∧
        th_execute func name malloc_ok created threads =
          ((h : Int), Function.update threads h
            (some { pthread := tid, handle := (h : Int), state := ThreadState.PENDING,
                    name := name, func := func }))) ∧
    ((func = 0 ∨ (∀ i, i < MAX_THREADS → threads i ≠ none) ∨ malloc_ok = false ∨
        created = none) →
      th_execute func name malloc_ok created threads = (THD_ERROR, threads)) ∧
    ((∀ i info, threads i = some info → info.handle = (i : Int)) →
      (∀ i info, (th_execute func name malloc_ok created threads).2 i = some info →
        info.handle = (i : Int)) ∧
      ∀ i j a b, (th_execute func name malloc_ok created threads).2 i = some a →
        (th_execute func name malloc_ok created threads).2 j = some b →
        a.handle = b.handle → i = j) := by
  have hspec := next_handle_from_spec threads 50 0
  have hsucc : func ≠ 0 → malloc_ok = true → ∀ tid, created = some tid →
      (∃ i, i < MAX_THREADS ∧ threads i = none) →
      ∃ h : Nat, h < MAX_THREADS ∧ threads h = none ∧ (∀ j, j < h → threads j ≠ none) ∧
        th_execute func name malloc_ok created threads =
          ((h : Int), Function.update threads h
            (some { pthread := tid, handle := (h : Int), state := ThreadState.PENDING,
                    name := name, func := func })) := by
    intro hf hm tid hc ⟨i, hi, hfree⟩
    rcases hspec with ⟨_, hall⟩ | ⟨h, _, h2, h3, h4, h5⟩
    · exact absurd hfree (hall i (Nat.zero_le _) (by simpa [MAX_THREADS] using hi))
    · refine ⟨h, by simpa [MAX_THREADS] using h2, h3, fun j hj => h4 j (Nat.zero_le _) hj, ?_⟩
      have hg : get_next_handle threads = (h : Int) := h5
      have hne : ((h : Int) = THD_ERROR) = False := by
        simp only [THD_ERROR, eq_iff_iff, iff_false]; omega
      simp [th_execute, hf, hm, hc, hg, hne]
  refine ⟨hsucc, ?_, fun hinv => ?_⟩
  · rintro (hf | hfull | hm | hc)
    · simp [th_execute, hf]
    · rcases hspec with ⟨h1, _⟩ | ⟨h, _, h2, h3, _, _⟩
      · have hg : get_next_handle threads = THD_ERROR := h1
        by_cases hf : func = 0
        · simp [th_execute, hf]
        · simp [th_execute, hf, hg]
      · exact absurd h3 (hfull h (by simpa [MAX_THREADS] using h2))
    · by_cases hf : func = 0
      · simp [th_execute, hf]
      · by_cases hg : get_next_handle threads = THD_ERROR
        · simp [th_execute, hf, hg]
        · simp [th_execute, hf, hg, hm]
    · by_cases hf : func = 0
      · simp [th_execute, hf]
      · by_cases hg : get_next_handle threads = THD_ERROR
        · simp [th_execute, hf, hg]
        · by_cases hm : malloc_ok = true
          · simp [th_execute, hf, hg, hm, hc]
          · simp [th_execute, hf, hg, hm]
  · have hkeep : ∀ i info, (th_execute func name malloc_ok created threads).2 i = some info →
        info.handle = (i : Int) := by
      intro i info hi
      by_cases hok : func ≠ 0 ∧ malloc_ok = true ∧ (∃ tid, created = some tid) ∧
          ∃ i, i < MAX_THREADS ∧ threads i = none
      · obtain ⟨hf, hm, ⟨tid, hc⟩, hfree⟩ := hok
        obtain ⟨h, _, _, _, he⟩ := hsucc hf hm tid hc hfree
        rw [he] at hi
        by_cases hih : i = h
        · subst hih
          simp only [Function.update_same, Option.some.injEq] at hi
          rw [← hi]
        · simp only [Function.update_noteq hih] at hi
          exact hinv i info hi
      · have hfail : th_execute func name malloc_ok created threads = (THD_ERROR, threads) := by
          by_cases hf : func = 0
          · simp [th_execute, hf]
          · by_cases hg : get_next_handle threads = THD_ERROR
            · simp [th_execute, hf, hg]
            · by_cases hm : malloc_ok = true
              · cases hc : created with
                | none => simp [th_execute, hf, hg, hm]
                | some tid =>
                  exfalso
                  apply hok
                  refine ⟨hf, hm, ⟨tid, hc⟩, ?_⟩
                  rcases hspec with ⟨h1, _⟩ | ⟨h, _, h2, h3, _, _⟩
                  · exact absurd h1 hg
                  · exact ⟨h, by simpa [MAX_THREADS] using h2, h3⟩
              · simp [th_execute, hf, hg, hm]
        rw [hfail] at hi
        exact hinv i info hi
    refine ⟨hkeep, fun i j a b hi hj hab => ?_⟩
    have e1 := hkeep i a hi
    have e2 := hkeep j b hj
    omega

/-! ### The worker pass of the producer -/

/-- With locking disabled `process_entry` makes no kernel call and applies the
task to the region. -/
theorem process_entry_unlocked {σ F : Type} (os : OsModel σ) (st : ShmState)
    (task : PointTask F) (s : Region F × σ) (hsem : st.UseSemaphores = false) :
    process_entry os st task s = .ok (apply_task task s.1, s.2) := by
  unfold process_entry apply_task
  by_cases hr : task.index < 0 ∨ task.index ≥ (MAX_NUM_POINTS : Int)
  · simp [hr]
  · simp only [hr, if_false, shm_lock, shm_unlock, shm_semop_disabled os _ SHM_KEY st _ hsem,
      if_true]

/-- With locking disabled the loop over the tasks applies them in order. -/
theorem iterate_nodes_unlocked {σ F : Type} (os : OsModel σ) (st : ShmState)
    (hsem : st.UseSemaphores = false) :
    ∀ (tasks : List (PointTask F)) (s : Region F × σ),
      iterate_nodes (process_entry os st) tasks s =
        .ok (tasks.foldl (fun region task => apply_task task region) s.1, s.2) := by
  intro tasks
  induction tasks with
  | nil => intro s; rfl
  | cons task rest ih =>
    intro s
    unfold iterate_nodes
    rw [process_entry_unlocked os st task s hsem]
    simp only [List.foldl_cons]
    exact ih _

/-- A task whose index is not `i` leaves slot `i` as it was. -/
theorem apply_task_other {F : Type} (task : PointTask F) (region : Region F) (i : Nat)
    (hne : task.index ≠ (i : Int)) : apply_task task region i = region i := by
  unfold apply_task install_point invalidate_point
  by_cases hr : task.index < 0 ∨ task.index ≥ (MAX_NUM_POINTS : Int)
  · simp [hr]
  · have hi : i ≠ task.index.toNat := by
      intro h
      apply hne
      push_neg at hr
      rw [h]
      omega
    by_cases hd : task.delay ≥ 0 <;> simp [hr, hd, Function.update_noteq hi]

/-- A task whose index is `i < 20` installs its point in slot `i` when its
delay is not negative and clears the `is_valid` field of slot `i` when it is,
keeping `x` and `y`. -/
theorem apply_task_same {F : Type} (task : PointTask F) (region : Region F) (i : Nat)
    (hi : i < MAX_NUM_POINTS) (he : task.index = (i : Int)) :
    (task.delay ≥ 0 → apply_task task region i = task.point) ∧
    (task.delay < 0 → apply_task task region i = { region i with is_valid := 0 }) := by
  have hr : ¬ (task.index < 0 ∨ task.index ≥ (MAX_NUM_POINTS : Int)) := by
    rw [he]; push_neg; constructor
    · omega
    · exact_mod_cast hi
  have ht : task.index.toNat = i := by rw [he]; simp
  unfold apply_task install_point invalidate_point
  constructor
  · intro hd
    simp only [hr, hd, if_false, if_true, ht, Function.update_same]
  · intro hd
    have hd' : ¬ task.delay ≥ 0 := by omega
    simp only [hr, hd', if_false, ht, Function.update_same]

/-- After the tasks are applied in order, slot `i < 20` is what the last task
with index `i` made of it, and as before when there is none. -/
theorem foldl_apply_task_last {F : Type} (i : Nat) (hi : i < MAX_NUM_POINTS) :
    ∀ (tasks : List (PointTask F)) (region : Region F),
      match last_task_for (i : Int) tasks with
      | none => tasks.foldl (fun r task => apply_task task r) region i = region i
      | some task =>
        task.index = (i : Int) ∧ task ∈ tasks ∧
        (task.delay ≥ 0 →
          tasks.foldl (fun r task => apply_task task r) region i = task.point) ∧
        (task.delay < 0 →
          (tasks.foldl (fun r task => apply_task task r) region i).is_valid = 0) := by
  intro tasks
  induction tasks with
  | nil => intro region; simp [last_task_for]
  | cons task rest ih =>
    intro region
    have h := ih (apply_task task region)
    simp only [List.foldl_cons]
    unfold last_task_for
    cases hl : last_task_for (i : Int) rest with
    | some later =>
      rw [hl] at h
      simp only []
      exact ⟨h.1, List.mem_cons_of_mem _ h.2.1, h.2.2⟩
    | none =>
      rw [hl] at h
      simp only [] at h ⊢
      by_cases he : task.index = (i : Int)
      · simp only [he, if_true]
        obtain ⟨h1, h2⟩ := apply_task_same task region i hi he
        refine ⟨trivial, List.mem_cons_self _ _, fun hd => ?_, fun hd => ?_⟩
        · rw [h, h1 hd]
        · rw [h, h2 hd]
      · simp only [he, if_false]
        rw [h, apply_task_other task region i he]

/-- C20: with locking disabled, as `main` of `install_data.c` sets it, the
worker pass over a list of parsed tasks (each with `is_valid = 1` in its point)
returns, and every slot `i < 20` of the region is then determined by the last
task with index `i`: the task's point, with `is_valid = 1`, when its delay is
not negative; `is_valid = 0` when it is negative; as at the start when no task
has index `i`. -/
theorem worker_pass_last_task_wins {σ F : Type} (os : OsModel σ) (st : ShmState)
    (Tasks : CList (PointTask F)) (region : Region F) (w : σ)
    (hsem : st.UseSemaphores = false)
    (hparsed : ∀ task ∈ Tasks.items, task.point.is_valid = 1) :
    ∃ final, thread_entry_point os st Tasks (region, w) = .ok (final, w) ∧
      ∀ i, i < MAX_NUM_POINTS →
        match last_task_for (i : Int) Tasks.items with
        | none => final i = region i
        | some task =>
          (task.delay ≥ 0 → final i = task.point ∧ (final i).is_valid = 1) ∧
          (task.delay < 0 → (final i).is_valid = 0) := by
  refine ⟨Tasks.items.foldl (fun r task => apply_task task r) region, ?_, ?_⟩
  · exact iterate_nodes_unlocked os st hsem Tasks.items (region, w)
  · intro i hi
    have h := foldl_apply_task_last i hi Tasks.items region
    cases hl : last_task_for (i : Int) Tasks.items with
    | none => rw [hl] at h; exact h
    | some task =>
      rw [hl] at h
      simp only [] at h ⊢
      obtain ⟨_, hmem, h1, h2⟩ := h
      exact ⟨fun hd => ⟨h1 hd, by rw [h1 hd]; exact hparsed task hmem⟩, h2⟩

/-! ### The signal table -/

/-- In a table of 15 slots a signal number from `1` to `15` hashes to itself
modulo 15. -/
theorem signal_index {V : Type} (h : Hash V) (sig : Int) (hsz : h.size = MAX_SIGNAL)
    (h1 : 1 ≤ sig) (h15 : sig ≤ 15) : get_hash_index h sig = sig.toNat % 15 := by
  unfold get_hash_index
  rw [hsz]
  have : sig % 4294967296 = sig := Int.emod_eq_of_lt (by omega) (by omega)
  rw [this]
  rfl

/-- Two signal numbers from `1` to `15` that hash to the same slot are equal. -/
theorem signal_index_inj (a b : Int) (ha1 : 1 ≤ a) (ha : a ≤ 15) (hb1 : 1 ≤ b) (hb : b ≤ 15)
    (h : a.toNat % 15 = b.toNat % 15) : a = b := by
  omega

/-- In a direct table the lookup of a signal number from `1` to `15` looks at
one slot: it returns the node there, if any. -/
theorem get_hash_item_direct (h : Hash Nat) (sig : Int) (hd : signal_table_direct h)
    (h1 : 1 ≤ sig) (h15 : sig ≤ 15) :
    (h.hash_array (sig.toNat % 15) = none ∧
      probe h sig h.size (get_hash_index h sig) = Probe.empty (sig.toNat % 15) ∧
      get_hash_item h sig = .ok none) ∨
    (∃ node, h.hash_array (sig.toNat % 15) = some node ∧ node.key = sig ∧
      probe h sig h.size (get_hash_index h sig) = Probe.found (sig.toNat % 15) ∧
      get_hash_item h sig = .ok (some (sig.toNat % 15, node))) := by
  obtain ⟨hsz, hall⟩ := hd
  have hidx := signal_index h sig hsz h1 h15
  have hsz0 : h.size ≠ 0 := by rw [hsz]; decide
  have hfuel : h.size = 14 + 1 := hsz
  cases hs : h.hash_array (sig.toNat % 15) with
  | none =>
    have hp : probe h sig h.size (get_hash_index h sig) = Probe.empty (sig.toNat % 15) := by
      rw [hidx, hfuel]
      simp [probe, hs]
    exact Or.inl ⟨rfl, hp, get_hash_item_of_empty h sig _ hsz0 hp⟩
  | some node =>
    obtain ⟨hk1, hk15, hki⟩ := hall _ node hs
    rw [signal_index h node.key hsz hk1 hk15] at hki
    have hkey : node.key = sig := signal_index_inj _ _ hk1 hk15 h1 h15 hki
    have hp : probe h sig h.size (get_hash_index h sig) = Probe.found (sig.toNat % 15) := by
      rw [hidx, hfuel]
      simp [probe, hs, hkey]
    refine Or.inr ⟨node, rfl, hkey, hp, ?_⟩
    simp [get_hash_item, hsz0, hp, hs]

/-- In a direct table the callback found for a signal number from `1` to `15`
is the one in the slot the number hashes to. -/
theorem signal_callback_direct (h : Hash Nat) (sig : Int) (hd : signal_table_direct h)
    (h1 : 1 ≤ sig) (h15 : sig ≤ 15) :
    signal_callback (some h) sig =
      .ok ((h.hash_array (sig.toNat % 15)).map (fun node => node.value)) := by
  rcases get_hash_item_direct h sig hd h1 h15 with ⟨hs, _, hg⟩ | ⟨node, hs, _, _, hg⟩
  · simp [signal_callback, hg, hs]
  · simp [signal_callback, hg, hs]

/-- A new table is direct. -/
theorem signal_table_direct_new : signal_table_direct (new_hash MAX_SIGNAL : Hash Nat) :=
  ⟨rfl, fun i node h => by simp [new_hash] at h⟩

/-- Writing the node of a signal number into its slot keeps a table direct. -/
theorem signal_table_direct_update (h : Hash Nat) (sig : Int) (cb : Nat) (sz : Int)
    (hd : signal_table_direct h) (h1 : 1 ≤ sig) (h15 : sig ≤ 15) :
    signal_table_direct (Hash.mk h.size
      (Function.update h.hash_array (sig.toNat % 15) (some (HashNode.mk sig sz cb)))) := by
  obtain ⟨hsz, hall⟩ := hd
  refine ⟨hsz, fun i node hs => ?_⟩
  by_cases hi : i = sig.toNat % 15
  · subst hi
    simp only [Function.update_same, Option.some.injEq] at hs
    subst hs
    exact ⟨h1, h15, signal_index _ sig hsz h1 h15⟩
  · simp only [Function.update_noteq hi] at hs
    obtain ⟨a, b, c⟩ := hall i node hs
    exact ⟨a, b, c⟩

/-- Emptying a slot keeps a table direct. -/
theorem signal_table_direct_clear (h : Hash Nat) (j : Nat) (hd : signal_table_direct h) :
    signal_table_direct (Hash.mk h.size (Function.update h.hash_array j none)) := by
  obtain ⟨hsz, hall⟩ := hd
  refine ⟨hsz, fun i node hs => ?_⟩
  by_cases hi : i = j
  · subst hi
    simp at hs
  · simp only [Function.update_noteq hi] at hs
    obtain ⟨a, b, c⟩ := hall i node hs
    exact ⟨a, b, c⟩

/-- In a direct table an insert for a signal number from `1` to `15` writes
the slot the number hashes to. -/
theorem insert_hash_item_direct (h : Hash Nat) (sig : Int) (cb : Nat) (sz : Int)
    (hd : signal_table_direct h) (h1 : 1 ≤ sig) (h15 : sig ≤ 15) :
    insert_hash_item h sig cb sz = .ok (Hash.mk h.size
      (Function.update h.hash_array (sig.toNat % 15) (some (HashNode.mk sig sz cb)))) := by
  have hsz0 : h.size ≠ 0 := by rw [hd.1]; decide
  rcases get_hash_item_direct h sig hd h1 h15 with ⟨_, hp, _⟩ | ⟨node, _, _, hp, _⟩
  · simp [insert_hash_item, hsz0, hp]
  · simp [insert_hash_item, hsz0, hp]

/-- In a direct table a delete for a signal number from `1` to `15` empties
the slot the number hashes to. -/
theorem delete_hash_item_direct (h : Hash Nat) (sig : Int)
    (hd : signal_table_direct h) (h1 : 1 ≤ sig) (h15 : sig ≤ 15) :
    ∃ b, delete_hash_item h sig = .ok (b, Hash.mk h.size
      (Function.update h.hash_array (sig.toNat % 15) none)) := by
  have hsz0 : h.size ≠ 0 := by rw [hd.1]; decide
  rcases get_hash_item_direct h sig hd h1 h15 with ⟨hs, hp, _⟩ | ⟨node, _, _, hp, _⟩
  · refine ⟨false, ?_⟩
    have : Function.update h.hash_array (sig.toNat % 15) none = h.hash_array := by
      rw [← hs, Function.update_eq_self]
    simp [delete_hash_item, hsz0, hp, this]
  · exact ⟨true, by simp [delete_hash_item, hsz0, hp]⟩


/-- C19: let the signal table be missing or direct, and take a signal number
`sig` from `1` to `15` (the numbers for which `sigaddset` can succeed) and OS
calls that succeed.  Then `th_install_signal_handler(sig, cb)` returns `true`,
the table maps `sig` to `cb` afterwards, whatever it held for `sig` before, and
maps every other signal number to what it did before.  With a table,
`th_uninstall_signal_handler(sig)` returns `true`, the table has no entry for
`sig` afterwards and the other signal numbers keep theirs; with no table it
returns `false` and there is still none.  In each case the table stays direct.
For a number above `15`, whatever the OS calls do, both operations return
`false` and leave the table as it was. -/
theorem signal_handler_table (handlers : Option (Hash Nat)) (sig : Int) (cb : Nat)
    (hdirect : ∀ h, handlers = some h → signal_table_direct h)
    (h1 : 1 ≤ sig) (h15 : sig ≤ 15) :
    (∃ h', th_install_signal_handler true true true sig cb handlers = .ok (true, some h') ∧
      signal_table_direct h' ∧
      signal_callback (some h') sig = .ok (some cb) ∧
      ∀ s, 1 ≤ s → s ≤ 15 → s ≠ sig →
        signal_callback (some h') s = signal_callback handlers s) ∧
    (∀ h, handlers = some h →
      ∃ h', th_uninstall_signal_handler true true sig handlers = .ok (true, some h') ∧
        signal_table_direct h' ∧
        signal_callback (some h') sig = .ok none ∧
        ∀ s, 1 ≤ s → s ≤ 15 → s ≠ sig →
          signal_callback (some h') s = signal_callback handlers s) ∧
    (handlers = none →
      th_uninstall_signal_handler true true sig handlers = .ok (false, none)) ∧
    (∀ (s : Int) (c : Nat) (mask_ok procmask_ok sigaction_ok : Bool), 15 < s →
      th_install_signal_handler mask_ok procmask_ok sigaction_ok s c handlers
        = .ok (false, handlers) ∧
      th_uninstall_signal_handler mask_ok procmask_ok s handlers = .ok (false, handlers)) := by
  have hle : ¬ sig > (MAX_SIGNAL : Int) := by simp [MAX_SIGNAL]; omega
  refine ⟨?_, ?_, ?_, ?_⟩
  · -- install
    cases handlers with
    | none =>
      have hd : signal_table_direct (new_hash MAX_SIGNAL : Hash Nat) := signal_table_direct_new
      have hd' := signal_table_direct_update _ sig cb SIZEOF_pointer hd h1 h15
      refine ⟨_, ?_, hd', ?_, ?_⟩
      · simp [th_install_signal_handler, hle,
          insert_hash_item_direct _ sig cb SIZEOF_pointer hd h1 h15]
      · rw [signal_callback_direct _ sig hd' h1 h15]
        simp
      · intro s hs1 hs15 hne
        rw [signal_callback_direct _ s hd' hs1 hs15]
        have hidx : s.toNat % 15 ≠ sig.toNat % 15 := fun e =>
          hne (signal_index_inj s sig hs1 hs15 h1 h15 e)
        simp [Function.update_noteq hidx, signal_callback, new_hash]
    | some h =>
      have hd := hdirect h rfl
      have hd' := signal_table_direct_update _ sig cb SIZEOF_pointer hd h1 h15
      refine ⟨_, ?_, hd', ?_, ?_⟩
      · simp [th_install_signal_handler, hle,
          insert_hash_item_direct _ sig cb SIZEOF_pointer hd h1 h15]
      · rw [signal_callback_direct _ sig hd' h1 h15]
        simp
      · intro s hs1 hs15 hne
        rw [signal_callback_direct _ s hd' hs1 hs15, signal_callback_direct h s hd hs1 hs15]
        have hidx : s.toNat % 15 ≠ sig.toNat % 15 := fun e =>
          hne (signal_index_inj s sig hs1 hs15 h1 h15 e)
        simp only [Function.update_noteq hidx]
  · -- uninstall with a table
    intro h hh
    have hd := hdirect h hh
    obtain ⟨b, hdel⟩ := delete_hash_item_direct h sig hd h1 h15
    have hd' := signal_table_direct_clear h (sig.toNat % 15) hd
    refine ⟨_, ?_, hd', ?_, ?_⟩
    · simp [th_uninstall_signal_handler, hle, hh, hdel]
    · rw [signal_callback_direct _ sig hd' h1 h15]
      simp
    · intro s hs1 hs15 hne
      rw [signal_callback_direct _ s hd' hs1 hs15, hh, signal_callback_direct h s hd hs1 hs15]
      have hidx : s.toNat % 15 ≠ sig.toNat % 15 := fun e =>
        hne (signal_index_inj s sig hs1 hs15 h1 h15 e)
      simp only [Function.update_noteq hidx]
  · intro hh
    unfold th_uninstall_signal_handler
    simp [hle, hh]
  · intro s c m p a hs
    have hgt : s > (MAX_SIGNAL : Int) := by simp [MAX_SIGNAL]; omega
    constructor
    · unfold th_install_signal_handler
      simp [hgt]
    · unfold th_uninstall_signal_handler
      simp [hgt]

/-! ### Witnesses for the thread table, the signal table and the worker pass -/

/-- Witness of `th_kill_live`: the `PENDING` record of `demo_threads`. -/
theorem th_kill_live_witness :
    demo_threads 0 = some demo_thread_info ∧
    (th_kill 0 demo_threads).1 = THD_OK ∧
    (th_kill 0 demo_threads).2 (0 : Int).toNat =
      some { demo_thread_info with state := ThreadState.CANCELLED } :=
  ⟨by decide,
   (th_kill_live (fun _ => true) 0 demo_threads demo_thread_info (by decide) (by decide)
      (by decide) (Or.inl rfl)).1,
   (th_kill_live (fun _ => true) 0 demo_threads demo_thread_info (by decide) (by decide)
      (by decide) (Or.inl rfl)).2.1⟩

/-- Witness of `th_kill_dead`: the record of `demo_threads` once killed. -/
theorem th_kill_dead_witness :
    (th_kill 0 demo_threads).2 (0 : Int).toNat =
      some { demo_thread_info with state := ThreadState.CANCELLED } ∧
    th_kill 0 (th_kill 0 demo_threads).2 = (THD_ERROR, (th_kill 0 demo_threads).2) :=
  ⟨by decide,
   th_kill_dead 0 (th_kill 0 demo_threads).2
     { demo_thread_info with state := ThreadState.CANCELLED } (by decide) (by decide)
     (by decide) (Or.inl rfl)⟩

/-- Witness of `th_wait_erases`: a `th_wait` on the record of `demo_threads`. -/
theorem th_wait_erases_witness :
    (returned (0, demo_threads) (th_wait (fun _ => true) 0 demo_threads)).1 = THD_OK ∧
    (returned (0, demo_threads) (th_wait (fun _ => true) 0 demo_threads)).2 (0 : Int).toNat
      = none ∧
    th_wait (fun _ => true) 0
        (returned (0, demo_threads) (th_wait (fun _ => true) 0 demo_threads)).2 =
      .ok (THD_ERROR, (returned (0, demo_threads) (th_wait (fun _ => true) 0 demo_threads)).2) :=
  ⟨by decide,
   (th_wait_erases (fun _ => true) (fun _ => true) 0 demo_threads
      (returned (0, demo_threads) (th_wait (fun _ => true) 0 demo_threads)).2 rfl).2.1,
   (th_wait_erases (fun _ => true) (fun _ => true) 0 demo_threads
      (returned (0, demo_threads) (th_wait (fun _ => true) 0 demo_threads)).2 rfl).2.2.2
      [] _ rfl⟩

/-- Witness of `invalid_handle_rejected`: the handle `50`. -/
theorem invalid_handle_rejected_witness :
    th_wait (fun _ => true) 50 demo_threads = .ok (THD_ERROR, demo_threads) ∧
    th_kill 50 demo_threads = (THD_ERROR, demo_threads) :=
  invalid_handle_rejected (fun _ => true) 50 demo_threads (Or.inr (Or.inl (by decide)))

/-- Witness of `th_execute_spec`: a second `th_execute` on `demo_threads`, whose
slot `0` is taken, returns the handle `1`. -/
theorem th_execute_spec_witness :
    demo_threads 0 ≠ none ∧ demo_threads 1 = none ∧
    (th_execute 1 "B" true (some 2) demo_threads).1 = 1 := by
  obtain ⟨h, _, h2, h3, h4⟩ :=
    (th_execute_spec 1 "B" true (some 2) demo_threads).1 (by decide) rfl 2 rfl
      ⟨1, by decide, by decide⟩
  have h0 : demo_threads 0 ≠ none := by decide
  have h1 : demo_threads 1 = none := by decide
  have hh : h = 1 := by
    rcases Nat.lt_trichotomy h 1 with hlt | heq | hgt
    · have : h = 0 := by omega
      subst this
      exact absurd h2 h0
    · exact heq
    · exact absurd h1 (h3 1 hgt)
  subst hh
  exact ⟨h0, h1, by rw [h4]; rfl⟩

/-- Witness of `th_wait_all_spec`: `th_wait_all` on `demo_threads` returns
`THD_OK` and empties slot `0`. -/
theorem th_wait_all_spec_witness :
    ∃ r t, th_wait_all (fun _ => true) demo_threads = .ok (r, t) ∧ r = THD_OK ∧ t 0 = none := by
  obtain ⟨r, t, hrun, _, hiff, hempty⟩ :=
    th_wait_all_spec (fun _ => true) demo_threads (fun _ _ _ _ => Or.inr rfl)
  exact ⟨r, t, hrun, hiff.2 ⟨0, by decide, by decide⟩, hempty 0 (by decide)⟩

/-- Witness of `th_kill_all_spec`: `th_kill_all` on `demo_threads`, whose one
record is `PENDING`, returns `THD_OK` and leaves the record `CANCELLED`. -/
theorem th_kill_all_spec_witness :
    demo_threads 0 = some demo_thread_info ∧
    (th_kill_all demo_threads).1 = THD_OK ∧
    (th_kill_all demo_threads).2 0 =
      some { demo_thread_info with state := ThreadState.CANCELLED } :=
  ⟨by decide,
   (th_kill_all_spec demo_threads).2.1.2
     ⟨0, demo_thread_info, by decide, by decide, Or.inl rfl⟩,
   (th_kill_all_spec demo_threads).2.2.1 0 demo_thread_info (by decide) (by decide)
     (Or.inl rfl)⟩

/-- Witness of `signal_handler_table`: installing callback `7` for signal `2`
in a process with no signal table yet. -/
theorem signal_handler_table_witness :
    ∃ h', th_install_signal_handler true true true 2 7 none = .ok (true, some h') ∧
      signal_callback (some h') 2 = .ok (some 7) := by
  obtain ⟨h', hrun, _, hcb, _⟩ :=
    (signal_handler_table none 2 7 (fun _ hh => by simp at hh) (by decide) (by decide)).1
  exact ⟨h', hrun, hcb⟩

/-- Witness of `worker_pass_last_task_wins`: the script `0 1.0 2.0 0`,
`1 3.0 4.0 0` on a zero-filled region ends with slot `0` holding `{1, 1, 2}`,
slot `1` holding `{1, 3, 4}` and the slots `2` to `19` invalid. -/
theorem worker_pass_last_task_wins_witness :
    ShmState.init.UseSemaphores = false ∧
    ∃ final, thread_entry_point simOs ShmState.init demo_tasks (zero_region, SimKernel.boot)
        = .ok (final, SimKernel.boot) ∧
      final 0 = { is_valid := 1, x := 1, y := 2 } ∧
      final 1 = { is_valid := 1, x := 3, y := 4 } ∧
      ∀ i, 2 ≤ i → i < 20 → (final i).is_valid = 0 := by
  obtain ⟨final, hrun, hall⟩ :=
    worker_pass_last_task_wins simOs ShmState.init demo_tasks zero_region SimKernel.boot rfl
      (by simp [demo_tasks])
  refine ⟨rfl, final, hrun, ?_, ?_, ?_⟩
  · have h := hall 0 (by decide)
    simp [last_task_for, demo_tasks] at h
    exact h.1
  · have h := hall 1 (by decide)
    simp [last_task_for, demo_tasks] at h
    exact h.1
  · intro i h2 h20
    have h := hall i (by simpa [MAX_NUM_POINTS] using h20)
    have e0 : ¬ ((0 : Int) = (i : Int)) := by omega
    have e1 : ¬ ((1 : Int) = (i : Int)) := by omega
    simp [last_task_for, demo_tasks, e0, e1] at h
    rw [h]
    rfl

/-! ### The point helpers -/

/-- C23: for an index in `[0, 20)`, `install_point` makes the element at the
index equal to the point (all three fields) and leaves every other element as
it was; for an index below `0` or at least `20` it leaves the region as it was. -/
theorem install_point_frame {F : Type} (addr : Region F) (index : Int) (point : Point F) :
    (0 ≤ index → index < 20 →
      install_point addr index point index.toNat = point ∧
      ∀ i, i ≠ index.toNat → install_point addr index point i = addr i) ∧
    (index < 0 ∨ index ≥ 20 → install_point addr index point = addr) := by
  constructor
  · intro h0 h20
    have hr : ¬ (index < 0 ∨ index ≥ (MAX_NUM_POINTS : Int)) := by
      simp [MAX_NUM_POINTS]; omega
    simp only [install_point, hr, if_false]
    exact ⟨Function.update_same _ _ _, fun i hi => Function.update_noteq hi _ _⟩
  · intro h
    have hr : index < 0 ∨ index ≥ (MAX_NUM_POINTS : Int) := by
      simp [MAX_NUM_POINTS]; omega
    simp only [install_point, hr, if_true]

/-- Witness of `install_point_frame`: installing `{1, 3, 4}` at index `1` of a
zero-filled region. -/
theorem install_point_frame_witness :
    install_point zero_region 1 { is_valid := 1, x := 3, y := 4 } (1 : Int).toNat
      = { is_valid := 1, x := 3, y := 4 } ∧
    install_point zero_region 20 { is_valid := 1, x := 3, y := 4 } = zero_region :=
  ⟨((install_point_frame zero_region 1 { is_valid := 1, x := 3, y := 4 }).1
      (by decide) (by decide)).1,
   (install_point_frame zero_region 20 { is_valid := 1, x := 3, y := 4 }).2
      (Or.inr (by decide))⟩

/-- C24: for an index in `[0, 20)`, `invalidate_point` sets `is_valid` of the
element at the index to `0`, keeps its `x` and `y`, and leaves every other
element as it was; for an index below `0` or at least `20` it leaves the region
as it was; and invalidating twice gives the region that invalidating once gives. -/
theorem invalidate_point_frame {F : Type} (addr : Region F) (index : Int) :
    (0 ≤ index → index < 20 →
      (invalidate_point addr index index.toNat).is_valid = 0 ∧
      (invalidate_point addr index index.toNat).x = (addr index.toNat).x ∧
      (invalidate_point addr index index.toNat).y = (addr index.toNat).y ∧
      ∀ i, i ≠ index.toNat → invalidate_point addr index i = addr i) ∧
    (index < 0 ∨ index ≥ 20 → invalidate_point addr index = addr) ∧
    invalidate_point (invalidate_point addr index) index = invalidate_point addr index := by
  by_cases hr : index < 0 ∨ index ≥ (MAX_NUM_POINTS : Int)
  · have hr' : index < 0 ∨ index ≥ 20 := by simpa [MAX_NUM_POINTS] using hr
    refine ⟨fun h0 h20 => ?_, fun _ => ?_, ?_⟩
    · omega
    · simp only [invalidate_point, hr, if_true]
    · simp only [invalidate_point, hr, if_true]
  · have hr' : ¬ (index < 0 ∨ index ≥ 20) := by simpa [MAX_NUM_POINTS] using hr
    refine ⟨fun _ _ => ?_, fun h => absurd h hr', ?_⟩
    · simp only [invalidate_point, hr, if_false, Function.update_same]
      exact ⟨trivial, trivial, trivial, fun i hi => Function.update_noteq hi _ _⟩
    · simp only [invalidate_point, hr, if_false, Function.update_same, Function.update_idem]

/-- Witness of `invalidate_point_frame`: invalidating index `1` of a region
whose every element is `{1, 3, 4}`. -/
theorem invalidate_point_frame_witness :
    (invalidate_point (fun _ => ({ is_valid := 1, x := 3, y := 4 } : Point ℚ)) 1
      (1 : Int).toNat).is_valid = 0 ∧
    (invalidate_point (fun _ => ({ is_valid := 1, x := 3, y := 4 } : Point ℚ)) 1
      (1 : Int).toNat).x = 3 ∧
    invalidate_point (fun _ => ({ is_valid := 1, x := 3, y := 4 } : Point ℚ)) (-1)
      = (fun _ => { is_valid := 1, x := 3, y := 4 }) :=
  ⟨((invalidate_point_frame (fun _ => ({ is_valid := 1, x := 3, y := 4 } : Point ℚ)) 1).1
      (by decide) (by decide)).1,
   ((invalidate_point_frame (fun _ => ({ is_valid := 1, x := 3, y := 4 } : Point ℚ)) 1).1
      (by decide) (by decide)).2.1,
   (invalidate_point_frame (fun _ => ({ is_valid := 1, x := 3, y := 4 } : Point ℚ)) (-1)).2.1
      (Or.inl (by decide))⟩

/-! ### The list -/

/-- A value held by a node splits the chain at its first occurrence. -/
theorem erase_split {α : Type} [DecidableEq α] (l : List α) (value : α) (hmem : value ∈ l) :
    ∃ l₁ l₂, value ∉ l₁ ∧ l = l₁ ++ value :: l₂ ∧ l.erase value = l₁ ++ l₂ ∧
      l.indexOf value = l₁.length := by
  obtain ⟨l₁, l₂, h1, h2, h3⟩ := List.exists_erase_eq hmem
  refine ⟨l₁, l₂, h1, h2, h3, ?_⟩
  rw [h2, List.indexOf_append_of_not_mem h1]
  simp

/-- A new list has its `tail` and `size` right. -/
theorem tail_is_last_new {α : Type} : tail_is_last (new_list : CList α) := by
  simp [tail_is_last, new_list]

/-- A push onto a list whose `tail` and `size` are right appends the value at
the end and keeps them right. -/
theorem tail_is_last_push {α : Type} (list : CList α) (value : α) (hinv : tail_is_last list) :
    ∃ l', push_list_item list value = .ok l' ∧ l'.items = list.items ++ [value] ∧
      l'.size = list.size + 1 ∧ tail_is_last l' := by
  obtain ⟨ht, hs⟩ := hinv
  cases hl : list.items with
  | nil =>
    refine ⟨{ size := list.size + 1, items := [value], tail := some 0 }, ?_, rfl, rfl, ?_⟩
    · simp [push_list_item, hl]
    · simp [tail_is_last, hs, hl]
  | cons x xs =>
    have hne : list.items ≠ [] := by simp [hl]
    have ht' : list.tail = some (list.items.length - 1) := by
      rw [ht]; simp [hl]
    have hp := push_list_item_append list value hne ht'
    rw [hl] at hp
    refine ⟨_, hp, rfl, rfl, ?_⟩
    simp [tail_is_last, hs, hl]

/-- Removing a value that no node holds, or whose first node is the last of
the chain, keeps `tail` and `size` right. -/
theorem tail_is_last_remove_last {α : Type} [DecidableEq α] (list : CList α) (value : α)
    (hinv : tail_is_last list)
    (hlast : value ∈ list.items → list.items.indexOf value + 1 = list.items.length) :
    tail_is_last (remove_list_item list value).2 := by
  by_cases hmem : value ∈ list.items
  · obtain ⟨l₁, l₂, _, h2, h3, h4⟩ := erase_split list.items value hmem
    have hl := hlast hmem
    obtain ⟨ht, hs⟩ := hinv
    have hlen : list.items.length = l₁.length + l₂.length + 1 := by
      rw [h2]; simp; omega
    have h20 : l₂.length = 0 := by omega
    simp only [remove_list_item, hmem, if_true, tail_is_last, h3, h4, hs, hlen,
      List.length_append]
    constructor
    · by_cases h0 : l₁.length = 0
      · simp [h0, h20]
      · simp [h0, h20]
    · push_cast; omega
  · simp only [remove_list_item, hmem, if_false]
    exact hinv

/-- C27: `remove_list_item` returns `true` exactly when some node holds the
value.  Then the chain from the head is the one before without the first node
holding the value, the other values in their order, and `size` is one less.
When it returns `false` the list is as it was. -/
theorem remove_list_item_spec {α : Type} [DecidableEq α] (list : CList α) (value : α) :
    ((remove_list_item list value).1 = true ↔ value ∈ list.items) ∧
    (value ∈ list.items →
      ∃ before after, list.items = before ++ value :: after ∧ value ∉ before ∧
        (remove_list_item list value).2.items = before ++ after ∧
        (remove_list_item list value).2.size = list.size - 1) ∧
    (value ∉ list.items → remove_list_item list value = (false, list)) := by
  refine ⟨?_, ?_, ?_⟩
  · by_cases hmem : value ∈ list.items
    · simp [remove_list_item, hmem]
    · simp [remove_list_item, hmem]
  · intro hmem
    obtain ⟨l₁, l₂, h1, h2, h3, _⟩ := erase_split list.items value hmem
    exact ⟨l₁, l₂, h2, h1, by simp [remove_list_item, hmem, h3], by simp [remove_list_item, hmem]⟩
  · intro hmem
    simp [remove_list_item, hmem]

/-- Witness of `remove_list_item_spec`: removing `2` from the list `1, 2, 3, 2`
leaves `1, 3, 2`; removing `5` changes nothing. -/
theorem remove_list_item_spec_witness :
    (remove_list_item ({ size := 4, items := [1, 2, 3, 2], tail := some 3 } : CList Nat) 2).1
      = true ∧
    (remove_list_item ({ size := 4, items := [1, 2, 3, 2], tail := some 3 } : CList Nat) 2).2.items
      = [1, 3, 2] ∧
    remove_list_item ({ size := 4, items := [1, 2, 3, 2], tail := some 3 } : CList Nat) 5
      = (false, { size := 4, items := [1, 2, 3, 2], tail := some 3 }) :=
  ⟨(remove_list_item_spec
      ({ size := 4, items := [1, 2, 3, 2], tail := some 3 } : CList Nat) 2).1.2 (by decide),
   by decide,
   (remove_list_item_spec
      ({ size := 4, items := [1, 2, 3, 2], tail := some 3 } : CList Nat) 5).2.2 (by decide)⟩

/-- C28: in a list whose `tail` and `size` are right, removing a value whose
first node is not the last of the chain leaves a `tail` that is not the last
node.  A push then dereferences `NULL` when the node removed was the head, and
otherwise cuts out every node past the predecessor of the node removed, so the
list holds fewer nodes than before the remove instead of as many. -/
theorem remove_breaks_tail_invariant {α : Type} [DecidableEq α] (list : CList α)
    (value a : α) (hinv : tail_is_last list) (hmem : value ∈ list.items)
    (hnotlast : list.items.indexOf value + 1 < list.items.length) :
    ¬ tail_is_last (remove_list_item list value).2 ∧
    (list.items.indexOf value = 0 →
      push_list_item (remove_list_item list value).2 a = .error Fault.nullDeref) ∧
    (0 < list.items.indexOf value →
      ∃ l', push_list_item (remove_list_item list value).2 a = .ok l' ∧
        l'.items = list.items.take (list.items.indexOf value) ++ [a] ∧
        l'.items.length < list.items.length ∧ ¬ tail_is_last l') := by
  obtain ⟨l₁, l₂, _, h2, h3, h4⟩ := erase_split list.items value hmem
  have hlen : list.items.length = l₁.length + l₂.length + 1 := by
    rw [h2]; simp; omega
  have h20 : 0 < l₂.length := by omega
  obtain ⟨x, xs, hx⟩ : ∃ x xs, l₂ = x :: xs := by
    cases l₂ with
    | nil => simp at h20
    | cons x xs => exact ⟨x, xs, rfl⟩
  have hr : (remove_list_item list value).2 =
      { size := list.size - 1, items := l₁ ++ l₂,
        tail := if l₁.length = 0 then none else some (l₁.length - 1) } := by
    simp [remove_list_item, hmem, h3, h4]
  refine ⟨?_, ?_, ?_⟩
  · rw [hr]
    intro hbad
    have h1 : (if l₁.length = 0 then none else some (l₁.length - 1)) =
        (if (l₁ ++ l₂).length = 0 then none else some ((l₁ ++ l₂).length - 1)) := hbad.1
    have hne : ¬ (l₁ ++ l₂).length = 0 := by simp only [List.length_append]; omega
    rw [if_neg hne] at h1
    by_cases h0 : l₁.length = 0
    · rw [if_pos h0] at h1
      cases h1
    · rw [if_neg h0] at h1
      simp only [Option.some.injEq, List.length_append] at h1
      omega
  · intro h0
    rw [hr]
    have hl1 : l₁ = [] := by
      rw [h4] at h0
      exact List.length_eq_zero.mp h0
    subst hl1
    subst hx
    simp [push_list_item]
  · intro hpos
    rw [hr]
    have h0 : l₁.length ≠ 0 := by omega
    obtain ⟨y, ys, hy⟩ : ∃ y ys, l₁ = y :: ys := by
      cases l₁ with
      | nil => simp at h0
      | cons y ys => exact ⟨y, ys, rfl⟩
    have htake : (l₁ ++ l₂).take (l₁.length - 1 + 1) = l₁ := by
      have : l₁.length - 1 + 1 = l₁.length := by omega
      rw [this]
      simp
    have htake' : list.items.take (list.items.indexOf value) = l₁ := by
      rw [h4, h2]
      simp
    refine ⟨{ size := list.size - 1 + 1, items := l₁ ++ [a],
              tail := some l₁.length }, ?_, ?_, ?_, ?_⟩
    · unfold push_list_item
      simp only [h0, if_false]
      have hc : l₁ ++ l₂ = y :: (ys ++ l₂) := by rw [hy]; rfl
      rw [hc]
      simp only []
      rw [← hc, htake]
    · rw [htake']
    · simp only [List.length_append, List.length_singleton]
      omega
    · intro hbad
      have h1 := hbad.2
      have h5 := hinv.2
      simp only [List.length_append, List.length_singleton] at h1
      rw [h5, hlen] at h1
      push_cast at h1
      omega

/-- Witness of `remove_breaks_tail_invariant`: removing `2` from the list
`1, 2, 3` and pushing `4` leaves the chain `1, 4`. -/
theorem remove_breaks_tail_invariant_witness :
    tail_is_last ({ size := 3, items := [1, 2, 3], tail := some 2 } : CList Nat) ∧
    ∃ l', push_list_item
        (remove_list_item ({ size := 3, items := [1, 2, 3], tail := some 2 } : CList Nat) 2).2 4
        = .ok l' ∧ l'.items = [1, 4] := by
  have hinv : tail_is_last ({ size := 3, items := [1, 2, 3], tail := some 2 } : CList Nat) := by
    simp [tail_is_last]
  obtain ⟨l', h1, h2, _, _⟩ :=
    (remove_breaks_tail_invariant ({ size := 3, items := [1, 2, 3], tail := some 2 } : CList Nat)
      2 4 hinv (by decide) (by decide)).2.2 (by decide)
  exact ⟨hinv, l', h1, by rw [h2]; decide⟩

/-! ### Insert, lookup and delete in the table -/

/-- A probe that goes round without stopping met an occupied slot at each of
its steps. -/
theorem probe_cycle_occupied {V : Type} (h : Hash V) (key : Int) :
    ∀ (fuel i : Nat), i < h.size → probe h key fuel i = Probe.cycle →
      ∀ t, t < fuel → h.hash_array ((i + t) % h.size) ≠ none := by
  intro fuel
  induction fuel with
  | zero => intro i _ _ t ht; omega
  | succ fuel ih =>
    intro i hi hp t ht
    unfold probe at hp
    cases hs : h.hash_array i with
    | none => simp [hs] at hp
    | some node =>
      simp only [hs] at hp
      by_cases hk : node.key = key
      · simp [hk] at hp
      · simp only [hk, if_false] at hp
        have hpos : 0 < h.size := by omega
        cases t with
        | zero =>
          rw [Nat.add_zero, Nat.mod_eq_of_lt hi, hs]
          simp
        | succ t =>
          have := ih ((i + 1) % h.size) (Nat.mod_lt _ hpos) hp t (by omega)
          rw [Nat.mod_add_mod] at this
          have e : i + (t + 1) = i + 1 + t := by omega
          rw [e]
          exact this

/-- In a table with a `NULL` slot the probe from a slot of the table stops. -/
theorem probe_stops {V : Type} (h : Hash V) (key : Int) (i : Nat) (hi : i < h.size)
    (hempty : ∃ e, e < h.size ∧ h.hash_array e = none) :
    ∃ j, probe h key h.size i = Probe.found j ∨ probe h key h.size i = Probe.empty j := by
  cases hp : probe h key h.size i with
  | found j => exact ⟨j, Or.inl rfl⟩
  | empty j => exact ⟨j, Or.inr rfl⟩
  | cycle =>
    exfalso
    obtain ⟨e, he, hnone⟩ := hempty
    have hocc := probe_cycle_occupied h key h.size i hi hp
    by_cases hge : i ≤ e
    · have := hocc (e - i) (by omega)
      have e1 : i + (e - i) = e := by omega
      rw [e1, Nat.mod_eq_of_lt he] at this
      exact this hnone
    · have := hocc (e + h.size - i) (by omega)
      have e1 : i + (e + h.size - i) = e + h.size := by omega
      rw [e1, Nat.add_mod_right, Nat.mod_eq_of_lt he] at this
      exact this hnone

/-- Tables whose slots are occupied alike have as many occupied slots. -/
theorem occupied_slots_congr {V : Type} (h h' : Hash V) (hsz : h'.size = h.size)
    (hsame : ∀ i, (h'.hash_array i).isSome = (h.hash_array i).isSome) :
    occupied_slots h' = occupied_slots h := by
  unfold occupied_slots
  rw [hsz]
  congr 1
  apply List.filter_congr
  intro i _
  exact hsame i

/-- A step of the probe on an occupied slot with another key goes on to the
next slot. -/
theorem probe_step_skip {V : Type} (h : Hash V) (key : Int) (fuel i : Nat) (node : HashNode V)
    (hs : h.hash_array i = some node) (hk : node.key ≠ key) :
    probe h key (fuel + 1) i = probe h key fuel ((i + 1) % h.size) := by
  simp [probe, hs, hk]

/-- A step of the probe on a slot with the key stops there. -/
theorem probe_step_found {V : Type} (h : Hash V) (key : Int) (fuel i : Nat) (node : HashNode V)
    (hs : h.hash_array i = some node) (hk : node.key = key) :
    probe h key (fuel + 1) i = Probe.found i := by
  simp [probe, hs, hk]

/-- A step of the probe on a `NULL` slot stops there. -/
theorem probe_step_empty {V : Type} (h : Hash V) (key : Int) (fuel i : Nat)
    (hs : h.hash_array i = none) :
    probe h key (fuel + 1) i = Probe.empty i := by
  simp [probe, hs]

/-- C26: in a table with a `NULL` slot, `insert_hash_item(h, k, v)` returns and
changes one slot `j`, and `get_hash_item(h, k)` then returns the node of slot
`j`, with key `k` and value `v`.  A second insert for `k` returns, changes slot
`j` only, the lookup returns the node with the second value, and the number of
occupied slots is the same as after the first insert. -/
theorem insert_then_lookup {V : Type} (h : Hash V) (key : Int) (v : V) (sz : Int)
    (hempty : ∃ e, e < h.size ∧ h.hash_array e = none) :
    ∃ h1 j, insert_hash_item h key v sz = .ok h1 ∧
      get_hash_item h1 key = .ok (some (j, { key := key, size := sz, value := v })) ∧
      (∀ i, i ≠ j → h1.hash_array i = h.hash_array i) ∧
      ∀ (v2 : V) (sz2 : Int), ∃ h2, insert_hash_item h1 key v2 sz2 = .ok h2 ∧
        get_hash_item h2 key = .ok (some (j, { key := key, size := sz2, value := v2 })) ∧
        (∀ i, i ≠ j → h2.hash_array i = h1.hash_array i) ∧
        occupied_slots h2 = occupied_slots h1 := by
  have hsz : h.size ≠ 0 := by
    obtain ⟨e, he, _⟩ := hempty
    omega
  obtain ⟨j, hp⟩ := probe_stops h key (get_hash_index h key) (get_hash_index_lt h key hsz) hempty
  have hins : ∀ (h0 : Hash V) (w : V) (s : Int), h0.size ≠ 0 →
      (probe h0 key h0.size (get_hash_index h0 key) = Probe.found j ∨
        probe h0 key h0.size (get_hash_index h0 key) = Probe.empty j) →
      insert_hash_item h0 key w s = .ok { h0 with
        hash_array := Function.update h0.hash_array j
          (some { key := key, size := s, value := w }) } := by
    intro h0 w s hs0 hp0
    rcases hp0 with hp0 | hp0 <;> simp [insert_hash_item, hs0, hp0]
  refine ⟨Hash.mk h.size (Function.update h.hash_array j
      (some { key := key, size := sz, value := v })), j, hins h v sz hsz hp, ?_, ?_, ?_⟩
  · exact get_hash_item_update h key j _ hsz rfl hp
  · intro i hi
    exact Function.update_noteq hi _ _
  · intro v2 sz2
    have hp1 := probe_update_at_stop h key { key := key, size := sz, value := v } rfl j
      h.size (get_hash_index h key) hp
    have hp1' : probe (Hash.mk h.size (Function.update h.hash_array j
          (some { key := key, size := sz, value := v }))) key
        (Hash.mk h.size (Function.update h.hash_array j
          (some { key := key, size := sz, value := v }))).size
        (get_hash_index (Hash.mk h.size (Function.update h.hash_array j
          (some { key := key, size := sz, value := v }))) key) = Probe.found j := hp1
    refine ⟨_, hins _ v2 sz2 hsz (Or.inl hp1'), ?_, ?_, ?_⟩
    · exact get_hash_item_update _ key j _ hsz rfl (Or.inl hp1')
    · intro i hi
      exact Function.update_noteq hi _ _
    · refine occupied_slots_congr _ _ rfl (fun i => ?_)
      by_cases hi : i = j
      · subst hi; simp
      · simp [Function.update_noteq hi]

/-- Witness of `insert_then_lookup`: the key `-1` in a new table of four slots. -/
theorem insert_then_lookup_witness :
    (new_hash 4 : Hash Nat).hash_array 0 = none ∧
    ∃ h1 j, insert_hash_item (new_hash 4 : Hash Nat) (-1) 7 8 = .ok h1 ∧
      get_hash_item h1 (-1) = .ok (some (j, { key := -1, size := 8, value := 7 })) := by
  obtain ⟨h1, j, hi, hg, _⟩ :=
    insert_then_lookup (new_hash 4 : Hash Nat) (-1) 7 8 ⟨0, by decide, rfl⟩
  exact ⟨rfl, h1, j, hi, hg⟩

/-- C29: in a new table of `n ≥ 3` slots the keys `0` and `n` hash to slot `0`,
so after `insert(0)` and `insert(n)` the key `n` sits in slot `1`, where
`get_hash_item` finds it, and the table has a `NULL` slot.  After
`delete_hash_item(0)` slot `1` still holds the key `n` but `get_hash_item(n)`
stops at slot `0`, now `NULL`, and returns `NULL`. -/
theorem delete_hides_colliding_key {V : Type} (n : Nat) (v v' : V) (sz sz' : Int)
    (h3 : 3 ≤ n) (h32 : n < 4294967296) :
    ∃ h1 h2 hd, insert_hash_item (new_hash n) 0 v sz = .ok h1 ∧
      insert_hash_item h1 (n : Int) v' sz' = .ok h2 ∧
      (∃ e, e < h2.size ∧ h2.hash_array e = none) ∧
      get_hash_item h2 (n : Int) = .ok (some (1, { key := (n : Int), size := sz', value := v' })) ∧
      delete_hash_item h2 0 = .ok (true, hd) ∧
      hd.hash_array 1 = some { key := (n : Int), size := sz', value := v' } ∧
      get_hash_item hd (n : Int) = .ok none := by
  obtain ⟨m, rfl⟩ : ∃ m, n = m + 3 := ⟨n - 3, by omega⟩
  have hk : ¬ ((0 : Int) = ((m + 3 : Nat) : Int)) := by omega
  have hin : ∀ (h : Hash V), h.size = m + 3 → get_hash_index h ((m + 3 : Nat) : Int) = 0 := by
    intro h hs
    have : (((m + 3 : Nat) : Int) % 4294967296).toNat = m + 3 := by omega
    simp only [get_hash_index, hs, this, Nat.mod_self]
  generalize ((m + 3 : Nat) : Int) = k at hk hin ⊢
  have hi0 : ∀ (h : Hash V), h.size = m + 3 → get_hash_index h 0 = 0 := by
    intro h hs; simp [get_hash_index, hs]
  have h1mod : 1 % (m + 3) = 1 := Nat.mod_eq_of_lt (by omega)
  have hsz : ¬ (m + 3 = 0) := by omega
  have hk0 : ((0 : Int) ≠ k) := hk
  have p1 : probe (new_hash (m + 3) : Hash V) 0 (m + 2 + 1) 0 = Probe.empty 0 :=
    probe_step_empty _ _ _ _ rfl
  have p2 : probe (Hash.mk (m + 3) (Function.update (fun _ => none) 0
      (some { key := 0, size := sz, value := v }))) k (m + 2 + 1) 0 = Probe.empty 1 := by
    rw [probe_step_skip _ k (m + 2) 0 { key := 0, size := sz, value := v } (by simp) hk0]
    show probe _ k (m + 1 + 1) ((0 + 1) % (m + 3)) = _
    rw [Nat.zero_add, h1mod]
    exact probe_step_empty _ _ _ _ (by simp)
  have p3 : probe (Hash.mk (m + 3) (Function.update (Function.update (fun _ => none) 0
      (some { key := 0, size := sz, value := v })) 1
      (some { key := k, size := sz', value := v' }))) k (m + 2 + 1) 0 = Probe.found 1 := by
    rw [probe_step_skip _ k (m + 2) 0 { key := 0, size := sz, value := v } (by simp) hk0]
    show probe _ k (m + 1 + 1) ((0 + 1) % (m + 3)) = _
    rw [Nat.zero_add, h1mod]
    exact probe_step_found _ _ _ _ { key := k, size := sz', value := v' } (by simp) rfl
  have p4 : probe (Hash.mk (m + 3) (Function.update (Function.update (fun _ => none) 0
      (some { key := 0, size := sz, value := v })) 1
      (some { key := k, size := sz', value := v' }))) 0 (m + 2 + 1) 0 = Probe.found 0 :=
    probe_step_found _ _ _ _ { key := 0, size := sz, value := v } (by simp) rfl
  have p5 : probe (Hash.mk (m + 3) (Function.update (Function.update (Function.update
      (fun _ => none) 0 (some { key := 0, size := sz, value := v })) 1
      (some { key := k, size := sz', value := v' })) 0 none)) k (m + 2 + 1) 0 = Probe.empty 0 :=
    probe_step_empty _ _ _ _ (by simp)
  refine ⟨Hash.mk (m + 3) (Function.update (fun _ => none) 0
              (some { key := 0, size := sz, value := v })),
          Hash.mk (m + 3) (Function.update (Function.update (fun _ => none) 0
              (some { key := 0, size := sz, value := v })) 1
              (some { key := k, size := sz', value := v' })),
          Hash.mk (m + 3) (Function.update (Function.update (Function.update
              (fun _ => none) 0 (some { key := 0, size := sz, value := v })) 1
              (some { key := k, size := sz', value := v' })) 0 none),
          ?_, ?_, ?_, ?_, ?_, ?_, ?_⟩
  · unfold insert_hash_item
    rw [hi0 _ rfl]
    simp only [new_hash, hsz, if_false]
    rw [show probe (Hash.mk (m + 3) (fun _ => none) : Hash V) 0 (m + 3) 0 = Probe.empty 0 from p1]
  · unfold insert_hash_item
    rw [hin _ rfl]
    simp only [hsz, if_false]
    rw [show probe _ k (m + 3) 0 = Probe.empty 1 from p2]
  · exact ⟨2, by simp, by simp⟩
  · unfold get_hash_item
    rw [hin _ rfl]
    simp only [hsz, if_false]
    rw [show probe _ k (m + 3) 0 = Probe.found 1 from p3]
    simp
  · unfold delete_hash_item
    rw [hi0 _ rfl]
    simp only [hsz, if_false]
    rw [show probe _ 0 (m + 3) 0 = Probe.found 0 from p4]
  · simp
  · unfold get_hash_item
    rw [hin _ rfl]
    simp only [hsz, if_false]
    rw [show probe _ k (m + 3) 0 = Probe.empty 0 from p5]

/-- Witness of `delete_hides_colliding_key`: the keys `0` and `4` in a table of
four slots. -/
theorem delete_hides_colliding_key_witness :
    ∃ h1 h2 hd, insert_hash_item (new_hash 4 : Hash Nat) 0 10 8 = .ok h1 ∧
      insert_hash_item h1 4 11 8 = .ok h2 ∧
      get_hash_item h2 4 = .ok (some (1, { key := 4, size := 8, value := 11 })) ∧
      delete_hash_item h2 0 = .ok (true, hd) ∧
      get_hash_item hd 4 = .ok none := by
  obtain ⟨h1, h2, hd, a, b, _, c, d, _, e⟩ :=
    delete_hides_colliding_key 4 (10 : Nat) 11 8 8 (by decide) (by decide)
  exact ⟨h1, h2, hd, a, b, c, d, e⟩

/-! ### The statistics of `show_points` -/

/-- The first loop of `show_points` counts the elements with `is_valid == 1`
among those it visits and adds their `x` and their `y`, in the order of the
indexes, to the sums. -/
theorem collect_points_spec {F : Type} (ops : FloatOps F) (shmaddr : Region F) :
    ∀ (n idx : Nat) (acc : Int × F × F),
      collect_points ops shmaddr n idx acc =
        (acc.1 + (((List.range' idx n).filter
            (fun i => decide ((shmaddr i).is_valid = 1))).length : Int),
         (((List.range' idx n).filter (fun i => decide ((shmaddr i).is_valid = 1))).map
            (fun i => (shmaddr i).x)).foldl ops.add acc.2.1,
         (((List.range' idx n).filter (fun i => decide ((shmaddr i).is_valid = 1))).map
            (fun i => (shmaddr i).y)).foldl ops.add acc.2.2) := by
  intro n
  induction n with
  | zero => intro idx acc; simp [collect_points]
  | succ n ih =>
    intro idx acc
    rw [collect_points, ih, List.range'_succ]
    by_cases hv : (shmaddr idx).is_valid = 1
    · simp only [hv, if_true, List.filter_cons, decide_True, List.length_cons, List.map_cons,
        List.foldl_cons]
      refine Prod.ext ?_ rfl
      simp only []
      push_cast
      omega
    · simp only [hv, if_false, List.filter_cons, decide_False, Bool.false_eq_true]

/-- C25: `show_points` reports as `valid_count` the number of elements below
`max` with `is_valid == 1`.  When there is one, the averages are the sum of the
`x` (of the `y`) of exactly these elements, added in the order of the indexes
starting from `0`, divided by that number.  When there is none it reports
`valid_count = 0` with the fixed averages and divides nothing. -/
theorem show_points_spec {F : Type} (ops : FloatOps F) (shmaddr : Region F) (max : Int) :
    (∀ i, i ∈ valid_slots shmaddr max ↔ (i : Int) < max ∧ (shmaddr i).is_valid = 1) ∧
    (show_points ops shmaddr max).valid_count = ((valid_slots shmaddr max).length : Int) ∧
    (valid_slots shmaddr max ≠ [] →
      (show_points ops shmaddr max).avg_x =
        ops.div_int (((valid_slots shmaddr max).map (fun i => (shmaddr i).x)).foldl
          ops.add ops.zero) ((valid_slots shmaddr max).length : Int) ∧
      (show_points ops shmaddr max).avg_y =
        ops.div_int (((valid_slots shmaddr max).map (fun i => (shmaddr i).y)).foldl
          ops.add ops.zero) ((valid_slots shmaddr max).length : Int)) ∧
    (valid_slots shmaddr max = [] →
      show_points ops shmaddr max =
        { valid_count := 0, avg_x := ops.zero, avg_y := ops.zero }) := by
  have hc := collect_points_spec ops shmaddr max.toNat 0 (0, ops.zero, ops.zero)
  rw [← List.range_eq_range'] at hc
  have hc' : collect_points ops shmaddr max.toNat 0 (0, ops.zero, ops.zero) =
      (((valid_slots shmaddr max).length : Int),
       ((valid_slots shmaddr max).map (fun i => (shmaddr i).x)).foldl ops.add ops.zero,
       ((valid_slots shmaddr max).map (fun i => (shmaddr i).y)).foldl ops.add ops.zero) := by
    rw [hc]
    simp [valid_slots]
  refine ⟨?_, ?_, ?_, ?_⟩
  · intro i
    simp only [valid_slots, List.mem_filter, List.mem_range, decide_eq_true_eq]
    constructor
    · rintro ⟨h1, h2⟩
      exact ⟨by omega, h2⟩
    · rintro ⟨h1, h2⟩
      exact ⟨by omega, h2⟩
  · unfold show_points
    simp only [hc']
    by_cases hpos : ((valid_slots shmaddr max).length : Int) > 0
    · simp only [hpos, if_true]
    · simp only [hpos, if_false]
      omega
  · intro hne
    have hpos : ((valid_slots shmaddr max).length : Int) > 0 := by
      have := List.length_pos.mpr hne
      omega
    unfold show_points
    simp only [hc', hpos, if_true, and_self]
  · intro hnil
    unfold show_points
    simp [hc', hnil]

/-- Witness of `show_points_spec`: on the region with `{1, 1, 2}`, `{1, 3, 4}`
and eighteen invalid elements the report is `valid_count = 2`, `avg_x = 2`,
`avg_y = 3`. -/
theorem show_points_spec_witness :
    valid_slots demo_region 20 = [0, 1] ∧
    (show_points ratOps demo_region 20).valid_count = 2 ∧
    (show_points ratOps demo_region 20).avg_x = 2 ∧
    (show_points ratOps demo_region 20).avg_y = 3 := by
  have hv : valid_slots demo_region 20 = [0, 1] := by decide
  have h := show_points_spec ratOps demo_region 20
  obtain ⟨_, hcount, havg, _⟩ := h
  have hne : valid_slots demo_region 20 ≠ [] := by rw [hv]; simp
  obtain ⟨hx, hy⟩ := havg hne
  rw [hv] at hcount hx hy
  refine ⟨hv, hcount, ?_, ?_⟩
  · rw [hx]
    simp [ratOps, demo_region, install_point, MAX_NUM_POINTS, zero_region]
    norm_num
  · rw [hy]
    simp [ratOps, demo_region, install_point, MAX_NUM_POINTS, zero_region]
    norm_num

/-! ### Parsing the script -/

/-- What `create_entry` does to a list whose `tail` and `size` are right: a
line with four items and an index in `[0, 20)` appends its task, any other
line changes nothing. -/
theorem create_entry_cases {F : Type} (sscanf : String → Scanned F)
    (task_list : CList (PointTask F)) (line : String) (hinv : tail_is_last task_list) :
    ∃ l, create_entry sscanf task_list line = .ok l ∧ tail_is_last l ∧
      l.items = task_list.items ++
        (if (sscanf line).found_items = 4 ∧ 0 ≤ (sscanf line).index ∧ (sscanf line).index < 20
         then [{ index := (sscanf line).index, delay := (sscanf line).delay,
                 point := { is_valid := 1, x := (sscanf line).x, y := (sscanf line).y } }]
         else []) ∧
      l.size = task_list.size +
        (if (sscanf line).found_items = 4 ∧ 0 ≤ (sscanf line).index ∧ (sscanf line).index < 20
         then 1 else 0) ∧
      (¬ ((sscanf line).found_items = 4 ∧ 0 ≤ (sscanf line).index ∧
          (sscanf line).index < 20) → l = task_list) := by
  unfold create_entry
  by_cases h4 : (sscanf line).found_items = 4
  · by_cases hr : (sscanf line).index < 0 ∨ (sscanf line).index ≥ (MAX_NUM_POINTS : Int)
    · have hc : ¬ ((sscanf line).found_items = 4 ∧ 0 ≤ (sscanf line).index ∧
          (sscanf line).index < 20) := by
        simp only [MAX_NUM_POINTS] at hr
        push_cast at hr
        omega
      refine ⟨task_list, ?_, hinv, ?_, ?_, fun _ => rfl⟩
      · simp [h4, hr]
      · simp [hc]
      · simp [hc]
    · have hc : (sscanf line).found_items = 4 ∧ 0 ≤ (sscanf line).index ∧
          (sscanf line).index < 20 := by
        simp only [MAX_NUM_POINTS] at hr
        push_cast at hr
        omega
      obtain ⟨l, hp, hitems, hsize, hl⟩ := tail_is_last_push task_list
        { index := (sscanf line).index, delay := (sscanf line).delay,
          point := { is_valid := 1, x := (sscanf line).x, y := (sscanf line).y } } hinv
      refine ⟨l, ?_, hl, ?_, ?_, fun hn => absurd hc hn⟩
      · simp only [h4, ne_eq, not_true_eq_false, if_false, hr]
        exact hp
      · rw [hitems, if_pos hc]
      · rw [hsize, if_pos hc]
  · have hc : ¬ ((sscanf line).found_items = 4 ∧ 0 ≤ (sscanf line).index ∧
        (sscanf line).index < 20) := fun h => h4 h.1
    refine ⟨task_list, ?_, hinv, ?_, ?_, fun _ => rfl⟩
    · simp [h4]
    · simp [hc]
    · simp [hc]

/-- The loop over the lines appends, in order, the tasks of the lines with four
items and an index in `[0, 20)`. -/
theorem read_lines_spec {F : Type} (sscanf : String → Scanned F) :
    ∀ (lines : List String) (task_list : CList (PointTask F)), tail_is_last task_list →
      ∃ l, read_lines sscanf lines task_list = .ok l ∧ tail_is_last l ∧
        l.items = task_list.items ++ lines.filterMap (fun line =>
          if (sscanf line).found_items = 4 ∧ 0 ≤ (sscanf line).index ∧
              (sscanf line).index < 20
          then some { index := (sscanf line).index, delay := (sscanf line).delay,
                      point := { is_valid := 1, x := (sscanf line).x, y := (sscanf line).y } }
          else none) := by
  intro lines
  induction lines with
  | nil => intro task_list hinv; exact ⟨task_list, rfl, hinv, by simp⟩
  | cons line rest ih =>
    intro task_list hinv
    obtain ⟨l1, h1, hl1, hitems1, _, _⟩ := create_entry_cases sscanf task_list line hinv
    obtain ⟨l, h2, hl, hitems⟩ := ih l1 hl1
    refine ⟨l, ?_, hl, ?_⟩
    · simp only [read_lines, h1]
      exact h2
    · rw [hitems, hitems1, List.filterMap_cons]
      by_cases hc : (sscanf line).found_items = 4 ∧ 0 ≤ (sscanf line).index ∧
          (sscanf line).index < 20
      · simp [hc]
      · simp [hc]

/-- C22: on a list built by `create_entry`, a line for which `sscanf` assigns
four items with `0 ≤ index < 20` appends one task, with these four values and
`is_valid = 1`; any other line leaves the list as it was.  The list parsed from
a file is, in order, the tasks of the lines of the first kind, so each of its
tasks has an index in `[0, 20)` and `is_valid = 1`. -/
theorem create_entry_spec {F : Type} (sscanf : String → Scanned F)
    (task_list : CList (PointTask F)) (line : String) (hinv : tail_is_last task_list) :
    ((sscanf line).found_items = 4 ∧ 0 ≤ (sscanf line).index ∧ (sscanf line).index < 20 →
      ∃ l, create_entry sscanf task_list line = .ok l ∧ tail_is_last l ∧
        l.items = task_list.items ++
          [{ index := (sscanf line).index, delay := (sscanf line).delay,
             point := { is_valid := 1, x := (sscanf line).x, y := (sscanf line).y } }] ∧
        l.size = task_list.size + 1) ∧
    (¬ ((sscanf line).found_items = 4 ∧ 0 ≤ (sscanf line).index ∧
        (sscanf line).index < 20) →
      create_entry sscanf task_list line = .ok task_list) ∧
    (∀ lines : List String, ∃ l, parse_script sscanf lines = .ok l ∧ tail_is_last l ∧
      l.items = lines.filterMap (fun line =>
        if (sscanf line).found_items = 4 ∧ 0 ≤ (sscanf line).index ∧
            (sscanf line).index < 20
        then some { index := (sscanf line).index, delay := (sscanf line).delay,
                    point := { is_valid := 1, x := (sscanf line).x, y := (sscanf line).y } }
        else none) ∧
      ∀ task ∈ l.items, 0 ≤ task.index ∧ task.index < 20 ∧ task.point.is_valid = 1) := by
  obtain ⟨l, hrun, hl, hitems, hsize, hsame⟩ := create_entry_cases sscanf task_list line hinv
  refine ⟨fun hc => ⟨l, hrun, hl, ?_, ?_⟩, fun hc => ?_, fun lines => ?_⟩
  · rw [hitems, if_pos hc]
  · rw [hsize, if_pos hc]
  · rw [hrun, hsame hc]
  · obtain ⟨p, hp, hpl, hpitems⟩ := read_lines_spec sscanf lines new_list tail_is_last_new
    refine ⟨p, hp, hpl, ?_, ?_⟩
    · rw [hpitems]
      simp [new_list]
    · intro task htask
      rw [hpitems] at htask
      simp only [new_list, List.nil_append, List.mem_filterMap] at htask
      obtain ⟨ln, _, hln⟩ := htask
      by_cases hc : (sscanf ln).found_items = 4 ∧ 0 ≤ (sscanf ln).index ∧
          (sscanf ln).index < 20
      · rw [if_pos hc] at hln
        simp only [Option.some.injEq] at hln
        subst hln
        exact ⟨hc.2.1, hc.2.2, rfl⟩
      · rw [if_neg hc] at hln
        simp at hln

/-- Witness of `create_entry_spec`: the lines `20 0 0 0`, `abc`, `3 9.0 9.0 0`
give the one task `{index 3, x 9.0, y 9.0, delay 0}`. -/
theorem create_entry_spec_witness :
    tail_is_last (new_list : CList (PointTask Decimal)) ∧
    create_entry sscanf_decimal new_list "20 0 0 0" = .ok new_list ∧
    create_entry sscanf_decimal new_list "abc" = .ok new_list ∧
    ∃ l, parse_script sscanf_decimal ["20 0 0 0", "abc", "3 9.0 9.0 0"] = .ok l ∧
      l.items = [{ index := 3, delay := 0,
                   point := { is_valid := 1, x := { mantissa := 90, scale := 1 },
                              y := { mantissa := 90, scale := 1 } } }] := by
  refine ⟨tail_is_last_new, ?_, ?_, ?_⟩
  · exact (create_entry_spec sscanf_decimal new_list "20 0 0 0" tail_is_last_new).2.1
      (by decide)
  · exact (create_entry_spec sscanf_decimal new_list "abc" tail_is_last_new).2.1 (by decide)
  · obtain ⟨l, hrun, _, hitems, _⟩ :=
      (create_entry_spec sscanf_decimal new_list "abc" tail_is_last_new).2.2
        ["20 0 0 0", "abc", "3 9.0 9.0 0"]
    refine ⟨l, hrun, ?_⟩
    rw [hitems]
    decide

/-! ### Restarting the producer -/

/-- What a task leaves in a slot depends on the region through that slot only. -/
theorem apply_task_local {F : Type} (task : PointTask F) (r1 r2 : Region F) (i : Nat)
    (h : r1 i = r2 i) : apply_task task r1 i = apply_task task r2 i := by
  by_cases he : task.index = (i : Int)
  · by_cases hi : i < MAX_NUM_POINTS
    · by_cases hd : task.delay ≥ 0
      · rw [(apply_task_same task r1 i hi he).1 hd, (apply_task_same task r2 i hi he).1 hd]
      · rw [(apply_task_same task r1 i hi he).2 (by omega),
          (apply_task_same task r2 i hi he).2 (by omega), h]
    · have hr : task.index < 0 ∨ task.index ≥ (MAX_NUM_POINTS : Int) := by
        right; rw [he]; exact_mod_cast Nat.le_of_not_lt hi
      simp only [apply_task, hr, if_true]
      exact h
  · rw [apply_task_other task r1 i he, apply_task_other task r2 i he, h]

/-- What a pass leaves in a slot depends on the region through that slot only. -/
theorem replay_local {F : Type} :
    ∀ (tasks : List (PointTask F)) (r1 r2 : Region F) (i : Nat), r1 i = r2 i →
      tasks.foldl (fun region task => apply_task task region) r1 i =
        tasks.foldl (fun region task => apply_task task region) r2 i := by
  intro tasks
  induction tasks with
  | nil => intro r1 r2 i h; exact h
  | cons task rest ih =>
    intro r1 r2 i h
    simp only [List.foldl_cons]
    exact ih _ _ i (apply_task_local task r1 r2 i h)

/-- A slot into which some task of the list installs a point ends the same
from any two regions. -/
theorem replay_installed {F : Type} :
    ∀ (tasks : List (PointTask F)) (r1 r2 : Region F) (i : Nat), i < MAX_NUM_POINTS →
      (∃ task ∈ tasks, task.index = (i : Int) ∧ task.delay ≥ 0) →
      tasks.foldl (fun region task => apply_task task region) r1 i =
        tasks.foldl (fun region task => apply_task task region) r2 i := by
  intro tasks
  induction tasks with
  | nil => intro r1 r2 i _ h; simp at h
  | cons task rest ih =>
    intro r1 r2 i hi h
    simp only [List.foldl_cons]
    by_cases ht : task.index = (i : Int) ∧ task.delay ≥ 0
    · apply replay_local
      rw [(apply_task_same task r1 i hi ht.1).1 ht.2, (apply_task_same task r2 i hi ht.1).1 ht.2]
    · apply ih _ _ i hi
      obtain ⟨t, hmem, hidx, hdel⟩ := h
      rcases List.mem_cons.mp hmem with heq | hrest
      · subst heq
        exact absurd ⟨hidx, hdel⟩ ht
      · exact ⟨t, hrest, hidx, hdel⟩

/-- A zero-filled slot into which no task of the list installs a point stays
zero-filled. -/
theorem replay_keeps_zero {F : Type} (zero : F) :
    ∀ (tasks : List (PointTask F)) (r : Region F) (i : Nat), i < MAX_NUM_POINTS →
      r i = { is_valid := 0, x := zero, y := zero } →
      (∀ task ∈ tasks, ¬ (task.index = (i : Int) ∧ task.delay ≥ 0)) →
      tasks.foldl (fun region task => apply_task task region) r i =
        { is_valid := 0, x := zero, y := zero } := by
  intro tasks
  induction tasks with
  | nil => intro r i _ h _; exact h
  | cons task rest ih =>
    intro r i hi h hno
    simp only [List.foldl_cons]
    apply ih _ i hi
    · by_cases he : task.index = (i : Int)
      · have hd : task.delay < 0 := by
          have := hno task (List.mem_cons_self _ _)
          by_contra hc
          exact this ⟨he, by omega⟩
        rw [(apply_task_same task r i hi he).2 hd, h]
      · rw [apply_task_other task r i he, h]
    · intro t ht
      exact hno t (List.mem_cons_of_mem _ ht)

/-- C21, amended: with locking disabled, a run with one `SIGHUP`, at any time,
and a run without both return.  They end with the same contents in every slot
`i < 20` into which some task installs a point, and in every slot that was
zero-filled at attach time; so they end with the same contents in all 20 slots
when the region was zero-filled at attach time, as a new segment is. -/
theorem restart_run_final {σ F : Type} (os : OsModel σ) (st : ShmState) (ops : FloatOps F)
    (Tasks : CList (PointTask F)) (region : Region F) (w : σ) (k m : Nat)
    (hsem : st.UseSemaphores = false) :
    ∃ restarted plain,
      producer_run os st ops Tasks (some (k, m)) (region, w) = .ok (restarted, w) ∧
      producer_run os st ops Tasks none (region, w) = .ok (plain, w) ∧
      (∀ i, i < MAX_NUM_POINTS →
        (∃ task ∈ Tasks.items, task.index = (i : Int) ∧ task.delay ≥ 0) →
        restarted i = plain i) ∧
      (∀ i, i < MAX_NUM_POINTS →
        region i = { is_valid := 0, x := ops.zero, y := ops.zero } →
        restarted i = plain i) ∧
      ((∀ i, i < MAX_NUM_POINTS →
          region i = { is_valid := 0, x := ops.zero, y := ops.zero }) →
        ∀ i, i < MAX_NUM_POINTS → restarted i = plain i) := by
  have hrun := iterate_nodes_unlocked (F := F) os st hsem
  have hrestart : producer_run os st ops Tasks (some (k, m)) (region, w) =
      .ok (Tasks.items.foldl (fun region task => apply_task task region)
        (((Tasks.items.drop k).take m).foldl (fun region task => apply_task task region)
          (clear_and_restart ops
            ((Tasks.items.take k).foldl (fun region task => apply_task task region) region))),
        w) := by
    simp only [producer_run, thread_entry_point, iterate_list, hrun]
  have hplain : producer_run os st ops Tasks none (region, w) =
      .ok (Tasks.items.foldl (fun region task => apply_task task region) region, w) := by
    simp only [producer_run, thread_entry_point, iterate_list, hrun]
  have hzero : ∀ i, i < MAX_NUM_POINTS →
      region i = { is_valid := 0, x := ops.zero, y := ops.zero } →
      Tasks.items.foldl (fun region task => apply_task task region)
        (((Tasks.items.drop k).take m).foldl (fun region task => apply_task task region)
          (clear_and_restart ops
            ((Tasks.items.take k).foldl (fun region task => apply_task task region) region))) i
      = Tasks.items.foldl (fun region task => apply_task task region) region i := by
    intro i hi hz
    by_cases hex : ∃ task ∈ Tasks.items, task.index = (i : Int) ∧ task.delay ≥ 0
    · exact replay_installed _ _ _ i hi hex
    · apply replay_local
      rw [hz]
      apply replay_keeps_zero ops.zero _ _ i hi
      · simp [clear_and_restart, hi]
      · intro t ht hc
        exact hex ⟨t, List.mem_of_mem_drop (List.mem_of_mem_take ht), hc⟩
  refine ⟨_, _, hrestart, hplain, ?_, hzero, fun hall i hi => hzero i hi (hall i hi)⟩
  intro i hi hex
  exact replay_installed _ _ _ i hi hex

/-- Witness of `restart_run_final`: the script `0 1.0 2.0 0`, `1 3.0 4.0 0` on
a zero-filled region, with a `SIGHUP` immediately after startup. -/
theorem restart_run_final_witness :
    ShmState.init.UseSemaphores = false ∧
    ∃ restarted plain,
      producer_run simOs ShmState.init ratOps demo_tasks (some (0, 0))
        (zero_region, SimKernel.boot) = .ok (restarted, SimKernel.boot) ∧
      producer_run simOs ShmState.init ratOps demo_tasks none
        (zero_region, SimKernel.boot) = .ok (plain, SimKernel.boot) ∧
      ∀ i, i < MAX_NUM_POINTS → restarted i = plain i := by
  obtain ⟨restarted, plain, h1, h2, _, _, h5⟩ :=
    restart_run_final simOs ShmState.init ratOps demo_tasks zero_region SimKernel.boot 0 0 rfl
  exact ⟨rfl, restarted, plain, h1, h2, h5 (fun _ _ => rfl)⟩

/-- C21 as stated fails: the region attached held `{1, 5, 5}` in every element.
With the script `0 1.0 2.0 0`, `1 3.0 4.0 0` the run with a `SIGHUP` immediately
after startup ends with slot `2` zero-filled, the run without ends with slot
`2` still `{1, 5, 5}`. -/
theorem restart_run_differs :
    (returned (stale_region, SimKernel.boot)
      (producer_run simOs ShmState.init ratOps demo_tasks (some (0, 0))
        (stale_region, SimKernel.boot))).1 2 = { is_valid := 0, x := 0, y := 0 } ∧
    (returned (zero_region, SimKernel.boot)
      (producer_run simOs ShmState.init ratOps demo_tasks none
        (stale_region, SimKernel.boot))).1 2 = { is_valid := 1, x := 5, y := 5 } := by
  constructor
  · rfl
  · rfl

/-! ### Detaching from the key `-1` -/

/-- The scan returns the key of the first descriptor, in the order of the
slots, whose attachment list holds the address. -/
theorem find_key_from_first (nodes : Hash SegmentNode) (addr : Addr) (j : Nat)
    (node : HashNode SegmentNode) (hnode : nodes.hash_array j = some node)
    (hmem : addr ∈ node.value.attachments.items)
    (hfirst : ∀ i, i < j → ∀ d, nodes.hash_array i = some d →
      addr ∉ d.value.attachments.items) :
    ∀ (n i : Nat), i ≤ j → j < i + n → find_key_from nodes addr n i = node.value.key := by
  intro n
  induction n with
  | zero => intro i h1 h2; omega
  | succ n ih =>
    intro i h1 h2
    unfold find_key_from
    by_cases hij : i = j
    · subst hij
      simp [hnode, hmem]
    · have hlt : i < j := by omega
      cases hs : nodes.hash_array i with
      | none => exact ih _ (by omega) (by omega)
      | some d =>
        simp only [hfirst i hlt d hs, if_false]
        exact ih _ (by omega) (by omega)

/-- C30: when the first descriptor of the table whose attachment list holds
the address is the one registered under the key `-1`, `detach_shm(address)`
returns `SHM_ERROR` (`-1`), makes no kernel call, whatever the OS-level detach
would have done, and leaves the address in the list. -/
theorem detach_shm_key_minus_one {σ : Type} (os : OsModel σ) (addr : Addr) (st : ShmState)
    (w : σ) (nodes : Hash SegmentNode) (j : Nat) (node : HashNode SegmentNode)
    (hn : st.SegmentNodes = some nodes) (hj : j < nodes.size)
    (hnode : nodes.hash_array j = some node) (hkey : node.value.key = -1)
    (hmem : addr ∈ node.value.attachments.items)
    (hfirst : ∀ i, i < j → ∀ d, nodes.hash_array i = some d →
      addr ∉ d.value.attachments.items) :
    detach_shm os addr st w = .ok (SHM_ERROR, st, w) := by
  have hfind : find_key_for_address nodes addr = SHM_ERROR := by
    unfold find_key_for_address
    rw [find_key_from_first nodes addr j node hnode hmem hfirst nodes.size 0 (Nat.zero_le _)
      (by omega), hkey]
    rfl
  simp [detach_shm, hn, hfind]

/-- Witness of `detach_shm_key_minus_one`: in a fresh process on the toy
kernel `connect_shm(-1, 80)` returns the address `4096` and registers it under
the key `-1`; `detach_shm(4096)` then returns `SHM_ERROR` and the address is
still registered and still attached in the kernel. -/
theorem detach_shm_key_minus_one_witness :
    demo_minus_one.1 = 4096 ∧
    attached_addresses demo_minus_one.2.1 (-1) = [4096] ∧
    demo_minus_one.2.2.attached = [(4096, 4294967295)] ∧
    detach_shm simOs 4096 demo_minus_one.2.1 demo_minus_one.2.2 =
      .ok (SHM_ERROR, demo_minus_one.2.1, demo_minus_one.2.2) := by
  have htable : demo_minus_one.2.1.SegmentNodes = some (Hash.mk 4096
      (Function.update (fun _ => none) 4095
        (some { key := -1, size := SIZEOF_SegmentNode,
                value := { key := -1, shm_id := 4294967295, lock_id := SHM_ERROR, size := 80,
                           attachments := { size := 1, items := [4096], tail := some 0 } } }))) :=
    rfl
  refine ⟨by decide, by decide, by decide, ?_⟩
  refine detach_shm_key_minus_one simOs 4096 demo_minus_one.2.1 demo_minus_one.2.2 _ 4095
    { key := -1, size := SIZEOF_SegmentNode,
      value := { key := -1, shm_id := 4294967295, lock_id := SHM_ERROR, size := 80,
                 attachments := { size := 1, items := [4096], tail := some 0 } } }
    htable (by decide) (by simp) rfl (List.mem_singleton.mpr rfl) ?_
  intro i hi d hd
  have hne : i ≠ 4095 := by omega
  simp [Function.update_noteq hne] at hd

end PointMonitor
